import Mathlib

/-!
Verification of `secretsctx`

Shallow embedding of the core of `aidansteele/secretsctx`:

* `patch.go`   : `patchRapid`, the cross-process scan-and-overwrite loop;
* `process.go` : `Map`, `Permission`, `ReadAt`, `WriteAt`;
* `populate.go`: `fetch`, `populateParameters`, `populateSecrets`, `keys`, `chunk`;
* `main.go`    : the response hook of `serveProxy`.

Go byte slices and strings are lists of bytes, `uint64` values are natural
numbers with every wrapping operation written `% 2 ^ 64`.
-/

namespace Secretsctx

/-! ## Bytes and target memory -/

/-- One byte. -/
abbrev Byte := Fin 256

/-- The address space of the target process: a byte at every address. -/
abbrev Mem := Nat → Byte

/-- The `len` bytes of `mem` starting at address `off`. -/
def readBytes (mem : Mem) (off len : Nat) : List Byte :=
  (List.range len).map fun i => mem (off + i)

/-- The memory `mem` after the bytes `b` were stored from address `off` on. -/
def writeBytes (mem : Mem) (off : Nat) (b : List Byte) : Mem :=
  fun a => if off ≤ a then (b.get? (a - off)).getD (mem a) else mem a

/-- The pattern `pat` stands in `mem` at address `a`. -/
def occursAt (mem : Mem) (a : Nat) (pat : List Byte) : Prop :=
  readBytes mem a pat.length = pat

instance (mem : Mem) (a : Nat) (pat : List Byte) : Decidable (occursAt mem a pat) := by
  unfold occursAt; infer_instance

/-- Memory holding the bytes of `l` from address `0` on and zero elsewhere. -/
def memOfList (l : List Byte) : Mem := fun a => l.getD a 0

/-! ## `process.go` -/

/-- `type Permission uint8`. -/
abbrev Permission := Nat

def PermissionRead : Permission := 1 <<< 0
def PermissionWrite : Permission := 1 <<< 1
def PermissionExecute : Permission := 1 <<< 2
def PermissionShared : Permission := 1 <<< 3
def PermissionPrivate : Permission := 1 <<< 4

/-- `type Map struct`: one line of `/proc/<pid>/maps`. -/
structure Map where
  Start : Nat
  End : Nat
  Permissions : Permission
  Offset : Nat := 0
  Device : String := ""
  Inode : Nat := 0
  Path : String := ""

/-- The two system calls behind `ReadAt` and `WriteAt`: for a remote range
`(off, len)` each answers `none` (the call failed with an error) or `some n`
(`n` bytes were transferred). -/
structure Kernel where
  ProcessVMReadv : Nat → Nat → Option Nat
  ProcessVMWritev : Nat → Nat → Option Nat

/-- What a call of `ReadAt` or `WriteAt` yields. -/
inductive IOResult where
  | panic
  | err
  | done (n : Nat)
  deriving DecidableEq, Repr

/-- `func (p *Process) ReadAt(b []byte, off uint64) (n int, err error)` for a
buffer of `len` bytes; `&b[0]` panics on an empty buffer. -/
def ReadAt (K : Kernel) (len off : Nat) : IOResult :=
  if len = 0 then .panic
  else match K.ProcessVMReadv off len with
    | none => .err
    | some n => .done n

/-- `func (p *Process) WriteAt(b []byte, off uint64) (n int, err error)`. -/
def WriteAt (K : Kernel) (b : List Byte) (off : Nat) : IOResult :=
  if b.length = 0 then .panic
  else match K.ProcessVMWritev off b.length with
    | none => .err
    | some n => .done n

/-! ## `patch.go` -/

/-- `bytes.Index(s, sep)`: the index of the first instance of `sep` in `s`,
`none` standing for `-1`. -/
def bytesIndex : List Byte → List Byte → Option Nat
  | [], sep => if sep = [] then some 0 else none
  | b :: s, sep =>
    if sep.isPrefixOf (b :: s) then some 0
    else (bytesIndex s sep).map (· + 1)

/-- A system call made on the target. -/
inductive Access where
  | read (off len : Nat)
  | write (off len : Nat)
  deriving DecidableEq, Repr

/-- The target process as `patchRapid` sees and changes it: its memory, and
the record of the `ReadAt` and `WriteAt` calls made so far. -/
structure Target where
  mem : Mem
  log : List Access

/-- How a run of `patchRapid` ends. -/
inductive Outcome where
  | ok
  | errMaps
  | errReading
  | errShort
  | errWrite
  | panic
  | outOfFuel
  deriving DecidableEq, Repr

/-- `2 ^ 64`, the modulus of `uint64` arithmetic. -/
def u64 : Nat := 2 ^ 64

/-- `len(buf)` for `buf := make([]byte, 1<<20)`. -/
def bufSize : Nat := 1 <<< 20

/-- `process.PermissionRead | process.PermissionWrite`. -/
def readwrite : Permission := PermissionRead ||| PermissionWrite

/-- The sum `a + b` of two `uint64` values, which wraps at `2 ^ 64`. The sum
is written `b + a`, so that evaluation stops at once when `a` is a variable
and `b` a large constant. -/
def add64 (a b : Nat) : Nat := (b + a) % u64

/-- The length of the window read at `offset`:
`buflen := uint64(len(buf)); if offset+buflen > mm.End { buflen = mm.End - offset }`
(here `offset < mm.End`, so the subtraction does not wrap). -/
def windowLen (End offset : Nat) : Nat :=
  if add64 offset bufSize > End then End - offset else bufSize

/-- The loop `for offset < mm.End { ... }` of `patchRapid`, one unit of fuel
for each iteration. -/
def scanLoop (K : Kernel) (search replace : List Byte) (End : Nat) :
    Nat → Nat → Target → Outcome × Target
  | 0, _, t => (.outOfFuel, t)
  | fuel + 1, offset, t =>
    if offset < End then
      let buflen := windowLen End offset
      let t1 : Target := { t with log := t.log ++ [.read offset buflen] }
      match ReadAt K buflen offset with
      | .panic => (.panic, t1)
      | .err => (.errReading, t1)
      | .done n =>
        if n ≠ buflen then (.errShort, t1)
        else
          match bytesIndex (readBytes t1.mem offset buflen) search with
          | none => scanLoop K search replace End fuel (add64 offset buflen) t1
          | some index =>
            let found := add64 offset index
            let t2 : Target := { t1 with log := t1.log ++ [.write found replace.length] }
            match WriteAt K replace found with
            | .panic => (.panic, t2)
            | .err => (.errWrite, t2)
            | .done m =>
              scanLoop K search replace End fuel offset
                { t2 with mem := writeBytes t2.mem found (replace.take m) }
    else (.ok, t)

/-- The loop `for _, mm := range maps { ... }` of `patchRapid`; `fuel` bounds
the iterations of the inner loop of each region. -/
def patchRegions (K : Kernel) (search replace : List Byte) (fuel : Nat) :
    List Map → Target → Outcome × Target
  | [], t => (.ok, t)
  | mm :: rest, t =>
    if (mm.Permissions &&& readwrite) ≠ readwrite then
      patchRegions K search replace fuel rest t
    else
      match scanLoop K search replace mm.End fuel mm.Start t with
      | (.ok, t1) => patchRegions K search replace fuel rest t1
      | r => r

/-- `func patchRapid(search, replace []byte) error`; `maps` is what
`rapid.Maps()` returned (`none` for an error). -/
def patchRapid (K : Kernel) (fuel : Nat) (maps : Option (List Map)) (t : Target)
    (search replace : List Byte) : Outcome × Target :=
  match maps with
  | none => (.errMaps, t)
  | some ms => patchRegions K search replace fuel ms t

/-- A kernel whose every transfer succeeds in full. -/
def Kernel.ideal : Kernel where
  ProcessVMReadv := fun _ len => some len
  ProcessVMWritev := fun _ len => some len

/-- A region with read and write permission. -/
def Map.rw (mm : Map) : Prop := (mm.Permissions &&& readwrite) = readwrite

instance (mm : Map) : Decidable mm.rw := by unfold Map.rw; infer_instance

/-- The addresses are `uint64` values. -/
def Map.WF (mm : Map) : Prop := mm.Start < u64 ∧ mm.End < u64

instance (mm : Map) : Decidable mm.WF := by unfold Map.WF; infer_instance

/-- The runs of the scan loop over `[offset, End)` that leave normally, as a
relation between the memory before and after: `skip` is an iteration that
finds nothing in its window and advances, `hit` one that overwrites an
occurrence and scans the same window again. -/
inductive Scan (K : Kernel) (s r : List Byte) (End : Nat) : Nat → Mem → Mem → Prop
  | done (o : Nat) (mem : Mem) : End ≤ o → Scan K s r End o mem mem
  | skip (o : Nat) (mem mem' : Mem) : o < End →
      (∀ i, i + s.length ≤ min bufSize (End - o) → ¬ occursAt mem (o + i) s) →
      Scan K s r End (o + min bufSize (End - o)) mem mem' → Scan K s r End o mem mem'
  | hit (o : Nat) (mem mem' : Mem) (idx m : Nat) : o < End →
      idx + s.length ≤ min bufSize (End - o) → occursAt mem (o + idx) s →
      K.ProcessVMWritev (o + idx) r.length = some m →
      Scan K s r End o (writeBytes mem (o + idx) (r.take m)) mem' →
      Scan K s r End o mem mem'

/-- The runs of the loop over the regions that return `nil`. -/
inductive Patch (K : Kernel) (s r : List Byte) : List Map → Mem → Mem → Prop
  | nil (mem : Mem) : Patch K s r [] mem mem
  | skip (mm : Map) (rest : List Map) (mem mem' : Mem) : ¬ mm.rw →
      Patch K s r rest mem mem' → Patch K s r (mm :: rest) mem mem'
  | scan (mm : Map) (rest : List Map) (mem mem1 mem' : Mem) : mm.rw →
      Scan K s r mm.End mm.Start mem mem1 →
      Patch K s r rest mem1 mem' → Patch K s r (mm :: rest) mem mem'

/-- The address range `[a, a + len)` lies inside one scan window of the
region: windows of `bufSize` bytes counted from `Start`, the last cut at `End`. -/
def Map.inWindow (mm : Map) (a len : Nat) : Prop :=
  ∃ k, mm.Start + k * bufSize ≤ a ∧ a + len ≤ min (mm.Start + (k + 1) * bufSize) mm.End

/-- No two read-write regions of the list share an address. -/
def DisjointRW (maps : List Map) : Prop :=
  maps.Pairwise fun m1 m2 => m1.rw → m2.rw → m1.End ≤ m2.Start ∨ m2.End ≤ m1.Start

/-- Writing `r` over an occurrence of `s` completes no new occurrence of `s`:
where a beginning of `s` equals an end of `r` of the same length, `s` ends in
these very bytes, and where an end of `s` equals a beginning of `r`, `s`
begins with these very bytes; so an occurrence of `s` that takes in bytes of
the copy of `r` stood there before the write. -/
def NoFreshMatch (s r : List Byte) : Prop :=
  ∀ k, k < s.length →
    (s.take (k + 1) = r.drop (r.length - (k + 1)) →
      r.drop (r.length - (k + 1)) = s.drop (s.length - (k + 1))) ∧
    (s.drop (s.length - (k + 1)) = r.take (k + 1) → r.take (k + 1) = s.take (k + 1))

instance (s r : List Byte) : Decidable (NoFreshMatch s r) := by
  unfold NoFreshMatch; infer_instance

/-- Every write of the kernel transfers all the bytes it was given. -/
def Kernel.FullWrites (K : Kernel) : Prop :=
  ∀ off len m, K.ProcessVMWritev off len = some m → len ≤ m

/-- Every read and every write of the kernel succeeds in full. -/
def Kernel.Full (K : Kernel) : Prop :=
  ∀ off len, K.ProcessVMReadv off len = some len ∧ K.ProcessVMWritev off len = some len

/-- The number a byte string denotes, most significant byte first. -/
def beVal : List Byte → Nat
  | [] => 0
  | b :: l => b.val * 256 ^ l.length + beVal l

/-- A quantity that every overwrite of `s` by `r` in a window `w` lowers:
the value of the window when `r` denotes less than `s`, its distance from
the largest value when `r` denotes more. -/
def scanMeasure (s r w : List Byte) : Nat :=
  if beVal s < beVal r then 256 ^ w.length - 1 - beVal w else beVal w

/-- The region's bounds are `uint64` values and `End + len(buf)` does not
exceed `2 ^ 64`, so that `offset + buflen` cannot wrap. -/
def Map.NoWrap (mm : Map) : Prop := mm.Start < u64 ∧ mm.End + bufSize ≤ u64

instance (mm : Map) : Decidable mm.NoWrap := by unfold Map.NoWrap; infer_instance

/-- The address range of a system call lies inside `[lo, hi)`. -/
def Access.within (lo hi : Nat) : Access → Prop
  | .read off len => lo ≤ off ∧ off + len ≤ hi
  | .write off len => lo ≤ off ∧ off + len ≤ hi

instance (lo hi : Nat) (ev : Access) : Decidable (ev.within lo hi) := by
  cases ev <;> unfold Access.within <;> infer_instance

/-- A read-write region of eight bytes that ends eight bytes below `2 ^ 64`:
`Start = 2 ^ 64 - 16`, `End = 2 ^ 64 - 8`. -/
def topRegion : Map :=
  { Start := 18446744073709551600, End := 18446744073709551608,
    Permissions := PermissionRead ||| PermissionWrite }

/-- Every read of the kernel succeeds in full. -/
def Kernel.FullReads (K : Kernel) : Prop :=
  ∀ off len, K.ProcessVMReadv off len = some len

/-- The region `[0, 4)` with read and write permission. -/
def smallRegion : Map := { Start := 0, End := 4, Permissions := PermissionRead ||| PermissionWrite }

/-- What `bytes.Index` returns on a window read from memory. -/
def IndexSpec (mem : Mem) (off n : Nat) (sep : List Byte) : Option Nat → Prop
  | none => ∀ i, i + sep.length ≤ n → ¬ occursAt mem (off + i) sep
  | some i => i + sep.length ≤ n ∧ occursAt mem (off + i) sep ∧
      ∀ j, j < i → ¬ occursAt mem (off + j) sep

/-! ## Go strings and maps -/

/-- A Go `string`: a sequence of bytes. -/
abbrev GoString := List Byte

/-- The bytes of a string literal made of ASCII characters. -/
def ascii (s : String) : GoString := s.toList.map fun c => Fin.ofNat c.toNat

/-- A Go `map`, kept as the list of its entries; no key occurs twice. -/
abbrev GoMap (κ ν : Type) := List (κ × ν)

/-- `m[k]` when `k` may be absent. -/
def GoMap.get? {κ ν : Type} [DecidableEq κ] (m : GoMap κ ν) (k : κ) : Option ν :=
  (m.find? fun e => e.1 = k).map Prod.snd

/-- `m[k] = v`: the entry of `k` is replaced when there is one, added otherwise. -/
def GoMap.set {κ ν : Type} [DecidableEq κ] : GoMap κ ν → κ → ν → GoMap κ ν
  | [], k, v => [(k, v)]
  | e :: m, k, v => if e.1 = k then (k, v) :: m else e :: GoMap.set m k v

/-- The order in which a `range` over a map visits its entries: Go leaves it
unspecified, so it is a parameter, some rearrangement of the entries. -/
structure IterOrder where
  order : List GoString → List GoString
  perm : ∀ l, (order l).Perm l

/-- The iteration order that visits the entries as they are listed. -/
def IterOrder.id : IterOrder := ⟨fun l => l, fun l => List.Perm.refl l⟩

/-- `strings.HasPrefix(s, prefix)`. -/
def HasPrefix (s pre : GoString) : Bool := pre.isPrefixOf s

/-- `strings.TrimPrefix(s, prefix)`. -/
def TrimPrefix (s pre : GoString) : GoString :=
  if HasPrefix s pre then s.drop pre.length else s

/-- `strings.Cut(s, sep)`: the text before and after the first instance of
`sep`, and whether `sep` was found. -/
def Cut (s sep : GoString) : GoString × GoString × Bool :=
  match bytesIndex s sep with
  | some i => (s.take i, s.drop (i + sep.length), true)
  | none => (s, [], false)

/-! ## `populate.go` -/

/-- `const prefixSsm = "{aws-ssm}"`. -/
def prefixSsm : GoString := ascii "{aws-ssm}"

/-- `const prefixSm = "{aws-sm}"`. -/
def prefixSm : GoString := ascii "{aws-sm}"

/-- `const envPrefix = "SECRETSCTX_"`. -/
def envPrefix : GoString := ascii "SECRETSCTX_"

/-- `type resolvedValue struct`. -/
structure resolvedValue where
  source : GoString
  value : GoString := []
  deriving DecidableEq, Repr

/-- One entry of `GetParametersOutput.Parameters`. -/
structure Parameter where
  Name : GoString
  Value : GoString
  deriving DecidableEq, Repr

/-- What `ssm.GetParameters` answers. -/
structure GetParametersOutput where
  Parameters : List Parameter
  InvalidParameters : List GoString
  deriving DecidableEq, Repr

/-- What `secretsmanager.GetSecretValue` answers. -/
structure GetSecretValueOutput where
  SecretString : Option GoString
  SecretBinary : Option (List Byte)
  deriving DecidableEq, Repr

/-- The two stores: each call answers with an error (its text) or an output. -/
structure Backend where
  GetParameters : List GoString → Except GoString GetParametersOutput
  GetSecretValue : GoString → Except GoString GetSecretValueOutput

/-- The errors built by `populateParameters` and `populateSecrets`. -/
inductive Error where
  | gettingParameters (cause : GoString)
  | invalidParameters (names : List GoString)
  | gettingSecrets (cause : GoString)
  deriving DecidableEq, Repr

/-- `func keys[K comparable, V any](m map[K]V) []K`. -/
def keys {ν : Type} (ord : IterOrder) (m : GoMap GoString ν) : List GoString :=
  ord.order (m.map Prod.fst)

/-- The loop of `chunk`: `i` runs from its start in steps of `chunkSize`
while `i < len(slice)`, one unit of fuel for each piece. -/
def chunkFrom {τ : Type} (slice : List τ) (chunkSize : Nat) : Nat → Nat → List (List τ)
  | 0, _ => []
  | fuel + 1, i =>
    if i < slice.length then
      let stop := if i + chunkSize > slice.length then slice.length else i + chunkSize
      (slice.drop i).take (stop - i) :: chunkFrom slice chunkSize fuel (i + chunkSize)
    else []

/-- `func chunk[T any](slice []T, chunkSize int) [][]T`, for `chunkSize ≥ 1`:
the loop runs at most `len(slice)` times. -/
def chunk {τ : Type} (slice : List τ) (chunkSize : Nat) : List (List τ) :=
  chunkFrom slice chunkSize slice.length 0

/-- What `populateParameters` did: the name lists of its batch calls in the
order made, and the error or the populated map. -/
structure ParametersRun where
  calls : List (List GoString)
  result : Except Error (GoMap GoString resolvedValue)

/-- The loop `for _, names := range nameChunks` of `populateParameters`. -/
def getParametersLoop (api : Backend) :
    List (List GoString) → GoMap GoString GoString → List (List GoString) →
      List (List GoString) × Except Error (GoMap GoString GoString)
  | [], nameMap, calls => (calls, .ok nameMap)
  | names :: rest, nameMap, calls =>
    match api.GetParameters names with
    | .error e => (calls ++ [names], .error (.gettingParameters e))
    | .ok get =>
      if get.InvalidParameters.length > 0 then
        (calls ++ [names], .error (.invalidParameters get.InvalidParameters))
      else
        getParametersLoop api rest
          (get.Parameters.foldl (fun nm p => GoMap.set nm p.Name p.Value) nameMap)
          (calls ++ [names])

/-- The batch call for `names` succeeds and reports no invalid parameter. -/
def BatchOk (api : Backend) (names : List GoString) : Prop :=
  ∃ get, api.GetParameters names = .ok get ∧ get.InvalidParameters = []

/-- The map `nameMap` of `populateParameters` before the batch calls: an
empty value under every distinct source. -/
def nameMap0 (params : GoMap GoString resolvedValue) : GoMap GoString GoString :=
  params.foldl (fun nm e => GoMap.set nm e.2.source []) []

/-- The parameters that the batch calls for `batches` return, in order. -/
def returnedParameters (api : Backend) (batches : List (List GoString)) : List Parameter :=
  batches.flatMap fun names =>
    match api.GetParameters names with
    | .ok get => get.Parameters
    | .error _ => []

/-- `func populateParameters(ctx, api, params) error`; the map `params` is
changed in place, so the changed map is returned. -/
def populateParameters (ord : IterOrder) (api : Backend)
    (params : GoMap GoString resolvedValue) : ParametersRun :=
  let nameMap := nameMap0 params
  let nameChunks := chunk (keys ord nameMap) 10
  match getParametersLoop api nameChunks nameMap [] with
  | (calls, .error e) => ⟨calls, .error e⟩
  | (calls, .ok nameMap) =>
    ⟨calls, .ok (params.map fun e =>
      (e.1, { e.2 with value := (GoMap.get? nameMap e.2.source).getD [] }))⟩

/-- `type resolvedSecret struct`. -/
structure resolvedSecret where
  arn : GoString
  value : GoString
  deriving DecidableEq, Repr

/-- How `populateSecrets` ends: with an error, with the populated map, or
never, its collector waiting for a result that no worker sends. -/
inductive SecretsRun where
  | error (e : Error)
  | blocked
  | done (secrets : GoMap GoString resolvedValue)
  deriving DecidableEq, Repr

/-- The body of a worker of `populateSecrets` for one identifier: the error of
the call, or what the worker sends to `outch` (nothing when the answer has
neither a string nor a binary value). -/
def getSecret (api : Backend) (secret : GoString) : Except GoString (List resolvedSecret) :=
  match api.GetSecretValue secret with
  | .error e => .error e
  | .ok gsv =>
    match gsv.SecretString with
    | some str => .ok [⟨secret, str⟩]
    | none =>
      match gsv.SecretBinary with
      | some bin => .ok [⟨secret, bin⟩]
      | none => .ok []

/-- The work of the pool of workers of `populateSecrets` on the queued
identifiers: the first error, or everything sent to `outch`. The answer to a
call depends on the identifier alone, so the calls are made one after the
other here. -/
def runWorkers (api : Backend) : List GoString → Except GoString (List resolvedSecret)
  | [] => .ok []
  | secret :: rest =>
    match getSecret api secret with
    | .error e => .error e
    | .ok sent =>
      match runWorkers api rest with
      | .error e => .error e
      | .ok more => .ok (sent ++ more)

/-- The inner loop of the collector of `populateSecrets`:
`for _, v := range secrets { if v.source == secret.arn { v.value = secret.value } }`. -/
def storeSecret (secrets : GoMap GoString resolvedValue) (secret : resolvedSecret) :
    GoMap GoString resolvedValue :=
  secrets.map fun e => if e.2.source = secret.arn then (e.1, { e.2 with value := secret.value }) else e

/-- `func populateSecrets(ctx, api, secrets, concurrency) error`. With no
worker nothing is sent; the collector takes `len(secrets)` results and waits
forever when fewer were sent. -/
def populateSecrets (api : Backend) (secrets : GoMap GoString resolvedValue)
    (concurrency : Nat) : SecretsRun :=
  let inch := secrets.map fun e => e.2.source
  match (if concurrency = 0 then .ok [] else runWorkers api inch) with
  | .error e => .error (.gettingSecrets e)
  | .ok outch =>
    if outch.length < secrets.length then .blocked
    else .done ((outch.take secrets.length).foldl storeSecret secrets)

/-- The text of a secret: its string value when present, otherwise its binary
value converted to text. -/
def secretText (gsv : GetSecretValueOutput) : GoString :=
  match gsv.SecretString with
  | some str => str
  | none => gsv.SecretBinary.getD []

/-- The call for the secret `id` succeeds and answers with a string or a
binary value. -/
def SecretOk (api : Backend) (id : GoString) : Prop :=
  ∃ gsv, api.GetSecretValue id = .ok gsv ∧
    (gsv.SecretString.isSome ∨ gsv.SecretBinary.isSome)

/-- The text that the secret store returns for `id`. -/
def secretValue (api : Backend) (id : GoString) : GoString :=
  match api.GetSecretValue id with
  | .ok gsv => secretText gsv
  | .error _ => []

/-- The fields of `spyext` that `fetch` writes; `env` is `none` for the nil
map it holds before the first call. -/
structure spyext where
  env : Option (GoMap GoString GoString)
  lastFetched : Nat
  deriving DecidableEq, Repr

/-- How a call of `fetch` ends: it returns (with its `error` result), it
panics, or it never returns; each with the `spyext` it leaves. -/
inductive FetchRun where
  | returned (err : Option Error) (s : spyext)
  | panicked (s : spyext)
  | blocked (s : spyext)
  deriving DecidableEq, Repr

/-- The `name` of `name, value, _ := strings.Cut(kv, "=")`. -/
def entryName (kv : GoString) : GoString := (Cut kv (ascii "=")).1

/-- The `value` of `name, value, _ := strings.Cut(kv, "=")`. -/
def entryValue (kv : GoString) : GoString := (Cut kv (ascii "=")).2.1

/-- The loop `for _, kv := range os.Environ()` of `fetch`: the maps `params`
and `secrets`, or `none` when an entry makes it panic. -/
def declared : List GoString → GoMap GoString resolvedValue → GoMap GoString resolvedValue →
    Option (GoMap GoString resolvedValue × GoMap GoString resolvedValue)
  | [], params, secrets => some (params, secrets)
  | kv :: rest, params, secrets =>
    let name := entryName kv
    let value := entryValue kv
    if HasPrefix name envPrefix then
      let key := TrimPrefix name envPrefix
      if HasPrefix value prefixSm then
        declared rest params (GoMap.set secrets key { source := TrimPrefix value prefixSm })
      else if HasPrefix value prefixSsm then
        declared rest (GoMap.set params key { source := TrimPrefix value prefixSsm }) secrets
      else none
    else declared rest params secrets

/-- The map built at the end of `fetch`: `s.env = map[string]string{}`, then
`s.env[k] = v.value` for the entries of `params`, then for those of `secrets`. -/
def mergeEnv (params secrets : GoMap GoString resolvedValue) : GoMap GoString GoString :=
  secrets.foldl (fun env e => GoMap.set env e.1 e.2.value)
    (params.foldl (fun env e => GoMap.set env e.1 e.2.value) [])

/-- `func (s *spyext) fetch(ctx context.Context) error`; `environ` is what
`os.Environ()` returns and `now` what `time.Now()` returns. -/
def fetch (ord : IterOrder) (api : Backend) (environ : List GoString) (now : Nat)
    (s : spyext) : FetchRun :=
  match declared environ [] [] with
  | none => .panicked s
  | some (params, secrets) =>
    match (populateParameters ord api params).result with
    | .error _ => .panicked s
    | .ok params1 =>
      match populateSecrets api secrets 5 with
      | .error _ => .panicked s
      | .blocked => .blocked s
      | .done secrets1 =>
        .returned none { s with env := some (mergeEnv params1 secrets1), lastFetched := now }

/-- Whenever it is asked for `id` the parameter store returns an entry named
`id`, and every entry it returns under that name carries the value `v`. -/
def ParamReturned (api : Backend) (id v : GoString) : Prop :=
  ∀ names get, api.GetParameters names = .ok get →
    (id ∈ names → ∃ p ∈ get.Parameters, p.Name = id) ∧
    (∀ p ∈ get.Parameters, p.Name = id → p.Value = v)

/-- The environment entry declares a name: its name starts with `SECRETSCTX_`. -/
def isDeclared (kv : GoString) : Bool := HasPrefix (entryName kv) envPrefix

/-- The name that an environment entry declares. -/
def declaredKey (kv : GoString) : GoString := TrimPrefix (entryName kv) envPrefix

/-- The entries that `fetch` puts into `params`. -/
def ssmEntries (environ : List GoString) : GoMap GoString resolvedValue :=
  (environ.filter fun kv => isDeclared kv && HasPrefix (entryValue kv) prefixSsm).map
    fun kv => (declaredKey kv, { source := TrimPrefix (entryValue kv) prefixSsm })

/-- The entries that `fetch` puts into `secrets`. -/
def smEntries (environ : List GoString) : GoMap GoString resolvedValue :=
  (environ.filter fun kv => isDeclared kv && HasPrefix (entryValue kv) prefixSm).map
    fun kv => (declaredKey kv, { source := TrimPrefix (entryValue kv) prefixSm })

/-- The map `params` as a successful `populateParameters` leaves it. -/
def filledParams (ord : IterOrder) (api : Backend) (params : GoMap GoString resolvedValue) :
    GoMap GoString resolvedValue :=
  params.map fun e => (e.1, { e.2 with value :=
    (GoMap.get? ((returnedParameters api (chunk (keys ord (nameMap0 params)) 10)).foldl
      (fun nm p => GoMap.set nm p.Name p.Value) (nameMap0 params)) e.2.source).getD [] })

/-- The map `secrets` as a successful `populateSecrets` leaves it. -/
def filledSecrets (api : Backend) (secrets : GoMap GoString resolvedValue) :
    GoMap GoString resolvedValue :=
  secrets.map fun e => (e.1, ⟨e.2.source, secretValue api e.2.source⟩)

/-- A store that answers every name with the value `v` and every secret with
the string `hunter2`. -/
def exampleStore : Backend where
  GetParameters := fun names => .ok ⟨names.map fun n => ⟨n, ascii "v"⟩, []⟩
  GetSecretValue := fun _ => .ok ⟨some (ascii "hunter2"), none⟩

/-- A parameter store that reports every name it is asked for as invalid. -/
def invalidStore : Backend where
  GetParameters := fun names => .ok ⟨[], names⟩
  GetSecretValue := fun _ => .ok ⟨some [], none⟩

/-! ## Regular expressions (`regexp`) -/

/-- The regular expressions that the pattern of `serveProxy` needs, over
bytes: `cls p` is one byte of a class. The pattern is matched byte by byte;
its only class is `[^/]`, and the byte `/` never lies inside the UTF-8
encoding of another character, so this is what the matching character by
character of `regexp` comes to. -/
inductive Regex where
  | never
  | empty
  | cls (p : Byte → Bool)
  | seq (r s : Regex)
  | alt (r s : Regex)
  | star (r : Regex)

/-- The strings that a regular expression matches in full. -/
inductive Regex.Matches : Regex → List Byte → Prop
  | empty : Regex.Matches .empty []
  | cls (p : Byte → Bool) (b : Byte) : p b = true → Regex.Matches (.cls p) [b]
  | seq (r s : Regex) (u v : List Byte) :
      Regex.Matches r u → Regex.Matches s v → Regex.Matches (.seq r s) (u ++ v)
  | altLeft (r s : Regex) (u : List Byte) : Regex.Matches r u → Regex.Matches (.alt r s) u
  | altRight (r s : Regex) (u : List Byte) : Regex.Matches s u → Regex.Matches (.alt r s) u
  | starNil (r : Regex) : Regex.Matches (.star r) []
  | starCons (r : Regex) (u v : List Byte) :
      Regex.Matches r u → Regex.Matches (.star r) v → Regex.Matches (.star r) (u ++ v)

/-- The expression matches the empty string. -/
def Regex.nullable : Regex → Bool
  | .never => false
  | .empty => true
  | .cls _ => false
  | .seq r s => r.nullable && s.nullable
  | .alt r s => r.nullable || s.nullable
  | .star _ => true

/-- What is left to match after the byte `b` was read. -/
def Regex.deriv : Regex → Byte → Regex
  | .never, _ => .never
  | .empty, _ => .never
  | .cls p, b => if p b then .empty else .never
  | .seq r s, b =>
    if r.nullable then .alt (.seq (r.deriv b) s) (s.deriv b) else .seq (r.deriv b) s
  | .alt r s, b => .alt (r.deriv b) (s.deriv b)
  | .star r, b => .seq (r.deriv b) (.star r)

/-- The expression matches the whole of the string. -/
def Regex.fullMatch (r : Regex) : List Byte → Bool
  | [] => r.nullable
  | b :: w => (r.deriv b).fullMatch w

/-- The expression matches a beginning of the string. -/
def Regex.prefixMatch (r : Regex) : List Byte → Bool
  | [] => r.nullable
  | b :: w => r.nullable || (r.deriv b).prefixMatch w

/-- `func (re *Regexp) MatchString(s string) bool`: whether the string
contains any match of the expression. -/
def Regex.MatchString (re : Regex) : GoString → Bool
  | [] => re.prefixMatch []
  | b :: w => re.prefixMatch (b :: w) || Regex.MatchString re w

/-- The expression that matches the string `s` and nothing else. -/
def Regex.lit : GoString → Regex
  | [] => .empty
  | b :: s => .seq (.cls fun c => c == b) (Regex.lit s)

/-- The expression `r+`. -/
def Regex.plus (r : Regex) : Regex := .seq r (.star r)

/-! ## `main.go`: the response hook of the proxy -/

/-- The byte `/`. -/
def slash : Byte := 47

/-- `regexp.MustCompile("/2018-06-01/runtime/invocation/[^/]+/(error|response)")`. -/
def re : Regex :=
  .seq (Regex.lit (ascii "/2018-06-01/runtime/invocation/"))
    (.seq (Regex.plus (.cls fun c => c != slash))
      (.seq (Regex.lit (ascii "/"))
        (.alt (Regex.lit (ascii "error")) (Regex.lit (ascii "response")))))

/-- The path `/2018-06-01/runtime/invocation/<id>/error` or
`/2018-06-01/runtime/invocation/<id>/response` for a non-empty invocation
identifier `<id>` without `/`. -/
def CompletionPath (p : GoString) : Prop :=
  ∃ id term, p = ascii "/2018-06-01/runtime/invocation/" ++ id ++ ascii "/" ++ term ∧
    id ≠ [] ∧ slash ∉ id ∧ (term = ascii "error" ∨ term = ascii "response")

/-! ## `unicode/utf8` -/

/-- `utf8.RuneError`, the replacement character U+FFFD. -/
def RuneError : Nat := 0xFFFD

/-- `utf8.DecodeRuneInString(s)`: the first character of `s` and its width in
bytes; `(RuneError, 1)` for an encoding that is not valid, `(RuneError, 0)`
for the empty string. -/
def DecodeRune : GoString → Nat × Nat
  | [] => (RuneError, 0)
  | s0 :: rest =>
    if s0.val < 0x80 then (s0.val, 1)
    else if s0.val < 0xC2 ∨ 0xF4 < s0.val then (RuneError, 1)
    else
      -- the width, and the range accepted for the second byte
      let sz := if s0.val < 0xE0 then 2 else if s0.val < 0xF0 then 3 else 4
      let lo := if s0.val = 0xE0 then 0xA0 else if s0.val = 0xF0 then 0x90 else 0x80
      let hi := if s0.val = 0xED then 0x9F else if s0.val = 0xF4 then 0x8F else 0xBF
      if rest.length + 1 < sz then (RuneError, 1)
      else
        match rest with
        | [] => (RuneError, 1)
        | s1 :: rest1 =>
          if s1.val < lo ∨ hi < s1.val then (RuneError, 1)
          else if sz ≤ 2 then ((s0.val % 32) * 64 + s1.val % 64, 2)
          else
            match rest1 with
            | [] => (RuneError, 1)
            | s2 :: rest2 =>
              if s2.val < 0x80 ∨ 0xBF < s2.val then (RuneError, 1)
              else if sz ≤ 3 then
                ((s0.val % 16) * 4096 + (s1.val % 64) * 64 + s2.val % 64, 3)
              else
                match rest2 with
                | [] => (RuneError, 1)
                | s3 :: _ =>
                  if s3.val < 0x80 ∨ 0xBF < s3.val then (RuneError, 1)
                  else
                    ((s0.val % 8) * 262144 + (s1.val % 64) * 4096 + (s2.val % 64) * 64
                      + s3.val % 64, 4)

/-- `utf8.AppendRune`: the UTF-8 encoding of a character; a surrogate or a
value beyond U+10FFFF is encoded as U+FFFD. -/
def encodeRune (c : Nat) : GoString :=
  if c < 0x80 then [Fin.ofNat c]
  else if c < 0x800 then [Fin.ofNat (0xC0 + c / 64), Fin.ofNat (0x80 + c % 64)]
  else if (0xD800 ≤ c ∧ c < 0xE000) ∨ 0x10FFFF < c then [0xEF, 0xBF, 0xBD]
  else if c < 0x10000 then
    [Fin.ofNat (0xE0 + c / 4096), Fin.ofNat (0x80 + c / 64 % 64), Fin.ofNat (0x80 + c % 64)]
  else
    [Fin.ofNat (0xF0 + c / 262144), Fin.ofNat (0x80 + c / 4096 % 64),
      Fin.ofNat (0x80 + c / 64 % 64), Fin.ofNat (0x80 + c % 64)]

/-- The string holds valid UTF-8: decoding it never meets an encoding that
is not valid. The fuel is the length of the string. -/
def validUTF8Loop : Nat → GoString → Bool
  | 0, s => s.isEmpty
  | _ + 1, [] => true
  | fuel + 1, b :: rest =>
    if (DecodeRune (b :: rest)).1 = RuneError ∧ (DecodeRune (b :: rest)).2 = 1 then false
    else validUTF8Loop fuel ((b :: rest).drop (DecodeRune (b :: rest)).2)

/-- The string holds valid UTF-8. -/
def validUTF8 (s : GoString) : Bool := validUTF8Loop s.length s

/-! ## `encoding/json`: `Marshal` -/

/-- `hex[n]` for `const hex = "0123456789abcdef"`. -/
def hexDigit (n : Nat) : Byte :=
  if n < 10 then Fin.ofNat (48 + n) else Fin.ofNat (87 + n)

/-- `htmlSafeSet[b]`: the ASCII characters that a JSON string holds as they
are when HTML is escaped: all from the space on except `"`, `&`, `<`, `>`
and the backslash. -/
def htmlSafe (b : Byte) : Bool :=
  0x20 ≤ b.val && b.val < 0x80 && b.val != 0x22 && b.val != 0x26 && b.val != 0x3C
    && b.val != 0x3E && b.val != 0x5C

/-- What `appendString` writes for an ASCII byte. -/
def escapeByte (b : Byte) : GoString :=
  if htmlSafe b then [b]
  else if b.val = 0x5C ∨ b.val = 0x22 then [0x5C, b]
  else if b.val = 0x08 then [0x5C, 0x62]
  else if b.val = 0x0C then [0x5C, 0x66]
  else if b.val = 0x0A then [0x5C, 0x6E]
  else if b.val = 0x0D then [0x5C, 0x72]
  else if b.val = 0x09 then [0x5C, 0x74]
  else [0x5C, 0x75, 0x30, 0x30, hexDigit (b.val / 16), hexDigit (b.val % 16)]

/-- The loop of `appendString(dst, src, escapeHTML)` with `escapeHTML` set:
what is written between the quotes. Each iteration consumes at least one
byte of `src`; the fuel is `len(src)`. -/
def appendStringLoop : Nat → GoString → GoString
  | 0, _ => []
  | _ + 1, [] => []
  | fuel + 1, b :: rest =>
    if b.val < 0x80 then escapeByte b ++ appendStringLoop fuel rest
    else
      let c := (DecodeRune (b :: rest)).1
      let size := (DecodeRune (b :: rest)).2
      if c = RuneError ∧ size = 1 then
        ascii "\\ufffd" ++ appendStringLoop fuel rest
      else if c = 0x2028 ∨ c = 0x2029 then
        ascii "\\u202" ++ [hexDigit (c % 16)] ++ appendStringLoop fuel ((b :: rest).drop size)
      else
        (b :: rest).take size ++ appendStringLoop fuel ((b :: rest).drop size)

/-- `appendString(dst, src, true)`: the JSON string for `src`. -/
def appendString (src : GoString) : GoString :=
  ascii "\"" ++ appendStringLoop src.length src ++ ascii "\""

/-- The entries of a map in the order in which `Marshal` writes them: sorted
by key, byte by byte. -/
def sortedEntries (m : GoMap GoString GoString) : GoMap GoString GoString :=
  m.insertionSort fun a b => a.1 ≤ b.1

/-- What `Marshal` writes for the entries of a map. -/
def marshalEntries : GoMap GoString GoString → GoString
  | [] => []
  | [e] => appendString e.1 ++ ascii ":" ++ appendString e.2
  | e :: e' :: rest =>
    appendString e.1 ++ ascii ":" ++ appendString e.2 ++ ascii "," ++ marshalEntries (e' :: rest)

/-- `json.Marshal` of a `map[string]string`; `null` for the nil map. -/
def marshalMap : Option (GoMap GoString GoString) → GoString
  | none => ascii "null"
  | some m => ascii "\x7b" ++ marshalEntries (sortedEntries m) ++ ascii "\x7d"

/-- `json.Marshal(map[string]any{"env": s.env})`. -/
def marshalClientContext (env : Option (GoMap GoString GoString)) : GoString :=
  ascii "\x7b\"env\":" ++ marshalMap env ++ ascii "\x7d"

/-! ## Reading JSON -/

/-- The value of a hexadecimal digit. -/
def hexVal (b : Byte) : Option Nat :=
  if 48 ≤ b.val ∧ b.val ≤ 57 then some (b.val - 48)
  else if 97 ≤ b.val ∧ b.val ≤ 102 then some (b.val - 87)
  else if 65 ≤ b.val ∧ b.val ≤ 70 then some (b.val - 55)
  else none

/-- The value of four hexadecimal digits, and the input after them. -/
def parseHex4 : List Byte → Option (Nat × List Byte)
  | a :: b :: c :: d :: rest =>
    match hexVal a, hexVal b, hexVal c, hexVal d with
    | some x, some y, some z, some w => some (((x * 16 + y) * 16 + z) * 16 + w, rest)
    | _, _, _, _ => none
  | _ => none

/-- The byte that a two-character escape of a JSON string stands for. -/
def simpleEscape (c : Byte) : Option Byte :=
  if c.val = 0x22 then some 0x22
  else if c.val = 0x5C then some 0x5C
  else if c.val = 0x2F then some 0x2F
  else if c.val = 0x62 then some 0x08
  else if c.val = 0x66 then some 0x0C
  else if c.val = 0x6E then some 0x0A
  else if c.val = 0x72 then some 0x0D
  else if c.val = 0x74 then some 0x09
  else none

/-- Puts `pre` before the string of a parse result. -/
def prepend (pre : GoString) (res : Option (GoString × List Byte)) :
    Option (GoString × List Byte) :=
  res.map fun p => (pre ++ p.1, p.2)

/-- Reads a JSON string after its opening quote: the string it stands for
and the input after the closing quote. An escape `\uXXXX` stands for the
UTF-8 encoding of its character, two escapes that form a surrogate pair for
one character, a surrogate alone for U+FFFD; a control character must be
escaped. One unit of fuel for each step. -/
def unquoteLoop : Nat → List Byte → Option (GoString × List Byte)
  | 0, _ => none
  | _ + 1, [] => none
  | fuel + 1, b :: rest =>
    if b.val = 0x22 then some ([], rest)
    else if b.val = 0x5C then
      match rest with
      | [] => none
      | c :: rest1 =>
        if c.val = 0x75 then
          match parseHex4 rest1 with
          | none => none
          | some (cu, rest2) =>
            if 0xD800 ≤ cu ∧ cu < 0xDC00 then
              match rest2 with
              | x :: y :: rest3 =>
                if x.val = 0x5C ∧ y.val = 0x75 then
                  match parseHex4 rest3 with
                  | none => none
                  | some (lo, rest4) =>
                    if 0xDC00 ≤ lo ∧ lo < 0xE000 then
                      prepend (encodeRune (0x10000 + (cu - 0xD800) * 0x400 + (lo - 0xDC00)))
                        (unquoteLoop fuel rest4)
                    else prepend (encodeRune RuneError) (unquoteLoop fuel rest2)
                else prepend (encodeRune RuneError) (unquoteLoop fuel rest2)
              | _ => prepend (encodeRune RuneError) (unquoteLoop fuel rest2)
            else prepend (encodeRune cu) (unquoteLoop fuel rest2)
        else
          match simpleEscape c with
          | none => none
          | some x => prepend [x] (unquoteLoop fuel rest1)
    else if b.val < 0x20 then none
    else prepend [b] (unquoteLoop fuel rest)

/-- Reads a JSON string: the string it stands for and the input after it. -/
def parseString (input : List Byte) : Option (GoString × List Byte) :=
  match input with
  | [] => none
  | q :: rest => if q.val = 0x22 then unquoteLoop rest.length rest else none

/-- Reads the members `"key":"value",...` of a JSON object up to and with
the closing brace. One unit of fuel for each member. -/
def parseEntries : Nat → List Byte → Option (GoMap GoString GoString × List Byte)
  | 0, _ => none
  | fuel + 1, input =>
    match parseString input with
    | none => none
    | some (k, rest1) =>
      match rest1 with
      | [] => none
      | colon :: rest2 =>
        if colon.val ≠ 0x3A then none
        else
          match parseString rest2 with
          | none => none
          | some (v, rest3) =>
            match rest3 with
            | [] => none
            | sep :: rest4 =>
              if sep.val = 0x7D then some ([(k, v)], rest4)
              else if sep.val = 0x2C then
                (parseEntries fuel rest4).map fun p => ((k, v) :: p.1, p.2)
              else none

/-- Reads `null` or a JSON object whose values are strings. -/
def parseMap (input : List Byte) :
    Option (Option (GoMap GoString GoString) × List Byte) :=
  if (ascii "null").isPrefixOf input then some (none, input.drop 4)
  else if (ascii "\x7b\x7d").isPrefixOf input then some (some [], input.drop 2)
  else
    match input with
    | [] => none
    | brace :: rest =>
      if brace.val = 0x7B then
        (parseEntries rest.length rest).map fun p => (some p.1, p.2)
      else none

/-- Reads a JSON document of the shape `{"env":...}` written without white
space: the mapping under `env`, `none` within for `null`. -/
def parseClientContext (input : GoString) : Option (Option (GoMap GoString GoString)) :=
  if (ascii "\x7b\"env\":").isPrefixOf input then
    match parseMap (input.drop 7) with
    | some (m, rest) => if rest = ascii "\x7d" then some m else none
    | none => none
  else none

/-! ## `main.go`: `ModifyResponse` -/

/-- What the hook `ModifyResponse` of `serveProxy` does for a response: the
number of values it sends on `funcDone`, and the value it sets for the header
`Lambda-Runtime-Client-Context`, if any. -/
structure HookRun where
  signals : Nat
  header : Option GoString
  deriving DecidableEq, Repr

/-- `rev.ModifyResponse = func(response *http.Response) error { ... }` for a
response to a request with the path `path`. -/
def ModifyResponse (s : spyext) (path : GoString) : HookRun :=
  let signals := if re.MatchString path then 1 else 0
  if path ≠ ascii "/2018-06-01/runtime/invocation/next" then ⟨signals, none⟩
  else ⟨signals, some (marshalClientContext s.env)⟩

/-! ## Inputs of the examples -/

/-- A kernel whose every read fails with an error. -/
def Kernel.noRead : Kernel where
  ProcessVMReadv := fun _ _ => none
  ProcessVMWritev := fun _ len => some len

/-- A kernel whose every write fails with an error. -/
def Kernel.noWrite : Kernel where
  ProcessVMReadv := fun _ len => some len
  ProcessVMWritev := fun _ _ => none

/-- The address range of a system call shares no address with `[lo, hi)`. -/
def Access.clearOf (lo hi : Nat) : Access → Prop
  | .read off len => off + len ≤ lo ∨ hi ≤ off
  | .write off len => off + len ≤ lo ∨ hi ≤ off

instance (lo hi : Nat) (ev : Access) : Decidable (ev.clearOf lo hi) := by
  cases ev <;> unfold Access.clearOf <;> infer_instance

/-- The region `[4, 8)` with read and write permission. -/
def secondRegion : Map := { Start := 4, End := 8, Permissions := PermissionRead ||| PermissionWrite }

/-- The address that `main` looks for when `AWS_LAMBDA_RUNTIME_API` has its
usual value. -/
def runtimeAddr : GoString := ascii "127.0.0.1:9001"

/-- The `proxyAddr` of `main`, which it writes in place of `runtimeAddr`. -/
def proxyAddr : GoString := ascii "127.0.0.1:8088"

/-- The region `[0, 16)` with read and write permission. -/
def addrRegion : Map := { Start := 0, End := 16, Permissions := PermissionRead ||| PermissionWrite }

/-- Memory that holds `runtimeAddr` from address `1` on, zero around it. -/
def addrMem : Mem := memOfList (0 :: runtimeAddr)

/-- A read-write region of 2 MiB from address `0`: two scan windows. -/
def twoWindows : Map :=
  { Start := 0, End := 2097152, Permissions := PermissionRead ||| PermissionWrite }

/-- A read-write region of 16 bytes right after `twoWindows`. -/
def nextRegion : Map :=
  { Start := 2097152, End := 2097168, Permissions := PermissionRead ||| PermissionWrite }

/-- A region of 16 bytes after `nextRegion` that may be read and not written. -/
def readOnlyRegion : Map := { Start := 2097168, End := 2097184, Permissions := PermissionRead }

/-- Memory that holds the bytes `1 2` at the addresses `2^20 - 1` and `2^20`,
across the boundary of the two windows of `twoWindows`, the bytes `1 2` at
the addresses `2^21 + 4` and `2^21 + 5`, inside `nextRegion`, and zero
elsewhere. -/
def straddling : Mem := fun a =>
  if a = 1048575 ∨ a = 2097156 then 1 else if a = 1048576 ∨ a = 2097157 then 2 else 0

/-- A secret store whose every call succeeds with neither a string nor a
binary value. -/
def emptySecretStore : Backend where
  GetParameters := fun names => .ok ⟨names.map fun n => ⟨n, ascii "v"⟩, []⟩
  GetSecretValue := fun _ => .ok ⟨none, none⟩

/-- A parameter store that answers a name with a version selector, such as
`/p:1`, by the parameter under its plain name `/p`: every name is answered
by an entry named `/p` with the value `v`, and none is reported invalid. -/
def selectorStore : Backend where
  GetParameters := fun names => .ok ⟨names.map fun _ => ⟨ascii "/p", ascii "v"⟩, []⟩
  GetSecretValue := fun _ => .ok ⟨some (ascii "hunter2"), none⟩

/-! ## Reading and writing memory -/

theorem u64_eq : u64 = 18446744073709551616 := by norm_num [u64]

theorem bufSize_eq : bufSize = 1048576 := by decide

theorem add64_eq (a b : Nat) : add64 a b = (a + b) % 18446744073709551616 := by
  rw [add64, u64_eq, Nat.add_comm]

@[simp] theorem readBytes_length (mem : Mem) (off len : Nat) :
    (readBytes mem off len).length = len := by
  simp [readBytes]

theorem readBytes_getElem? (mem : Mem) (off len i : Nat) (h : i < len) :
    (readBytes mem off len)[i]? = some (mem (off + i)) := by
  simp [readBytes, List.getElem?_map, List.getElem?_range h]

theorem readBytes_ext {m1 m2 : Mem} {o1 o2 len : Nat}
    (h : ∀ i, i < len → m1 (o1 + i) = m2 (o2 + i)) :
    readBytes m1 o1 len = readBytes m2 o2 len := by
  unfold readBytes
  apply List.map_congr_left
  intro i hi
  exact h i (List.mem_range.mp hi)

theorem readBytes_succ (mem : Mem) (off len : Nat) :
    readBytes mem off (len + 1) = mem off :: readBytes mem (off + 1) len := by
  simp only [readBytes, List.range_succ_eq_map, List.map_cons, List.map_map, Nat.add_zero]
  congr 1
  apply List.map_congr_left
  intro i _
  simp only [Function.comp]
  congr 1
  omega

theorem readBytes_add (mem : Mem) (off n k : Nat) :
    readBytes mem off (n + k) = readBytes mem off n ++ readBytes mem (off + n) k := by
  induction n generalizing off with
  | zero => simp [readBytes]
  | succ n ih =>
    have : n + 1 + k = (n + k) + 1 := by omega
    rw [this, readBytes_succ, readBytes_succ, ih]
    simp only [List.cons_append]
    congr 3
    omega

theorem occursAt_iff (mem : Mem) (a : Nat) (pat : List Byte) :
    occursAt mem a pat ↔ ∀ i, (h : i < pat.length) → mem (a + i) = pat.get ⟨i, h⟩ := by
  unfold occursAt
  constructor
  · intro h i hi
    have h1 := readBytes_getElem? mem a pat.length i hi
    rw [h] at h1
    rw [List.getElem?_eq_getElem hi] at h1
    simpa using h1.symm
  · intro h
    apply List.ext_getElem?
    intro i
    by_cases hi : i < pat.length
    · rw [readBytes_getElem? mem a _ i hi, List.getElem?_eq_getElem hi]
      simpa using h i hi
    · have h1 : pat.length ≤ i := by omega
      rw [List.getElem?_eq_none (by simpa using h1), List.getElem?_eq_none h1]

theorem writeBytes_outside (mem : Mem) (off : Nat) (b : List Byte) (a : Nat)
    (h : a < off ∨ off + b.length ≤ a) : writeBytes mem off b a = mem a := by
  unfold writeBytes
  split
  · rename_i h1
    have : b.length ≤ a - off := by omega
    simp [List.getElem?_eq_none this]
  · rfl

theorem writeBytes_inside (mem : Mem) (off : Nat) (b : List Byte) (i : Nat)
    (h : i < b.length) : writeBytes mem off b (off + i) = b.get ⟨i, h⟩ := by
  unfold writeBytes
  simp [List.getElem?_eq_getElem h]

theorem occursAt_writeBytes (mem : Mem) (off : Nat) (b : List Byte) :
    occursAt (writeBytes mem off b) off b := by
  rw [occursAt_iff]
  intro i hi
  exact writeBytes_inside mem off b i hi

/-! ## `bytes.Index` -/

theorem prefix_readBytes_iff (mem : Mem) (off n : Nat) (sep : List Byte) :
    sep <+: readBytes mem off n ↔ sep.length ≤ n ∧ occursAt mem off sep := by
  constructor
  · intro h
    have hl : sep.length ≤ n := by simpa using h.length_le
    refine ⟨hl, ?_⟩
    have h2 : n = sep.length + (n - sep.length) := by omega
    rw [h2, readBytes_add] at h
    unfold occursAt
    obtain ⟨t, ht⟩ := h
    exact (List.append_inj ht (by simp)).1.symm
  · rintro ⟨hl, h⟩
    have h2 : n = sep.length + (n - sep.length) := by omega
    rw [h2, readBytes_add]
    unfold occursAt at h
    rw [h]
    exact List.prefix_append _ _

theorem bytesIndex_spec (mem : Mem) (off n : Nat) (sep : List Byte) :
    IndexSpec mem off n sep (bytesIndex (readBytes mem off n) sep) := by
  induction n generalizing off with
  | zero =>
    simp only [readBytes, List.range_zero, List.map_nil, bytesIndex]
    split
    · rename_i h
      subst h
      refine ⟨by simp, by simp [occursAt, readBytes], by intro j hj; omega⟩
    · rename_i h
      intro i hi
      have : sep.length = 0 := by omega
      exact absurd (List.length_eq_zero.mp this) h
  | succ n ih =>
    rw [readBytes_succ, bytesIndex]
    split
    · rename_i h
      rw [← readBytes_succ, List.isPrefixOf_iff_prefix, prefix_readBytes_iff] at h
      exact ⟨by omega, by simpa using h.2, by intro j hj; omega⟩
    · rename_i h
      rw [← readBytes_succ, List.isPrefixOf_iff_prefix, prefix_readBytes_iff] at h
      have ih1 := ih (off + 1)
      cases hb : bytesIndex (readBytes mem (off + 1) n) sep with
      | none =>
        rw [hb] at ih1
        simp only [Option.map_none']
        intro i hi
        cases i with
        | zero => intro hc; exact h ⟨by omega, by simpa using hc⟩
        | succ i =>
          have := ih1 i (by omega)
          have e : off + (i + 1) = off + 1 + i := by omega
          rw [e]; exact this
      | some k =>
        rw [hb] at ih1
        simp only [Option.map_some']
        obtain ⟨h1, h2, h3⟩ := ih1
        refine ⟨by omega, ?_, ?_⟩
        · have e : off + (k + 1) = off + 1 + k := by omega
          rw [e]; exact h2
        · intro j hj
          cases j with
          | zero => intro hc; exact h ⟨by omega, by simpa using hc⟩
          | succ j =>
            have e : off + (j + 1) = off + 1 + j := by omega
            rw [e]; exact h3 j (by omega)

theorem bytesIndex_none {mem : Mem} {off n : Nat} {sep : List Byte}
    (h : bytesIndex (readBytes mem off n) sep = none) :
    ∀ i, i + sep.length ≤ n → ¬ occursAt mem (off + i) sep := by
  have := bytesIndex_spec mem off n sep
  rw [h] at this
  exact this

theorem bytesIndex_some {mem : Mem} {off n : Nat} {sep : List Byte} {i : Nat}
    (h : bytesIndex (readBytes mem off n) sep = some i) :
    i + sep.length ≤ n ∧ occursAt mem (off + i) sep ∧
      ∀ j, j < i → ¬ occursAt mem (off + j) sep := by
  have := bytesIndex_spec mem off n sep
  rw [h] at this
  exact this

theorem bytesIndex_eq_none {mem : Mem} {off n : Nat} {sep : List Byte}
    (h : ∀ i, i + sep.length ≤ n → ¬ occursAt mem (off + i) sep) :
    bytesIndex (readBytes mem off n) sep = none := by
  cases hb : bytesIndex (readBytes mem off n) sep with
  | none => rfl
  | some k =>
    obtain ⟨h1, h2, _⟩ := bytesIndex_some hb
    exact absurd h2 (h k h1)

/-! ## Unfolding the scan loop -/

theorem scanLoop_ge {K : Kernel} {s r : List Byte} {End fuel o : Nat} {t : Target}
    (h : End ≤ o) : scanLoop K s r End (fuel + 1) o t = (.ok, t) := by
  have : ¬ o < End := by omega
  simp [scanLoop, this]

/-- The ways in which an iteration of the scan loop can lead to a normal exit. -/
theorem scanLoop_ok_inv {K : Kernel} {s r : List Byte} {End fuel o : Nat} {t t' : Target}
    (h : scanLoop K s r End (fuel + 1) o t = (.ok, t')) :
    (End ≤ o ∧ t' = t) ∨
    (o < End ∧ windowLen End o ≠ 0 ∧
      K.ProcessVMReadv o (windowLen End o) = some (windowLen End o) ∧
      ((bytesIndex (readBytes t.mem o (windowLen End o)) s = none ∧
          scanLoop K s r End fuel (add64 o (windowLen End o))
            ⟨t.mem, t.log ++ [.read o (windowLen End o)]⟩ = (.ok, t')) ∨
        (∃ idx m, bytesIndex (readBytes t.mem o (windowLen End o)) s = some idx ∧
          r ≠ [] ∧ K.ProcessVMWritev (add64 o idx) r.length = some m ∧
          scanLoop K s r End fuel o
            ⟨writeBytes t.mem (add64 o idx) (r.take m),
              t.log ++ [.read o (windowLen End o)] ++ [.write (add64 o idx) r.length]⟩
            = (.ok, t')))) := by
  by_cases ho : o < End
  · right
    simp only [scanLoop, ho, if_true] at h
    refine ⟨ho, ?_⟩
    unfold ReadAt at h
    by_cases hz : windowLen End o = 0
    · simp [hz] at h
    · simp only [hz, if_false] at h
      cases hr : K.ProcessVMReadv o (windowLen End o) with
      | none => simp [hr] at h
      | some n =>
        simp only [hr] at h
        by_cases hn : n = windowLen End o
        · subst hn
          simp only [ne_eq, not_true_eq_false, if_false] at h
          refine ⟨hz, rfl, ?_⟩
          cases hb : bytesIndex (readBytes t.mem o (windowLen End o)) s with
          | none =>
            left
            simp only [hb] at h
            exact ⟨rfl, h⟩
          | some idx =>
            right
            simp only [hb] at h
            unfold WriteAt at h
            by_cases hrl : r.length = 0
            · simp [hrl] at h
            · simp only [hrl, if_false] at h
              cases hw : K.ProcessVMWritev (add64 o idx) r.length with
              | none => simp [hw] at h
              | some m =>
                simp only [hw] at h
                exact ⟨idx, m, rfl, by intro hc; simp [hc] at hrl, hw, h⟩
        · simp [hn] at h
  · left
    simp only [scanLoop, ho, if_false] at h
    exact ⟨by omega, by simpa using h.symm⟩

/-! ## The window length -/

theorem windowLen_nowrap {End o : Nat} (h : o + bufSize < u64) :
    windowLen End o = if o + bufSize > End then End - o else bufSize := by
  rw [bufSize_eq, u64_eq] at h
  unfold windowLen
  rw [add64_eq, bufSize_eq, Nat.mod_eq_of_lt h]

theorem windowLen_wrap {End o : Nat} (hE : End < u64) (ho : o < End)
    (h : u64 ≤ o + bufSize) :
    windowLen End o = bufSize ∧ add64 o bufSize + u64 = o + bufSize := by
  rw [bufSize_eq, u64_eq] at h
  rw [u64_eq] at hE
  unfold windowLen
  rw [add64_eq, bufSize_eq, u64_eq]
  constructor
  · split <;> omega
  · omega

/-- Once `offset + buflen` has wrapped around `2 ^ 64` the loop never leaves
normally: every later offset is congruent to the wrapping one modulo the
window size, and none of these lies in the final stretch before `End`. -/
theorem scanLoop_wrapped_ne_ok {K : Kernel} {s r : List Byte} {End : Nat} (hE : End < u64)
    (w : Nat) (hw1 : w < End) (hw2 : u64 ≤ w + bufSize) :
    ∀ (fuel x : Nat) (t t' : Target), x < u64 → x % bufSize = w % bufSize →
      scanLoop K s r End fuel x t ≠ (.ok, t') := by
  intro fuel
  induction fuel with
  | zero => intro x t t' _ _ h; simp [scanLoop] at h
  | succ fuel ih =>
    intro x t t' hx hmod h
    have hE' := hE
    have hx' := hx
    have hmod' := hmod
    have hw2' := hw2
    rw [u64_eq] at hE' hx' hw2'
    rw [bufSize_eq] at hmod' hw2'
    have hxE : x < End := by omega
    have hwl : windowLen End x = bufSize := by
      unfold windowLen
      rw [add64_eq, bufSize_eq]
      split <;> omega
    rcases scanLoop_ok_inv h with ⟨h1, _⟩ | ⟨_, _, _, h2⟩
    · omega
    · rcases h2 with ⟨_, h3⟩ | ⟨idx, m, _, _, _, h3⟩
      · refine ih _ _ _ ?_ ?_ h3
        · rw [add64_eq, u64_eq]; omega
        · rw [hwl, add64_eq, bufSize_eq]; omega
      · exact ih _ _ _ hx hmod h3

theorem scanLoop_ok_scan {K : Kernel} {s r : List Byte} {End : Nat} (hE : End < u64) :
    ∀ (fuel o : Nat) (t t' : Target), o < u64 →
      scanLoop K s r End fuel o t = (.ok, t') → Scan K s r End o t.mem t'.mem := by
  intro fuel
  induction fuel with
  | zero => intro o t t' _ h; simp [scanLoop] at h
  | succ fuel ih =>
    intro o t t' ho h
    rcases scanLoop_ok_inv h with ⟨h1, h2⟩ | ⟨h1, hz, _, h2⟩
    · subst h2; exact Scan.done o _ h1
    · by_cases hwrap : o + bufSize < u64
      · have hwl : windowLen End o = min bufSize (End - o) := by
          rw [windowLen_nowrap hwrap]
          split <;> omega
        rw [hwl] at h2
        have hE' := hE
        have hwrap' := hwrap
        rw [u64_eq] at hE' hwrap'
        rw [bufSize_eq] at hwrap'
        rcases h2 with ⟨hb, h3⟩ | ⟨idx, m, hb, hr, hw, h3⟩
        · have e : add64 o (min bufSize (End - o)) = o + min bufSize (End - o) := by
            rw [add64_eq, bufSize_eq]
            apply Nat.mod_eq_of_lt
            omega
          rw [e] at h3
          have := ih _ _ _ (by rw [u64_eq, bufSize_eq]; omega) h3
          exact Scan.skip o _ _ h1 (bytesIndex_none hb) this
        · obtain ⟨hi1, hi2, _⟩ := bytesIndex_some hb
          have e : add64 o idx = o + idx := by
            rw [add64_eq]
            apply Nat.mod_eq_of_lt
            rw [bufSize_eq] at hi1
            omega
          rw [e] at h3 hw
          have := ih _ _ _ ho h3
          exact Scan.hit o _ _ idx m h1 hi1 hi2 hw this
      · exact absurd h (scanLoop_wrapped_ne_ok hE o h1 (by omega) _ _ _ _ ho rfl)

theorem patchRegions_ok_patch {K : Kernel} {s r : List Byte} {fuel : Nat} :
    ∀ (maps : List Map) (t t' : Target), (∀ mm ∈ maps, mm.WF) →
      patchRegions K s r fuel maps t = (.ok, t') → Patch K s r maps t.mem t'.mem := by
  intro maps
  induction maps with
  | nil =>
    intro t t' _ h
    simp only [patchRegions, Prod.mk.injEq, true_and] at h
    subst h
    exact Patch.nil _
  | cons mm rest ih =>
    intro t t' hwf h
    have hwf1 := hwf mm (List.mem_cons_self _ _)
    have hwf2 : ∀ m ∈ rest, m.WF := fun m hm => hwf m (List.mem_cons_of_mem _ hm)
    rw [patchRegions] at h
    by_cases hrw : mm.rw
    · have hrw' : ¬ (mm.Permissions &&& readwrite) ≠ readwrite := by
        intro hc; exact hc hrw
      rw [if_neg hrw'] at h
      cases hsc : scanLoop K s r mm.End fuel mm.Start t with
      | mk out t1 =>
        rw [hsc] at h
        cases out <;> simp only [Prod.mk.injEq, reduceCtorEq, false_and] at h
        exact Patch.scan mm rest _ _ _ hrw
          (scanLoop_ok_scan hwf1.2 _ _ _ _ hwf1.1 hsc) (ih _ _ hwf2 h)
    · have hrw' : (mm.Permissions &&& readwrite) ≠ readwrite := hrw
      rw [if_pos hrw'] at h
      exact Patch.skip mm rest _ _ hrw (ih _ _ hwf2 h)

/-! ## What a normal run leaves behind -/

theorem occursAt_congr {m1 m2 : Mem} {a : Nat} {pat : List Byte}
    (h : ∀ i, i < pat.length → m1 (a + i) = m2 (a + i)) :
    occursAt m1 a pat ↔ occursAt m2 a pat := by
  unfold occursAt
  rw [readBytes_ext h]

/-- A scan changes no byte outside `[offset, End)`. -/
theorem scan_frame {K : Kernel} {s r : List Byte} {End o : Nat} {mem mem' : Mem}
    (hlen : r.length = s.length) (h : Scan K s r End o mem mem') :
    ∀ x, x < o ∨ End ≤ x → mem' x = mem x := by
  induction h with
  | done o mem _ => intro x _; rfl
  | skip o mem mem' ho _ _ ih =>
    intro x hx
    exact ih x (by omega)
  | hit o mem mem' idx m ho hidx _ _ _ ih =>
    intro x hx
    rw [ih x hx]
    apply writeBytes_outside
    have : (r.take m).length ≤ s.length := by
      rw [List.length_take]; omega
    omega

/-- After a scan no window holds the pattern. -/
theorem scan_clean {K : Kernel} {s r : List Byte} {End o : Nat} {mem mem' : Mem}
    (hs : s ≠ []) (hlen : r.length = s.length) (h : Scan K s r End o mem mem') :
    ∀ k a, o + k * bufSize ≤ a → a + s.length ≤ min (o + (k + 1) * bufSize) End →
      ¬ occursAt mem' a s := by
  have hL : 0 < s.length := List.length_pos.mpr hs
  induction h with
  | done o mem hdone =>
    intro k a h1 h2
    have : o ≤ o + k * bufSize := Nat.le_add_right _ _
    omega
  | skip o mem mem' ho hnone hrest ih =>
    intro k a h1 h2
    cases k with
    | zero =>
      simp only [Nat.zero_mul, Nat.add_zero, Nat.zero_add, Nat.one_mul] at h1 h2
      have hfr := scan_frame hlen hrest
      have hocc : ¬ occursAt mem (o + (a - o)) s := hnone (a - o) (by omega)
      have e : o + (a - o) = a := by omega
      rw [e] at hocc
      intro hc
      apply hocc
      refine (occursAt_congr ?_).mp hc
      intro i hi
      exact hfr (a + i) (by omega)
    | succ k =>
      have hk : o + (k + 1) * bufSize = o + bufSize + k * bufSize := by ring
      have hk2 : o + (k + 1 + 1) * bufSize = o + bufSize + (k + 1) * bufSize := by ring
      rw [hk] at h1
      rw [hk2] at h2
      have hmin : min bufSize (End - o) = bufSize := by
        have : 0 ≤ k * bufSize := Nat.zero_le _
        omega
      rw [hmin] at ih
      exact ih k a h1 h2
  | hit o mem mem' idx m _ _ _ _ _ ih => exact ih

/-- A run changes no byte outside the read-write regions. -/
theorem patch_frame {K : Kernel} {s r : List Byte} {maps : List Map} {mem mem' : Mem}
    (hlen : r.length = s.length) (h : Patch K s r maps mem mem') :
    ∀ x, (∀ mm ∈ maps, mm.rw → x < mm.Start ∨ mm.End ≤ x) → mem' x = mem x := by
  induction h with
  | nil mem => intro x _; rfl
  | skip mm rest mem mem' _ _ ih =>
    intro x hx
    exact ih x (fun m hm => hx m (List.mem_cons_of_mem _ hm))
  | scan mm rest mem mem1 mem' hrw hscan _ ih =>
    intro x hx
    rw [ih x (fun m hm => hx m (List.mem_cons_of_mem _ hm))]
    exact scan_frame hlen hscan x (hx mm (List.mem_cons_self _ _) hrw)

theorem patch_clean {K : Kernel} {s r : List Byte} {maps : List Map} {mem mem' : Mem}
    (hs : s ≠ []) (hlen : r.length = s.length) (h : Patch K s r maps mem mem')
    (hd : DisjointRW maps) :
    ∀ mm ∈ maps, mm.rw → ∀ a, mm.inWindow a s.length → ¬ occursAt mem' a s := by
  have hL : 0 < s.length := List.length_pos.mpr hs
  induction h with
  | nil mem => intro mm hmm; simp at hmm
  | skip mm rest mem mem' hnrw _ ih =>
    intro m hm hrw a ha
    rcases List.mem_cons.mp hm with e | hm'
    · subst e; exact absurd hrw hnrw
    · exact ih (List.Pairwise.of_cons hd) m hm' hrw a ha
  | scan mm rest mem mem1 mem' hrwm hscan hrest ih =>
    intro m hm hrw a ha
    rcases List.mem_cons.mp hm with e | hm'
    · subst e
      obtain ⟨k, h1, h2⟩ := ha
      have hc := scan_clean hs hlen hscan k a h1 h2
      intro hocc
      apply hc
      refine (occursAt_congr ?_).mp hocc
      intro i hi
      apply patch_frame hlen hrest
      intro m2 hm2 hrw2
      have := (List.pairwise_cons.mp hd).1 m2 hm2 hrw hrw2
      have : m.Start ≤ m.Start + k * bufSize := Nat.le_add_right _ _
      omega
    · exact ih (List.Pairwise.of_cons hd) m hm' hrw a ha

theorem occursAt_getElem? (mem : Mem) (a : Nat) (pat : List Byte) :
    occursAt mem a pat ↔ ∀ i, i < pat.length → pat[i]? = some (mem (a + i)) := by
  unfold occursAt
  constructor
  · intro h i hi
    have h1 := readBytes_getElem? mem a pat.length i hi
    rw [h] at h1
    exact h1
  · intro h
    apply List.ext_getElem?
    intro i
    by_cases hi : i < pat.length
    · rw [readBytes_getElem? mem a _ i hi, h i hi]
    · have h1 : pat.length ≤ i := by omega
      rw [List.getElem?_eq_none (by simpa using h1), List.getElem?_eq_none h1]

theorem writeBytes_inside' (mem : Mem) (off : Nat) (b : List Byte) (x : Nat)
    (h1 : off ≤ x) (h2 : x < off + b.length) :
    b[x - off]? = some (writeBytes mem off b x) := by
  unfold writeBytes
  have h3 : x - off < b.length := by omega
  simp [h1, List.getElem?_eq_getElem h3]

/-- After `r` was written over an occurrence of `s` at `p`, the pattern `s`
stands only where it stood before. -/
theorem occursAt_after_write {M : Mem} {p q : Nat} {s r : List Byte}
    (hlen : r.length = s.length) (hnf : NoFreshMatch s r) (hp : occursAt M p s)
    (h : occursAt (writeBytes M p r) q s) : occursAt M q s := by
  by_cases hov : q + s.length ≤ p ∨ p + s.length ≤ q
  · refine (occursAt_congr ?_).mp h
    intro i hi
    apply writeBytes_outside
    omega
  · have h' := h
    rw [occursAt_getElem?] at h hp ⊢
    by_cases hqp : p ≤ q
    · -- a beginning of `s` lies on an end of `r`
      have hk : p + s.length - q - 1 < s.length := by omega
      have E1 : s.take (p + s.length - q - 1 + 1) =
          r.drop (r.length - (p + s.length - q - 1 + 1)) := by
        apply List.ext_getElem?
        intro i
        rw [List.getElem?_take, List.getElem?_drop]
        by_cases hi : i < p + s.length - q - 1 + 1
        · rw [if_pos hi, h i (by omega)]
          have := writeBytes_inside' M p r (q + i) (by omega) (by omega)
          rw [← this]
          congr 1
          omega
        · rw [if_neg hi]
          symm
          apply List.getElem?_eq_none
          omega
      have E2 := (hnf _ hk).1 E1
      intro i hi
      by_cases hin : i < p + s.length - q - 1 + 1
      · have e1 : s[i]? = (s.take (p + s.length - q - 1 + 1))[i]? := by
          rw [List.getElem?_take, if_pos hin]
        rw [e1, E1, E2, List.getElem?_drop, hp _ (by omega)]
        congr 2
        omega
      · rw [h i hi]
        congr 1
        apply writeBytes_outside
        right
        omega
    · -- an end of `s` lies on a beginning of `r`
      have hk : q + s.length - p - 1 < s.length := by omega
      have E1 : s.drop (s.length - (q + s.length - p - 1 + 1)) =
          r.take (q + s.length - p - 1 + 1) := by
        apply List.ext_getElem?
        intro i
        rw [List.getElem?_take, List.getElem?_drop]
        by_cases hi : i < q + s.length - p - 1 + 1
        · rw [if_pos hi, h _ (by omega)]
          have := writeBytes_inside' M p r (p + i) (by omega) (by omega)
          rw [Nat.add_sub_cancel_left] at this
          rw [this]
          congr 2
          omega
        · rw [if_neg hi]
          apply List.getElem?_eq_none
          omega
      have E2 := (hnf _ hk).2 E1
      intro i hi
      by_cases hin : q + i < p
      · rw [h i hi]
        congr 1
        apply writeBytes_outside
        left
        exact hin
      · have e1 : s[i]? = (s.drop (s.length - (q + s.length - p - 1 + 1)))[i - (p - q)]? := by
          rw [List.getElem?_drop]
          congr 1
          omega
        rw [e1, E1, E2, List.getElem?_take, if_pos (by omega), hp _ (by omega)]
        congr 2
        omega

/-- A property of the memory that every overwrite of an occurrence keeps is
kept by a scan. -/
theorem scan_preserves {K : Kernel} {s r : List Byte} {End o : Nat} {mem mem' : Mem}
    (P : Mem → Prop)
    (hP : ∀ M p m, P M → occursAt M p s → K.ProcessVMWritev p r.length = some m →
      P (writeBytes M p (r.take m)))
    (h : Scan K s r End o mem mem') : P mem → P mem' := by
  induction h with
  | done o mem _ => exact id
  | skip o mem mem' _ _ _ ih => exact ih
  | hit o mem mem' idx m _ _ hocc hw _ ih =>
    intro hp
    exact ih (hP _ _ _ hp hocc hw)

theorem patch_preserves {K : Kernel} {s r : List Byte} {maps : List Map} {mem mem' : Mem}
    (P : Mem → Prop)
    (hP : ∀ M p m, P M → occursAt M p s → K.ProcessVMWritev p r.length = some m →
      P (writeBytes M p (r.take m)))
    (h : Patch K s r maps mem mem') : P mem → P mem' := by
  induction h with
  | nil mem => exact id
  | skip mm rest mem mem' _ _ ih => exact ih
  | scan mm rest mem mem1 mem' _ hscan _ ih =>
    intro hp
    exact ih (scan_preserves P hP hscan hp)

/-- Once the window of `a` was scanned, the pattern is gone from `a` for good. -/
theorem patch_cleanAt {K : Kernel} {s r : List Byte} {maps : List Map} {mem mem' : Mem}
    (hs : s ≠ []) (hlen : r.length = s.length) (hK : K.FullWrites) (hnb : NoFreshMatch s r)
    (h : Patch K s r maps mem mem') :
    ∀ mm ∈ maps, mm.rw → ∀ a, mm.inWindow a s.length → ¬ occursAt mem' a s := by
  induction h with
  | nil mem => intro mm hmm; simp at hmm
  | skip mm rest mem mem' hnrw _ ih =>
    intro m hm hrw a ha
    rcases List.mem_cons.mp hm with e | hm'
    · subst e; exact absurd hrw hnrw
    · exact ih m hm' hrw a ha
  | scan mm rest mem mem1 mem' hrwm hscan hrest ih =>
    intro m hm hrw a ha
    rcases List.mem_cons.mp hm with e | hm'
    · subst e
      obtain ⟨k, h1, h2⟩ := ha
      have hc := scan_clean hs hlen hscan k a h1 h2
      refine patch_preserves (fun M => ¬ occursAt M a s) ?_ hrest hc
      intro M p n hM hp hw hc2
      have : r.take n = r := List.take_of_length_le (hK _ _ _ hw)
      rw [this] at hc2
      exact hM (occursAt_after_write hlen hnb hp hc2)
    · exact ih m hm' hrw a ha

/-- An occurrence that no other occurrence overlaps is either still there or
has been overwritten by the replacement. -/
theorem patch_isolated {K : Kernel} {s r : List Byte} {maps : List Map} {mem mem' : Mem}
    (hlen : r.length = s.length) (hK : K.FullWrites) (hnb : NoFreshMatch s r)
    (h : Patch K s r maps mem mem') (a : Nat)
    (hiso : ∀ q, occursAt mem q s → q = a ∨ q + s.length ≤ a ∨ a + s.length ≤ q)
    (hocc : occursAt mem a s) :
    occursAt mem' a s ∨ occursAt mem' a r := by
  have key := patch_preserves
    (fun M => (∀ q, occursAt M q s → occursAt mem q s) ∧ (occursAt M a s ∨ occursAt M a r))
    ?_ h ⟨fun _ hq => hq, Or.inl hocc⟩
  · exact key.2
  · intro M p n ⟨hM1, hM2⟩ hp hw
    have e : r.take n = r := List.take_of_length_le (hK _ _ _ hw)
    rw [e]
    refine ⟨fun q hq => hM1 q (occursAt_after_write hlen hnb hp hq), ?_⟩
    rcases hiso p (hM1 p hp) with e1 | e2
    · subst e1
      exact Or.inr (occursAt_writeBytes M p r)
    · have hs' : ∀ i, i < s.length → writeBytes M p r (a + i) = M (a + i) := by
        intro i hi
        apply writeBytes_outside
        omega
      rcases hM2 with h1 | h1
      · exact Or.inl ((occursAt_congr hs').mpr h1)
      · exact Or.inr ((occursAt_congr (by rw [hlen]; exact hs')).mpr h1)

theorem patchRapid_ok_patch {K : Kernel} {fuel : Nat} {maps : List Map} {t : Target}
    {s r : List Byte} (hwf : ∀ mm ∈ maps, mm.WF)
    (h : (patchRapid K fuel (some maps) t s r).1 = .ok) :
    Patch K s r maps t.mem (patchRapid K fuel (some maps) t s r).2.mem := by
  apply patchRegions_ok_patch maps t _ hwf
  simp only [patchRapid] at h ⊢
  exact Prod.ext h rfl

/-! ## Termination -/

theorem beVal_lt (l : List Byte) : beVal l < 256 ^ l.length := by
  induction l with
  | nil => simp [beVal]
  | cons b l ih =>
    simp only [beVal, List.length_cons, pow_succ]
    have hb : b.val < 256 := b.isLt
    nlinarith [Nat.pow_pos (n := l.length) (show 0 < 256 by norm_num)]

theorem beVal_append (l1 l2 : List Byte) :
    beVal (l1 ++ l2) = beVal l1 * 256 ^ l2.length + beVal l2 := by
  induction l1 with
  | nil => simp [beVal]
  | cons b l ih =>
    rw [List.cons_append, beVal, beVal, ih, List.length_append, pow_add]
    ring

theorem beVal_inj : ∀ (l1 l2 : List Byte), l1.length = l2.length → beVal l1 = beVal l2 →
    l1 = l2
  | [], [], _, _ => rfl
  | [], _ :: _, h, _ => by simp at h
  | _ :: _, [], h, _ => by simp at h
  | a :: l1, b :: l2, h, hv => by
    have hl : l1.length = l2.length := by simpa using h
    simp only [beVal, hl] at hv
    have h1 := beVal_lt l1
    have h2 := beVal_lt l2
    rw [hl] at h1
    have hp : 0 < 256 ^ l2.length := Nat.pow_pos (by norm_num)
    have hab : a.val = b.val := by
      rcases Nat.lt_trichotomy a.val b.val with hlt | heq | hgt
      · exfalso
        have : (a.val + 1) * 256 ^ l2.length ≤ b.val * 256 ^ l2.length :=
          Nat.mul_le_mul_right _ hlt
        nlinarith
      · exact heq
      · exfalso
        have : (b.val + 1) * 256 ^ l2.length ≤ a.val * 256 ^ l2.length :=
          Nat.mul_le_mul_right _ hgt
        nlinarith
    have hv2 : beVal l1 = beVal l2 := by
      rw [hab] at hv
      omega
    rw [Fin.ext hab, beVal_inj l1 l2 hl hv2]

theorem window_split (M : Mem) (o n idx L : Nat) (h : idx + L ≤ n) :
    readBytes M o n =
      readBytes M o idx ++ (readBytes M (o + idx) L ++ readBytes M (o + idx + L) (n - idx - L)) := by
  have e : n = idx + (L + (n - idx - L)) := by omega
  conv_lhs => rw [e]
  rw [readBytes_add, readBytes_add]

theorem window_after_write (M : Mem) (o n idx : Nat) (r : List Byte) (h : idx + r.length ≤ n) :
    readBytes (writeBytes M (o + idx) r) o n =
      readBytes M o idx ++ (r ++ readBytes M (o + idx + r.length) (n - idx - r.length)) := by
  rw [window_split _ o n idx r.length h]
  congr 1
  · apply readBytes_ext
    intro i hi
    apply writeBytes_outside
    omega
  · congr 1
    · exact occursAt_writeBytes M (o + idx) r
    · apply readBytes_ext
      intro i hi
      apply writeBytes_outside
      omega

theorem scanMeasure_decreases {M : Mem} {o n idx : Nat} {s r : List Byte}
    (hlen : r.length = s.length) (hne : s ≠ r) (h : idx + s.length ≤ n)
    (hocc : occursAt M (o + idx) s) :
    scanMeasure s r (readBytes (writeBytes M (o + idx) r) o n) <
      scanMeasure s r (readBytes M o n) := by
  have h1 := window_after_write M o n idx r (by omega)
  have h2 := window_split M o n idx s.length h
  unfold occursAt at hocc
  rw [hocc] at h2
  rw [hlen] at h1
  have hb1 := beVal_lt (readBytes (writeBytes M (o + idx) r) o n)
  have hb2 := beVal_lt (readBytes M o n)
  simp only [readBytes_length] at hb1 hb2
  have v1 : beVal (readBytes (writeBytes M (o + idx) r) o n) =
      beVal (readBytes M o idx) * 256 ^ (s.length + (n - idx - s.length)) +
        (beVal r * 256 ^ (n - idx - s.length) +
          beVal (readBytes M (o + idx + s.length) (n - idx - s.length))) := by
    rw [h1, beVal_append, beVal_append]
    simp [hlen]
  have v2 : beVal (readBytes M o n) =
      beVal (readBytes M o idx) * 256 ^ (s.length + (n - idx - s.length)) +
        (beVal s * 256 ^ (n - idx - s.length) +
          beVal (readBytes M (o + idx + s.length) (n - idx - s.length))) := by
    rw [h2, beVal_append, beVal_append]
    simp
  have hp : 0 < 256 ^ (n - idx - s.length) := Nat.pow_pos (by norm_num)
  have hvne : beVal s ≠ beVal r := fun hc => hne (beVal_inj s r hlen.symm hc)
  unfold scanMeasure
  simp only [readBytes_length]
  split
  · rename_i hlt
    have : beVal s * 256 ^ (n - idx - s.length) < beVal r * 256 ^ (n - idx - s.length) :=
      Nat.mul_lt_mul_of_pos_right hlt hp
    omega
  · rename_i hnlt
    have hlt : beVal r < beVal s := by omega
    have : beVal r * 256 ^ (n - idx - s.length) < beVal s * 256 ^ (n - idx - s.length) :=
      Nat.mul_lt_mul_of_pos_right hlt hp
    omega

theorem windowLen_pos {End o : Nat} (ho : o < End) : 0 < windowLen End o := by
  unfold windowLen
  rw [bufSize_eq]
  split <;> omega

theorem scanLoop_full_step {K : Kernel} (hK : K.Full) {s r : List Byte} (hr : r ≠ [])
    {End o : Nat} (ho : o < End) (fuel : Nat) (t : Target) :
    scanLoop K s r End (fuel + 1) o t =
      match bytesIndex (readBytes t.mem o (windowLen End o)) s with
      | none => scanLoop K s r End fuel (add64 o (windowLen End o))
          ⟨t.mem, t.log ++ [.read o (windowLen End o)]⟩
      | some idx => scanLoop K s r End fuel o
          ⟨writeBytes t.mem (add64 o idx) r,
            t.log ++ [.read o (windowLen End o)] ++ [.write (add64 o idx) r.length]⟩ := by
  have hz : windowLen End o ≠ 0 := by have := windowLen_pos ho; omega
  have hrl : r.length ≠ 0 := by
    intro hc; exact hr (List.length_eq_zero.mp hc)
  rw [scanLoop]
  simp only [ho, if_true, ReadAt, hz, if_false, (hK _ _).1, ne_eq, not_true_eq_false,
    WriteAt, hrl, (hK _ _).2, List.take_length]

/-- With a kernel whose transfers succeed in full the loop leaves normally
or is still running when the fuel is spent. -/
theorem scanLoop_full_outcome {K : Kernel} (hK : K.Full) {s r : List Byte} (hr : r ≠ [])
    {End : Nat} : ∀ (fuel o : Nat) (t : Target),
      (scanLoop K s r End fuel o t).1 = .ok ∨ (scanLoop K s r End fuel o t).1 = .outOfFuel := by
  intro fuel
  induction fuel with
  | zero => intro o t; right; rfl
  | succ fuel ih =>
    intro o t
    by_cases ho : o < End
    · rw [scanLoop_full_step hK hr ho]
      split
      · exact ih _ _
      · exact ih _ _
    · left
      rw [scanLoop_ge (by omega)]

theorem patchRegions_full_outcome {K : Kernel} (hK : K.Full) {s r : List Byte} (hr : r ≠ [])
    (fuel : Nat) : ∀ (maps : List Map) (t : Target),
      (patchRegions K s r fuel maps t).1 = .ok ∨
        (patchRegions K s r fuel maps t).1 = .outOfFuel := by
  intro maps
  induction maps with
  | nil => intro t; left; rfl
  | cons mm rest ih =>
    intro t
    rw [patchRegions]
    split
    · exact ih _
    · rcases @scanLoop_full_outcome K hK s r hr mm.End fuel mm.Start t with h | h
      · cases hsc : scanLoop K s r mm.End fuel mm.Start t with
        | mk out t1 =>
          rw [hsc] at h
          simp only at h
          subst h
          exact ih _
      · cases hsc : scanLoop K s r mm.End fuel mm.Start t with
        | mk out t1 =>
          rw [hsc] at h
          simp only at h
          subst h
          right; rfl

/-- The inner loop ends: from every offset and every state of the target,
all sufficiently large amounts of fuel give the same normal exit. -/
theorem scanLoop_terminates {K : Kernel} (hK : K.Full) {s r : List Byte} (hs : s ≠ [])
    (hlen : r.length = s.length) (hne : s ≠ r) {End : Nat} (hE : End + bufSize ≤ u64) :
    ∀ (d o : Nat), End - o ≤ d → ∀ t : Target,
      ∃ fuel0 t1, ∀ fuel, fuel0 ≤ fuel → scanLoop K s r End fuel o t = (.ok, t1) := by
  have hr : r ≠ [] := by
    intro hc; rw [hc] at hlen; exact hs (List.length_eq_zero.mp hlen.symm)
  have hdone : ∀ (o : Nat), End ≤ o → ∀ t : Target,
      ∃ fuel0 t1, ∀ fuel, fuel0 ≤ fuel → scanLoop K s r End fuel o t = (.ok, t1) := by
    intro o ho t
    refine ⟨1, t, ?_⟩
    intro fuel hf
    obtain ⟨f, rfl⟩ : ∃ f, fuel = f + 1 := ⟨fuel - 1, by omega⟩
    exact scanLoop_ge ho
  intro d
  induction d with
  | zero => intro o ho t; exact hdone o (by omega) t
  | succ d ihd =>
    intro o hod
    by_cases ho : End ≤ o
    · exact hdone o ho
    · have ho' : o < End := by omega
      have hE' := hE
      rw [bufSize_eq, u64_eq] at hE'
      have hwl : windowLen End o = min bufSize (End - o) := by
        rw [windowLen_nowrap (by rw [bufSize_eq, u64_eq]; omega)]
        split <;> omega
      have hnpos : 0 < min bufSize (End - o) := by rw [bufSize_eq]; omega
      have hnle : min bufSize (End - o) ≤ bufSize := Nat.min_le_left _ _
      have key : ∀ μ (t : Target), scanMeasure s r (readBytes t.mem o (min bufSize (End - o))) = μ →
          ∃ fuel0 t1, ∀ fuel, fuel0 ≤ fuel → scanLoop K s r End fuel o t = (.ok, t1) := by
        intro μ
        induction μ using Nat.strong_induction_on with
        | _ μ ihμ =>
          intro t hμ
          cases hb : bytesIndex (readBytes t.mem o (min bufSize (End - o))) s with
          | none =>
            have e : add64 o (min bufSize (End - o)) = o + min bufSize (End - o) := by
              rw [add64_eq]
              apply Nat.mod_eq_of_lt
              rw [bufSize_eq] at hnle
              omega
            obtain ⟨f0, t1, hf0⟩ := ihd (o + min bufSize (End - o)) (by omega)
              ⟨t.mem, t.log ++ [.read o (min bufSize (End - o))]⟩
            refine ⟨f0 + 1, t1, ?_⟩
            intro fuel hf
            obtain ⟨f, rfl⟩ : ∃ f, fuel = f + 1 := ⟨fuel - 1, by omega⟩
            rw [scanLoop_full_step hK hr ho', hwl, hb]
            simp only
            rw [e]
            exact hf0 f (by omega)
          | some idx =>
            obtain ⟨hi1, hi2, _⟩ := bytesIndex_some hb
            have e : add64 o idx = o + idx := by
              rw [add64_eq]
              apply Nat.mod_eq_of_lt
              rw [bufSize_eq] at hnle
              omega
            have hdec := scanMeasure_decreases (o := o) (n := min bufSize (End - o))
              hlen hne hi1 hi2
            obtain ⟨f0, t1, hf0⟩ := ihμ _ (by rw [← hμ]; exact hdec)
              ⟨writeBytes t.mem (o + idx) r,
                t.log ++ [.read o (min bufSize (End - o))] ++ [.write (o + idx) r.length]⟩ rfl
            refine ⟨f0 + 1, t1, ?_⟩
            intro fuel hf
            obtain ⟨f, rfl⟩ : ∃ f, fuel = f + 1 := ⟨fuel - 1, by omega⟩
            rw [scanLoop_full_step hK hr ho', hwl, hb]
            simp only
            rw [e]
            exact hf0 f (by omega)
      intro t
      exact key _ t rfl

theorem patchRegions_terminates {K : Kernel} (hK : K.Full) {s r : List Byte} (hs : s ≠ [])
    (hlen : r.length = s.length) (hne : s ≠ r) :
    ∀ (maps : List Map), (∀ mm ∈ maps, mm.rw → mm.NoWrap) → ∀ t : Target,
      ∃ fuel0 t1, ∀ fuel, fuel0 ≤ fuel → patchRegions K s r fuel maps t = (.ok, t1) := by
  intro maps
  induction maps with
  | nil => intro _ t; exact ⟨0, t, fun _ _ => rfl⟩
  | cons mm rest ih =>
    intro hnw t
    have hnw2 : ∀ m ∈ rest, m.rw → m.NoWrap := fun m hm => hnw m (List.mem_cons_of_mem _ hm)
    by_cases hrw : mm.rw
    · have hrw' : ¬ (mm.Permissions &&& readwrite) ≠ readwrite := fun hc => hc hrw
      obtain ⟨f1, t1, h1⟩ := scanLoop_terminates hK hs hlen hne
        (hnw mm (List.mem_cons_self _ _) hrw).2 (mm.End - mm.Start) mm.Start (le_refl _) t
      obtain ⟨f2, t2, h2⟩ := ih hnw2 t1
      refine ⟨max f1 f2, t2, ?_⟩
      intro fuel hf
      rw [patchRegions, if_neg hrw', h1 fuel (by omega)]
      exact h2 fuel (by omega)
    · have hrw' : (mm.Permissions &&& readwrite) ≠ readwrite := hrw
      obtain ⟨f2, t2, h2⟩ := ih hnw2 t
      refine ⟨f2, t2, ?_⟩
      intro fuel hf
      rw [patchRegions, if_pos hrw']
      exact h2 fuel hf

theorem writeBytes_same {M : Mem} {p : Nat} {s : List Byte} (h : occursAt M p s) (m : Nat) :
    writeBytes M p (s.take m) = M := by
  funext x
  unfold writeBytes
  split
  · rename_i hx
    by_cases hl : x - p < (s.take m).length
    · rw [List.get?_eq_getElem?, List.getElem?_take_of_lt (by
        rw [List.length_take] at hl; omega)]
      have hl' : x - p < s.length := by rw [List.length_take] at hl; omega
      rw [(occursAt_getElem? M p s).mp h (x - p) hl']
      simp only [Option.getD_some]
      congr 1
      omega
    · rw [List.get?_eq_getElem?, List.getElem?_eq_none (by omega)]
      rfl
  · rfl

/-- With `replace` equal to `search` a run that returned would have changed
nothing, and yet would have left no occurrence in any window. -/
theorem patch_same_not_ok {K : Kernel} {s : List Byte} {maps : List Map} {mem mem' : Mem}
    (hs : s ≠ []) (h : Patch K s s maps mem mem') (mm : Map) (hmm : mm ∈ maps) (hrw : mm.rw)
    (a : Nat) (hwin : mm.inWindow a s.length) (hocc : occursAt mem a s) : False := by
  have : ∀ (l : List Map) (m1 m2 : Mem), Patch K s s l m1 m2 → mm ∈ l →
      ¬ occursAt m1 a s := by
    intro l m1 m2 hp
    induction hp with
    | nil mem => intro hc; simp at hc
    | skip m0 rest mem mem' hnrw _ ih =>
      intro hc
      rcases List.mem_cons.mp hc with e | hm'
      · subst e; exact absurd hrw hnrw
      · exact ih hm'
    | scan m0 rest mem mem1 mem' _ hscan hrest ih =>
      intro hc
      have e1 : mem1 = mem :=
        scan_preserves (fun M => M = mem) (by
          intro M p m hM hp' _
          rw [writeBytes_same hp' m]
          exact hM) hscan rfl
      rcases List.mem_cons.mp hc with e | hm'
      · subst e
        obtain ⟨k, h1, h2⟩ := hwin
        have := scan_clean hs rfl hscan k a h1 h2
        rw [e1] at this
        exact this
      · rw [← e1]; exact ih hm'
  exact this maps mem mem' h hmm hocc

/-! ## The record of system calls -/

/-- An iteration that enters the loop body records its read first, and
nothing recorded is ever dropped. -/
theorem scanLoop_log {K : Kernel} {s r : List Byte} {End : Nat} :
    ∀ (fuel o : Nat) (t : Target),
      t.log <+: (scanLoop K s r End fuel o t).2.log ∧
      (o < End → 0 < fuel →
        (t.log ++ [.read o (windowLen End o)]) <+: (scanLoop K s r End fuel o t).2.log) := by
  intro fuel
  induction fuel with
  | zero => intro o t; exact ⟨by simp [scanLoop], by intro _ h; omega⟩
  | succ fuel ih =>
    intro o t
    by_cases ho : o < End
    · have main : (t.log ++ [.read o (windowLen End o)]) <+:
          (scanLoop K s r End (fuel + 1) o t).2.log := by
        rw [scanLoop]
        simp only [ho, if_true]
        cases ReadAt K (windowLen End o) o with
        | panic => exact List.prefix_refl _
        | err => exact List.prefix_refl _
        | done n =>
          simp only
          by_cases hn : n = windowLen End o
          · simp only [hn, ne_eq, not_true_eq_false, if_false]
            cases bytesIndex (readBytes t.mem o (windowLen End o)) s with
            | none =>
              simp only
              exact (ih (add64 o (windowLen End o))
                ⟨t.mem, t.log ++ [.read o (windowLen End o)]⟩).1
            | some idx =>
              simp only
              cases WriteAt K r (add64 o idx) with
              | panic => simp only; exact List.prefix_append _ _
              | err => simp only; exact List.prefix_append _ _
              | done m =>
                simp only
                exact (List.prefix_append _ _).trans (ih o
                  ⟨writeBytes t.mem (add64 o idx) (r.take m),
                    t.log ++ [.read o (windowLen End o)] ++
                      [.write (add64 o idx) r.length]⟩).1
          · simp only [ne_eq, hn, not_false_eq_true, if_true]
            exact List.prefix_refl _
      exact ⟨(List.prefix_append _ _).trans main, fun _ _ => main⟩
    · refine ⟨?_, fun h => absurd h ho⟩
      rw [scanLoop_ge (by omega)]

/-- Where `offset + buflen` cannot wrap, every call the loop makes stays
inside `[lo, End)` for any `lo` at or below the starting offset. -/
theorem scanLoop_log_within {K : Kernel} {s r : List Byte} {End lo : Nat}
    (hlen : r.length = s.length) (hE : End + bufSize ≤ u64) :
    ∀ (fuel o : Nat) (t : Target), lo ≤ o →
      ∀ ev ∈ (scanLoop K s r End fuel o t).2.log, ev ∈ t.log ∨ ev.within lo End := by
  intro fuel
  induction fuel with
  | zero => intro o t _ ev hev; left; simpa [scanLoop] using hev
  | succ fuel ih =>
    intro o t hlo ev hev
    by_cases ho : o < End
    · have hE' := hE
      rw [bufSize_eq, u64_eq] at hE'
      have hwl : windowLen End o = min bufSize (End - o) := by
        rw [windowLen_nowrap (by rw [bufSize_eq, u64_eq]; omega)]
        split <;> omega
      have hnle : min bufSize (End - o) ≤ bufSize := Nat.min_le_left _ _
      have hrd : ∀ e ∈ t.log ++ [Access.read o (min bufSize (End - o))],
          e ∈ t.log ∨ e.within lo End := by
        intro e he
        rcases List.mem_append.mp he with h | h
        · exact Or.inl h
        · right
          rw [List.mem_singleton.mp h]
          exact ⟨hlo, by omega⟩
      rw [scanLoop] at hev
      simp only [ho, if_true, hwl] at hev
      cases hr : ReadAt K (min bufSize (End - o)) o with
      | panic => rw [hr] at hev; exact hrd ev hev
      | err => rw [hr] at hev; exact hrd ev hev
      | done n =>
        rw [hr] at hev
        simp only at hev
        by_cases hn : n = min bufSize (End - o)
        · simp only [hn, ne_eq, not_true_eq_false, if_false] at hev
          cases hb : bytesIndex (readBytes t.mem o (min bufSize (End - o))) s with
          | none =>
            rw [hb] at hev
            simp only at hev
            have e : add64 o (min bufSize (End - o)) = o + min bufSize (End - o) := by
              rw [add64_eq]
              apply Nat.mod_eq_of_lt
              rw [bufSize_eq] at hnle
              omega
            rw [e] at hev
            rcases ih _ _ (by omega) ev hev with h | h
            · exact hrd ev h
            · exact Or.inr h
          | some idx =>
            rw [hb] at hev
            simp only at hev
            obtain ⟨hi1, _, _⟩ := bytesIndex_some hb
            have e : add64 o idx = o + idx := by
              rw [add64_eq]
              apply Nat.mod_eq_of_lt
              rw [bufSize_eq] at hnle
              omega
            rw [e] at hev
            have hwr : ∀ e ∈ t.log ++ [Access.read o (min bufSize (End - o))] ++
                [Access.write (o + idx) r.length], e ∈ t.log ∨ e.within lo End := by
              intro e he
              rcases List.mem_append.mp he with h | h
              · exact hrd e h
              · right
                rw [List.mem_singleton.mp h]
                exact ⟨by omega, by rw [hlen]; omega⟩
            cases hw : WriteAt K r (o + idx) with
            | panic => rw [hw] at hev; exact hwr ev hev
            | err => rw [hw] at hev; exact hwr ev hev
            | done m =>
              rw [hw] at hev
              simp only at hev
              rcases ih _ _ hlo ev hev with h | h
              · exact hwr ev h
              · exact Or.inr h
        · simp only [ne_eq, hn, not_false_eq_true, if_true] at hev
          exact hrd ev hev
    · rw [scanLoop_ge (by omega)] at hev
      exact Or.inl hev

/-- Where `offset + buflen` cannot wrap, every read and every write made by
the loop over the regions lies inside a region that has the read and the
write permission. -/
theorem patchRegions_log_within {K : Kernel} {s r : List Byte} {fuel : Nat}
    (hlen : r.length = s.length) :
    ∀ (maps : List Map) (t : Target), (∀ mm ∈ maps, mm.rw → mm.NoWrap) →
      ∀ ev ∈ (patchRegions K s r fuel maps t).2.log,
        ev ∈ t.log ∨ ∃ mm ∈ maps, mm.rw ∧ ev.within mm.Start mm.End := by
  intro maps
  induction maps with
  | nil => intro t _ ev hev; left; simpa [patchRegions] using hev
  | cons mm rest ih =>
    intro t hnw ev hev
    have hnw2 : ∀ m ∈ rest, m.rw → m.NoWrap := fun m hm => hnw m (List.mem_cons_of_mem _ hm)
    have lift : (ev ∈ t.log ∨ ∃ m ∈ rest, m.rw ∧ ev.within m.Start m.End) →
        ev ∈ t.log ∨ ∃ m ∈ mm :: rest, m.rw ∧ ev.within m.Start m.End := by
      rintro (h | ⟨m, hm, h⟩)
      · exact Or.inl h
      · exact Or.inr ⟨m, List.mem_cons_of_mem _ hm, h⟩
    rw [patchRegions] at hev
    by_cases hrw : mm.rw
    · have hrw' : ¬ (mm.Permissions &&& readwrite) ≠ readwrite := fun hc => hc hrw
      rw [if_neg hrw'] at hev
      have hsc := @scanLoop_log_within K s r mm.End mm.Start hlen
        (hnw mm (List.mem_cons_self _ _) hrw).2 fuel mm.Start t (le_refl _)
      have here : ∀ e ∈ (scanLoop K s r mm.End fuel mm.Start t).2.log,
          e ∈ t.log ∨ ∃ m ∈ mm :: rest, m.rw ∧ e.within m.Start m.End := by
        intro e he
        rcases hsc e he with h | h
        · exact Or.inl h
        · exact Or.inr ⟨mm, List.mem_cons_self _ _, hrw, h⟩
      cases hres : scanLoop K s r mm.End fuel mm.Start t with
      | mk out t1 =>
        rw [hres] at hev here
        by_cases hout : out = .ok
        · subst hout
          simp only at hev
          rcases ih t1 hnw2 ev hev with h | ⟨m, hm, h⟩
          · exact here ev h
          · exact Or.inr ⟨m, List.mem_cons_of_mem _ hm, h⟩
        · cases out <;> first | exact absurd rfl hout | exact here ev hev
    · have hrw' : (mm.Permissions &&& readwrite) ≠ readwrite := hrw
      rw [if_pos hrw'] at hev
      exact lift (ih t hnw2 ev hev)

theorem Kernel.ideal_full : Kernel.ideal.Full := fun _ _ => ⟨rfl, rfl⟩

theorem Kernel.ideal_fullWrites : Kernel.ideal.FullWrites := by
  intro off len m h
  simp only [Kernel.ideal, Option.some.injEq] at h
  omega

theorem Kernel.ideal_fullReads : Kernel.ideal.FullReads := fun _ _ => rfl

theorem noWrap_wf {mm : Map} (h : mm.NoWrap) : mm.WF := by
  refine ⟨h.1, ?_⟩
  have := h.2
  rw [bufSize_eq] at this
  omega

/-- A window without an occurrence is skipped: one read, no write, and the
offset moves on by the window length. -/
theorem scanLoop_skip_step {K : Kernel} (hK : K.FullReads) {s r : List Byte}
    {End o : Nat} (ho : o < End) (fuel : Nat) (t : Target)
    (hb : bytesIndex (readBytes t.mem o (windowLen End o)) s = none) :
    scanLoop K s r End (fuel + 1) o t =
      scanLoop K s r End fuel (add64 o (windowLen End o))
        ⟨t.mem, t.log ++ [.read o (windowLen End o)]⟩ := by
  have hz : windowLen End o ≠ 0 := by have := windowLen_pos ho; omega
  rw [scanLoop]
  simp only [ho, if_true, ReadAt, hz, if_false, hK _ _, ne_eq, not_true_eq_false, hb]

/-- A region none of whose windows holds the pattern is read through and
left as it was. -/
theorem scanLoop_no_match {K : Kernel} (hK : K.FullReads) {s r : List Byte} {mm : Map}
    (hE : mm.End + bufSize ≤ u64)
    (hno : ∀ a, mm.inWindow a s.length → ¬ occursAt mem a s) :
    ∀ (d k : Nat), mm.End - (mm.Start + k * bufSize) ≤ d → ∀ log : List Access,
      ∃ fuel0 log1, (∀ ev ∈ log1, ev ∈ log ∨ ∃ off len, ev = Access.read off len) ∧
        ∀ fuel, fuel0 ≤ fuel →
          scanLoop K s r mm.End fuel (mm.Start + k * bufSize) ⟨mem, log⟩ = (.ok, ⟨mem, log1⟩) := by
  intro d
  induction d with
  | zero =>
    intro k hk log
    refine ⟨1, log, fun ev h => Or.inl h, ?_⟩
    intro fuel hf
    obtain ⟨f, rfl⟩ : ∃ f, fuel = f + 1 := ⟨fuel - 1, by omega⟩
    exact scanLoop_ge (by omega)
  | succ d ih =>
    intro k hk log
    by_cases ho : mm.End ≤ mm.Start + k * bufSize
    · refine ⟨1, log, fun ev h => Or.inl h, ?_⟩
      intro fuel hf
      obtain ⟨f, rfl⟩ : ∃ f, fuel = f + 1 := ⟨fuel - 1, by omega⟩
      exact scanLoop_ge ho
    · have ho' : mm.Start + k * bufSize < mm.End := by omega
      have hE' := hE
      rw [bufSize_eq, u64_eq] at hE'
      have hwl : windowLen mm.End (mm.Start + k * bufSize) =
          min bufSize (mm.End - (mm.Start + k * bufSize)) := by
        rw [windowLen_nowrap (by rw [bufSize_eq, u64_eq]; rw [bufSize_eq] at ho'; omega)]
        split <;> omega
      have hb : bytesIndex (readBytes mem (mm.Start + k * bufSize)
          (windowLen mm.End (mm.Start + k * bufSize))) s = none := by
        apply bytesIndex_eq_none
        intro i hi
        apply hno
        refine ⟨k, by omega, ?_⟩
        rw [hwl] at hi
        have : mm.Start + (k + 1) * bufSize = mm.Start + k * bufSize + bufSize := by ring
        omega
      by_cases hlast : mm.End ≤ mm.Start + (k + 1) * bufSize
      · -- the last window, cut at `End`
        have hk1 : mm.Start + (k + 1) * bufSize = mm.Start + k * bufSize + bufSize := by ring
        have e : add64 (mm.Start + k * bufSize) (windowLen mm.End (mm.Start + k * bufSize))
            = mm.End := by
          rw [hwl, add64_eq]
          have : mm.Start + k * bufSize + min bufSize (mm.End - (mm.Start + k * bufSize))
              = mm.End := by omega
          rw [this]
          apply Nat.mod_eq_of_lt
          omega
        refine ⟨2, log ++ [.read (mm.Start + k * bufSize)
          (windowLen mm.End (mm.Start + k * bufSize))], ?_, ?_⟩
        · intro ev hev
          rcases List.mem_append.mp hev with h | h
          · exact Or.inl h
          · exact Or.inr ⟨_, _, List.mem_singleton.mp h⟩
        · intro fuel hf
          obtain ⟨f, rfl⟩ : ∃ f, fuel = f + 1 + 1 := ⟨fuel - 2, by omega⟩
          rw [scanLoop_skip_step hK ho' _ _ hb, e]
          exact scanLoop_ge (le_refl _)
      · have hk1 : mm.Start + (k + 1) * bufSize = mm.Start + k * bufSize + bufSize := by ring
        have e : add64 (mm.Start + k * bufSize) (windowLen mm.End (mm.Start + k * bufSize))
            = mm.Start + (k + 1) * bufSize := by
          rw [hwl, add64_eq, hk1]
          have : min bufSize (mm.End - (mm.Start + k * bufSize)) = bufSize := by omega
          rw [this]
          apply Nat.mod_eq_of_lt
          rw [bufSize_eq]
          rw [bufSize_eq] at ho'
          omega
        have hpos : 0 < bufSize := by rw [bufSize_eq]; norm_num
        obtain ⟨f0, log1, hl, hf0⟩ := ih (k + 1) (by omega)
          (log ++ [.read (mm.Start + k * bufSize) (windowLen mm.End (mm.Start + k * bufSize))])
        refine ⟨f0 + 1, log1, ?_, ?_⟩
        · intro ev hev
          rcases hl ev hev with h | h
          · rcases List.mem_append.mp h with h' | h'
            · exact Or.inl h'
            · exact Or.inr ⟨_, _, List.mem_singleton.mp h'⟩
          · exact Or.inr h
        · intro fuel hf
          obtain ⟨f, rfl⟩ : ∃ f, fuel = f + 1 := ⟨fuel - 1, by omega⟩
          rw [scanLoop_skip_step hK ho' _ _ hb, e]
          exact hf0 f (by omega)

/-! ## `chunk` -/

theorem chunkFrom_spec {τ : Type} (slice : List τ) (n : Nat) (hn : 0 < n) :
    ∀ (fuel i : Nat), slice.length - i ≤ fuel →
      (chunkFrom slice n fuel i).flatten = slice.drop i ∧
      (∀ c ∈ chunkFrom slice n fuel i, 0 < c.length ∧ c.length ≤ n) ∧
      (∀ c ∈ (chunkFrom slice n fuel i).dropLast, c.length = n) ∧
      (chunkFrom slice n fuel i).length = (slice.length - i + (n - 1)) / n := by
  intro fuel
  induction fuel with
  | zero =>
    intro i hi
    have h0 : slice.length ≤ i := by omega
    refine ⟨?_, ?_, ?_, ?_⟩
    · simp [chunkFrom, List.drop_eq_nil_of_le h0]
    · intro c hc; simp [chunkFrom] at hc
    · intro c hc; simp [chunkFrom] at hc
    · simp only [chunkFrom, List.length_nil]
      have : slice.length - i = 0 := by omega
      rw [this, Nat.zero_add]
      exact (Nat.div_eq_of_lt (by omega)).symm
  | succ fuel ih =>
    intro i hi
    by_cases hlt : i < slice.length
    · obtain ⟨h1, h2, h3, h4⟩ := ih (i + n) (by omega)
      have hpiece : (slice.drop i).take
          ((if i + n > slice.length then slice.length else i + n) - i) =
          (slice.drop i).take n := by
        split
        · rw [List.take_of_length_le (by simp), List.take_of_length_le (by simp; omega)]
        · congr 1; omega
      have hunf : chunkFrom slice n (fuel + 1) i =
          (slice.drop i).take n :: chunkFrom slice n fuel (i + n) := by
        rw [chunkFrom, if_pos hlt]
        simp only [hpiece]
      have hlen : ((slice.drop i).take n).length = min n (slice.length - i) := by
        simp [List.length_take]
      rw [hunf]
      refine ⟨?_, ?_, ?_, ?_⟩
      · rw [List.flatten_cons, h1, ← List.drop_drop, List.take_append_drop]
      · intro c hc
        rcases List.mem_cons.mp hc with e | hc'
        · rw [e, hlen]; omega
        · exact h2 c hc'
      · intro c hc
        by_cases hnil : chunkFrom slice n fuel (i + n) = []
        · rw [hnil] at hc; simp at hc
        · rw [List.dropLast_cons_of_ne_nil hnil] at hc
          rcases List.mem_cons.mp hc with e | hc'
          · rw [e, hlen]
            have hpos : 0 < (chunkFrom slice n fuel (i + n)).length :=
              List.length_pos.mpr hnil
            rw [h4] at hpos
            have : n ≤ slice.length - (i + n) + (n - 1) := by
              by_contra hcon
              rw [Nat.div_eq_of_lt (by omega)] at hpos
              omega
            omega
          · exact h3 c hc'
      · rw [List.length_cons, h4]
        by_cases hge : n ≤ slice.length - i
        · have e : slice.length - i + (n - 1) = (slice.length - (i + n) + (n - 1)) + n := by
            omega
          rw [e, Nat.add_div_right _ hn]
        · have e0 : slice.length - (i + n) = 0 := by omega
          rw [e0, Nat.zero_add, Nat.div_eq_of_lt (by omega)]
          symm
          apply Nat.div_eq_of_lt_le
          · omega
          · omega
    · have h0 : slice.length ≤ i := by omega
      have hunf : chunkFrom slice n (fuel + 1) i = [] := by
        rw [chunkFrom, if_neg hlt]
      rw [hunf]
      refine ⟨?_, ?_, ?_, ?_⟩
      · simp [List.drop_eq_nil_of_le h0]
      · intro c hc; simp at hc
      · intro c hc; simp at hc
      · have : slice.length - i = 0 := by omega
        rw [this, Nat.zero_add, List.length_nil]
        exact (Nat.div_eq_of_lt (by omega)).symm

theorem chunk_spec {τ : Type} (slice : List τ) (n : Nat) (hn : 0 < n) :
    (chunk slice n).flatten = slice ∧
      (∀ c ∈ chunk slice n, 0 < c.length ∧ c.length ≤ n) ∧
      (∀ c ∈ (chunk slice n).dropLast, c.length = n) ∧
      (chunk slice n).length = (slice.length + (n - 1)) / n := by
  have := chunkFrom_spec slice n hn slice.length 0 (by omega)
  simpa [chunk] using this

/-! ## Go maps -/

theorem GoMap.get?_set {κ ν : Type} [DecidableEq κ] (m : GoMap κ ν) (k k' : κ) (v : ν) :
    GoMap.get? (GoMap.set m k v) k' = if k' = k then some v else GoMap.get? m k' := by
  induction m with
  | nil =>
    simp only [GoMap.set, GoMap.get?, List.find?_cons, List.find?_nil]
    by_cases h : k = k'
    · subst h; simp
    · have h' : ¬ k' = k := fun e => h e.symm
      simp [h, h']
  | cons e m ih =>
    simp only [GoMap.set]
    by_cases he : e.1 = k
    · rw [if_pos he]
      by_cases h : k' = k
      · subst h; simp [GoMap.get?]
      · have h' : ¬ k = k' := fun e => h e.symm
        have h2 : ¬ e.1 = k' := by rw [he]; exact h'
        simp [GoMap.get?, List.find?_cons, h, h', h2]
    · rw [if_neg he]
      by_cases h2 : e.1 = k'
      · have h : ¬ k' = k := by rw [← h2]; exact he
        simp [GoMap.get?, List.find?_cons, h2, h]
      · have := ih
        simp only [GoMap.get?] at this ⊢
        simp only [List.find?_cons, h2, decide_False]
        exact this

theorem GoMap.set_keys {κ ν : Type} [DecidableEq κ] (m : GoMap κ ν) (k : κ) (v : ν) :
    (GoMap.set m k v).map Prod.fst =
      if k ∈ m.map Prod.fst then m.map Prod.fst else m.map Prod.fst ++ [k] := by
  induction m with
  | nil => simp [GoMap.set]
  | cons e m ih =>
    simp only [GoMap.set]
    by_cases he : e.1 = k
    · rw [if_pos he]
      simp [he]
    · rw [if_neg he]
      have he' : ¬ k = e.1 := fun h => he h.symm
      simp only [List.map_cons, ih, List.mem_cons, he', false_or]
      split <;> simp

theorem GoMap.set_fresh {κ ν : Type} [DecidableEq κ] (m : GoMap κ ν) (k : κ) (v : ν)
    (h : k ∉ m.map Prod.fst) : GoMap.set m k v = m ++ [(k, v)] := by
  induction m with
  | nil => simp [GoMap.set]
  | cons e m ih =>
    have he : ¬ e.1 = k := by
      intro hc; apply h; simp [hc]
    have hm : k ∉ m.map Prod.fst := by
      intro hc; apply h; simp only [List.map_cons, List.mem_cons]; exact Or.inr hc
    simp only [GoMap.set, if_neg he, ih hm, List.cons_append]

theorem GoMap.set_nodup {κ ν : Type} [DecidableEq κ] (m : GoMap κ ν) (k : κ) (v : ν)
    (h : (m.map Prod.fst).Nodup) : ((GoMap.set m k v).map Prod.fst).Nodup := by
  rw [GoMap.set_keys]
  split
  · exact h
  · rename_i hk
    rw [List.nodup_append]
    refine ⟨h, List.nodup_singleton k, ?_⟩
    intro a ha hb
    rw [List.mem_singleton] at hb
    subst hb
    exact hk ha

theorem GoMap.get?_isSome {κ ν : Type} [DecidableEq κ] (m : GoMap κ ν) (k : κ) :
    (GoMap.get? m k).isSome ↔ k ∈ m.map Prod.fst := by
  induction m with
  | nil => simp [GoMap.get?]
  | cons e m ih =>
    simp only [GoMap.get?, List.find?_cons, List.map_cons, List.mem_cons] at ih ⊢
    by_cases h : e.1 = k
    · simp [h]
    · have h' : ¬ k = e.1 := fun hc => h hc.symm
      simp only [h, decide_False, h', false_or]
      exact ih

/-- The keys of a map filled by `m[f e] = g e` over a list. -/
theorem foldl_set_keys {κ ν α : Type} [DecidableEq κ] (f : α → κ) (g : α → ν) :
    ∀ (l : List α) (m : GoMap κ ν), (m.map Prod.fst).Nodup →
      ((l.foldl (fun nm e => GoMap.set nm (f e) (g e)) m).map Prod.fst).Nodup ∧
      ∀ x, x ∈ (l.foldl (fun nm e => GoMap.set nm (f e) (g e)) m).map Prod.fst ↔
        x ∈ m.map Prod.fst ∨ ∃ e ∈ l, f e = x := by
  intro l
  induction l with
  | nil => intro m hm; exact ⟨hm, fun x => by simp⟩
  | cons a l ih =>
    intro m hm
    simp only [List.foldl_cons]
    obtain ⟨h1, h2⟩ := ih (GoMap.set m (f a) (g a)) (GoMap.set_nodup m _ _ hm)
    refine ⟨h1, fun x => ?_⟩
    rw [h2 x, GoMap.set_keys]
    constructor
    · rintro (h | ⟨e, he, hx⟩)
      · split at h
        · exact Or.inl h
        · rcases List.mem_append.mp h with h' | h'
          · exact Or.inl h'
          · right
            exact ⟨a, List.mem_cons_self _ _, (List.mem_singleton.mp h').symm⟩
      · exact Or.inr ⟨e, List.mem_cons_of_mem _ he, hx⟩
    · rintro (h | ⟨e, he, hx⟩)
      · left
        split
        · exact h
        · exact List.mem_append_left _ h
      · rcases List.mem_cons.mp he with e1 | he'
        · left
          subst e1
          split
          · rename_i hin; rw [← hx]; exact hin
          · rw [← hx]; simp
        · exact Or.inr ⟨e, he', hx⟩

/-! ## `populateParameters` -/

theorem nameMap0_keys (params : GoMap GoString resolvedValue) :
    ((nameMap0 params).map Prod.fst).Nodup ∧
      ∀ x, x ∈ (nameMap0 params).map Prod.fst ↔ ∃ e ∈ params, e.2.source = x := by
  have := foldl_set_keys (fun e : GoString × resolvedValue => e.2.source)
    (fun _ => ([] : GoString)) params [] (by simp)
  refine ⟨this.1, fun x => ?_⟩
  have h := this.2 x
  simp only [List.map_nil, List.not_mem_nil, false_or] at h
  exact h

theorem keys_spec {ν : Type} (ord : IterOrder) (m : GoMap GoString ν)
    (h : (m.map Prod.fst).Nodup) :
    (keys ord m).Nodup ∧ ∀ x, x ∈ keys ord m ↔ x ∈ m.map Prod.fst :=
  ⟨(ord.perm _).nodup_iff.mpr h, fun _ => (ord.perm _).mem_iff⟩

theorem getParametersLoop_ok (api : Backend) :
    ∀ (chunks : List (List GoString)) (nameMap : GoMap GoString GoString)
      (calls : List (List GoString)), (∀ names ∈ chunks, BatchOk api names) →
      getParametersLoop api chunks nameMap calls =
        (calls ++ chunks, .ok ((returnedParameters api chunks).foldl
          (fun nm p => GoMap.set nm p.Name p.Value) nameMap)) := by
  intro chunks
  induction chunks with
  | nil => intro nameMap calls _; simp [getParametersLoop, returnedParameters]
  | cons names rest ih =>
    intro nameMap calls hok
    obtain ⟨get, hget, hinv⟩ := hok names (List.mem_cons_self _ _)
    rw [getParametersLoop, hget]
    simp only [hinv, List.length_nil, gt_iff_lt, Nat.lt_irrefl, if_false]
    rw [ih _ _ (fun n hn => hok n (List.mem_cons_of_mem _ hn))]
    simp [returnedParameters, List.flatMap_cons, hget, List.foldl_append]

theorem getParametersLoop_fail (api : Backend) :
    ∀ (chunks : List (List GoString)) (nameMap : GoMap GoString GoString)
      (calls : List (List GoString)), (∃ names ∈ chunks, ¬ BatchOk api names) →
      ∃ e, (getParametersLoop api chunks nameMap calls).2 = .error e := by
  intro chunks
  induction chunks with
  | nil => intro _ _ h; simp at h
  | cons names rest ih =>
    intro nameMap calls hfail
    rw [getParametersLoop]
    cases hget : api.GetParameters names with
    | error e => exact ⟨_, rfl⟩
    | ok get =>
      simp only
      by_cases hinv : get.InvalidParameters.length > 0
      · rw [if_pos hinv]; exact ⟨_, rfl⟩
      · rw [if_neg hinv]
        apply ih
        obtain ⟨n, hn, hbad⟩ := hfail
        rcases List.mem_cons.mp hn with e | hn'
        · exfalso
          apply hbad
          rw [e]
          exact ⟨get, hget, List.length_eq_zero.mp (by omega)⟩
        · exact ⟨n, hn', hbad⟩

/-- The calls made are a beginning of the list of chunks, and every call
before the last made succeeded. -/
theorem getParametersLoop_calls (api : Backend) :
    ∀ (chunks : List (List GoString)) (nameMap : GoMap GoString GoString)
      (calls : List (List GoString)),
      ∃ made, (getParametersLoop api chunks nameMap calls).1 = calls ++ made ∧
        made <+: chunks := by
  intro chunks
  induction chunks with
  | nil => intro nameMap calls; exact ⟨[], by simp [getParametersLoop], List.prefix_refl _⟩
  | cons names rest ih =>
    intro nameMap calls
    rw [getParametersLoop]
    cases hget : api.GetParameters names with
    | error e => exact ⟨[names], rfl, by simp⟩
    | ok get =>
      simp only
      by_cases hinv : get.InvalidParameters.length > 0
      · rw [if_pos hinv]; exact ⟨[names], rfl, by simp⟩
      · rw [if_neg hinv]
        obtain ⟨made, h1, h2⟩ := ih
          (get.Parameters.foldl (fun nm p => GoMap.set nm p.Name p.Value) nameMap)
          (calls ++ [names])
        refine ⟨names :: made, ?_, ?_⟩
        · rw [h1]; simp
        · exact (List.prefix_cons_inj names).mpr h2

theorem populateParameters_ok (ord : IterOrder) (api : Backend)
    (params : GoMap GoString resolvedValue)
    (hok : ∀ names ∈ chunk (keys ord (nameMap0 params)) 10, BatchOk api names) :
    populateParameters ord api params =
      ⟨chunk (keys ord (nameMap0 params)) 10, .ok (filledParams ord api params)⟩ := by
  unfold populateParameters filledParams
  simp only [getParametersLoop_ok api _ _ _ hok, List.nil_append]

/-- When every call made succeeded, every chunk was called. -/
theorem getParametersLoop_all (api : Backend) :
    ∀ (chunks : List (List GoString)) (nameMap : GoMap GoString GoString)
      (calls : List (List GoString)),
      (∀ names ∈ (getParametersLoop api chunks nameMap calls).1, BatchOk api names) →
      ∀ names ∈ chunks, BatchOk api names := by
  intro chunks
  induction chunks with
  | nil => intro _ _ _ names h; simp at h
  | cons names rest ih =>
    intro nameMap calls hall
    have hcalled : names ∈ (getParametersLoop api (names :: rest) nameMap calls).1 := by
      obtain ⟨made, h1, h2⟩ := getParametersLoop_calls api rest
        (match api.GetParameters names with
          | .ok get => get.Parameters.foldl (fun nm p => GoMap.set nm p.Name p.Value) nameMap
          | .error _ => nameMap) (calls ++ [names])
      rw [getParametersLoop]
      cases hget : api.GetParameters names with
      | error e => simp
      | ok get =>
        simp only
        by_cases hinv : get.InvalidParameters.length > 0
        · rw [if_pos hinv]; simp
        · rw [if_neg hinv]
          rw [hget] at h1
          simp only at h1
          rw [h1]
          simp
    have hok := hall names hcalled
    obtain ⟨get, hget, hinv⟩ := hok
    intro n hn
    rcases List.mem_cons.mp hn with e | hn'
    · rw [e]; exact ⟨get, hget, hinv⟩
    · refine ih (get.Parameters.foldl (fun nm p => GoMap.set nm p.Name p.Value) nameMap)
        (calls ++ [names]) ?_ n hn'
      intro m hm
      apply hall
      rw [getParametersLoop, hget]
      simp only [hinv, List.length_nil, gt_iff_lt, Nat.lt_irrefl, if_false]
      exact hm

theorem populateParameters_calls_eq (ord : IterOrder) (api : Backend)
    (params : GoMap GoString resolvedValue) :
    (populateParameters ord api params).calls =
      (getParametersLoop api (chunk (keys ord (nameMap0 params)) 10) (nameMap0 params) []).1 := by
  unfold populateParameters
  simp only
  cases getParametersLoop api (chunk (keys ord (nameMap0 params)) 10) (nameMap0 params) [] with
  | mk calls res => cases res <;> rfl

/-! ## `populateSecrets` -/

theorem runWorkers_fail (api : Backend) :
    ∀ ids : List GoString, (∃ id ∈ ids, ∃ e, api.GetSecretValue id = .error e) →
      ∃ e, runWorkers api ids = .error e := by
  intro ids
  induction ids with
  | nil => intro h; simp at h
  | cons id rest ih =>
    intro h
    rw [runWorkers]
    cases hg : getSecret api id with
    | error e => exact ⟨e, rfl⟩
    | ok sent =>
      simp only
      obtain ⟨x, hx, e, he⟩ := h
      rcases List.mem_cons.mp hx with e1 | hx'
      · exfalso
        rw [e1] at he
        simp [getSecret, he] at hg
      · obtain ⟨e', he'⟩ := ih ⟨x, hx', e, he⟩
        rw [he']
        exact ⟨e', rfl⟩

theorem getSecret_ok (api : Backend) (id : GoString) (h : SecretOk api id) :
    getSecret api id = .ok [⟨id, secretValue api id⟩] := by
  obtain ⟨gsv, hg, hv⟩ := h
  unfold getSecret secretValue secretText
  rw [hg]
  cases hs : gsv.SecretString with
  | some str => simp [hs]
  | none =>
    cases hb : gsv.SecretBinary with
    | some bin => simp [hs, hb]
    | none => simp [hs, hb] at hv

theorem runWorkers_ok (api : Backend) :
    ∀ ids : List GoString, (∀ id ∈ ids, SecretOk api id) →
      runWorkers api ids = .ok (ids.map fun id => ⟨id, secretValue api id⟩) := by
  intro ids
  induction ids with
  | nil => intro _; rfl
  | cons id rest ih =>
    intro h
    rw [runWorkers, getSecret_ok api id (h id (List.mem_cons_self _ _))]
    simp only
    rw [ih (fun x hx => h x (List.mem_cons_of_mem _ hx))]
    rfl

theorem foldl_storeSecret (f : GoString → GoString) :
    ∀ (ids : List GoString) (secrets : GoMap GoString resolvedValue),
      (ids.map fun id => (⟨id, f id⟩ : resolvedSecret)).foldl storeSecret secrets =
        secrets.map fun e =>
          if e.2.source ∈ ids then (e.1, ⟨e.2.source, f e.2.source⟩) else e := by
  intro ids
  induction ids with
  | nil => intro secrets; simp
  | cons id rest ih =>
    intro secrets
    simp only [List.map_cons, List.foldl_cons]
    rw [ih]
    simp only [storeSecret, List.map_map]
    apply List.map_congr_left
    intro e _
    simp only [Function.comp]
    by_cases h1 : e.2.source = id
    · simp [h1]
    · by_cases h2 : e.2.source ∈ rest
      · simp [h1, h2]
      · simp [h1, h2]

theorem populateSecrets_ok (api : Backend) (secrets : GoMap GoString resolvedValue)
    (h : ∀ e ∈ secrets, SecretOk api e.2.source) :
    populateSecrets api secrets 5 = .done (filledSecrets api secrets) := by
  unfold populateSecrets filledSecrets
  have hrun := runWorkers_ok api (secrets.map fun e => e.2.source) (by
    intro id hid
    obtain ⟨e, he, rfl⟩ := List.mem_map.mp hid
    exact h e he)
  simp only [Nat.succ_ne_zero, if_false, hrun, List.length_map, Nat.lt_irrefl,
    OfNat.ofNat_ne_zero]
  rw [List.take_of_length_le (by simp), foldl_storeSecret]
  congr 1
  apply List.map_congr_left
  intro e he
  have : e.2.source ∈ secrets.map fun e => e.2.source := List.mem_map.mpr ⟨e, he, rfl⟩
  rw [if_pos this]

theorem populateSecrets_fail (api : Backend) (secrets : GoMap GoString resolvedValue)
    (h : ∃ e ∈ secrets, ∃ err, api.GetSecretValue e.2.source = .error err) :
    ∃ err, populateSecrets api secrets 5 = .error err := by
  unfold populateSecrets
  obtain ⟨err, he⟩ := runWorkers_fail api (secrets.map fun e => e.2.source) (by
    obtain ⟨e, he, err, herr⟩ := h
    exact ⟨e.2.source, List.mem_map.mpr ⟨e, he, rfl⟩, err, herr⟩)
  simp only [OfNat.ofNat_ne_zero, if_false, he]
  exact ⟨_, rfl⟩

/-! ## Filling a map from a list -/

theorem foldl_set_get? {κ ν α : Type} [DecidableEq κ] (f : α → κ) (g : α → ν) (k : κ) :
    ∀ (l : List α) (m : GoMap κ ν),
      ((∀ e ∈ l, f e ≠ k) →
        GoMap.get? (l.foldl (fun nm e => GoMap.set nm (f e) (g e)) m) k = GoMap.get? m k) ∧
      (∀ v, (∃ e ∈ l, f e = k) → (∀ e ∈ l, f e = k → g e = v) →
        GoMap.get? (l.foldl (fun nm e => GoMap.set nm (f e) (g e)) m) k = some v) := by
  intro l
  induction l with
  | nil =>
    intro m
    exact ⟨fun _ => rfl, fun v h _ => by simp at h⟩
  | cons a l ih =>
    intro m
    simp only [List.foldl_cons]
    obtain ⟨ih1, ih2⟩ := ih (GoMap.set m (f a) (g a))
    constructor
    · intro hne
      rw [ih1 (fun e he => hne e (List.mem_cons_of_mem _ he)), GoMap.get?_set]
      have : ¬ k = f a := fun hc => hne a (List.mem_cons_self _ _) hc.symm
      rw [if_neg this]
    · intro v hex hall
      by_cases hl : ∃ e ∈ l, f e = k
      · exact ih2 v hl (fun e he => hall e (List.mem_cons_of_mem _ he))
      · have hne : ∀ e ∈ l, f e ≠ k := fun e he hc => hl ⟨e, he, hc⟩
        rw [ih1 hne, GoMap.get?_set]
        obtain ⟨e, he, hfe⟩ := hex
        rcases List.mem_cons.mp he with e1 | he'
        · subst e1
          rw [if_pos hfe.symm, hall e (List.mem_cons_self _ _) hfe]
        · exact absurd hfe (hne e he')

/-! ## The declarations in the environment -/

theorem markers_exclusive (v : GoString) (h1 : HasPrefix v prefixSm = true)
    (h2 : HasPrefix v prefixSsm = true) : False := by
  unfold HasPrefix at h1 h2
  rw [List.isPrefixOf_iff_prefix] at h1 h2
  obtain ⟨t1, e1⟩ := h1
  obtain ⟨t2, e2⟩ := h2
  have a1 : (prefixSm ++ t1)[6]? = some 109 := by
    rw [List.getElem?_append_left (by decide)]; decide
  have a2 : (prefixSsm ++ t2)[6]? = some 115 := by
    rw [List.getElem?_append_left (by decide)]; decide
  rw [e1] at a1
  rw [e2, a1] at a2
  exact absurd a2 (by decide)

theorem trimPrefix_append (s pre : GoString) (h : HasPrefix s pre = true) :
    pre ++ TrimPrefix s pre = s := by
  unfold TrimPrefix
  rw [if_pos h]
  unfold HasPrefix at h
  rw [List.isPrefixOf_iff_prefix] at h
  obtain ⟨t, rfl⟩ := h
  simp

theorem declaredKey_inj {kv1 kv2 : GoString} (h1 : isDeclared kv1 = true)
    (h2 : isDeclared kv2 = true) (h : declaredKey kv1 = declaredKey kv2) :
    entryName kv1 = entryName kv2 := by
  rw [← trimPrefix_append _ _ h1, ← trimPrefix_append _ _ h2]
  unfold declaredKey at h
  rw [h]

theorem declared_spec :
    ∀ (environ : List GoString) (P S : GoMap GoString resolvedValue),
      (∀ kv ∈ environ, isDeclared kv = true →
        HasPrefix (entryValue kv) prefixSm = true ∨ HasPrefix (entryValue kv) prefixSsm = true) →
      (∀ kv ∈ environ, isDeclared kv = true →
        declaredKey kv ∉ P.map Prod.fst ∧ declaredKey kv ∉ S.map Prod.fst) →
      ((environ.filter isDeclared).map declaredKey).Nodup →
      declared environ P S = some (P ++ ssmEntries environ, S ++ smEntries environ) := by
  intro environ
  induction environ with
  | nil => intro P S _ _ _; simp [declared, ssmEntries, smEntries]
  | cons kv rest ih =>
    intro P S hmark hfresh hnd
    have hmark' : ∀ x ∈ rest, isDeclared x = true →
        HasPrefix (entryValue x) prefixSm = true ∨ HasPrefix (entryValue x) prefixSsm = true :=
      fun x hx => hmark x (List.mem_cons_of_mem _ hx)
    rw [declared]
    by_cases hd : isDeclared kv = true
    · have hd' : HasPrefix (entryName kv) envPrefix = true := hd
      simp only [hd', if_true]
      rw [List.filter_cons_of_pos hd, List.map_cons, List.nodup_cons] at hnd
      obtain ⟨hk, hnd'⟩ := hnd
      have hkrest : ∀ x ∈ rest, isDeclared x = true → declaredKey x ≠ declaredKey kv := by
        intro x hx hxd hc
        apply hk
        rw [← hc]
        exact List.mem_map.mpr ⟨x, List.mem_filter.mpr ⟨hx, hxd⟩, rfl⟩
      obtain ⟨hfP, hfS⟩ := hfresh kv (List.mem_cons_self _ _) hd
      by_cases hsm : HasPrefix (entryValue kv) prefixSm = true
      · have hnssm : ¬ HasPrefix (entryValue kv) prefixSsm = true :=
          fun hc => markers_exclusive _ hsm hc
        rw [if_pos hsm]
        have hset : GoMap.set S (TrimPrefix (entryName kv) envPrefix)
            { source := TrimPrefix (entryValue kv) prefixSm } =
            S ++ [(declaredKey kv, { source := TrimPrefix (entryValue kv) prefixSm })] :=
          GoMap.set_fresh S _ _ hfS
        rw [hset, ih P _ hmark' ?_ hnd']
        · simp [ssmEntries, smEntries, List.filter_cons, hd, hsm, hnssm]
        · intro x hx hxd
          refine ⟨(hfresh x (List.mem_cons_of_mem _ hx) hxd).1, ?_⟩
          rw [List.map_append, List.mem_append]
          rintro (hc | hc)
          · exact (hfresh x (List.mem_cons_of_mem _ hx) hxd).2 hc
          · simp only [List.map_cons, List.map_nil, List.mem_singleton] at hc
            exact hkrest x hx hxd hc
      · rw [if_neg hsm]
        have hssm : HasPrefix (entryValue kv) prefixSsm = true := by
          rcases hmark kv (List.mem_cons_self _ _) hd with h | h
          · exact absurd h hsm
          · exact h
        rw [if_pos hssm]
        have hset : GoMap.set P (TrimPrefix (entryName kv) envPrefix)
            { source := TrimPrefix (entryValue kv) prefixSsm } =
            P ++ [(declaredKey kv, { source := TrimPrefix (entryValue kv) prefixSsm })] :=
          GoMap.set_fresh P _ _ hfP
        rw [hset, ih _ S hmark' ?_ hnd']
        · simp [ssmEntries, smEntries, List.filter_cons, hd, hsm, hssm]
        · intro x hx hxd
          refine ⟨?_, (hfresh x (List.mem_cons_of_mem _ hx) hxd).2⟩
          rw [List.map_append, List.mem_append]
          rintro (hc | hc)
          · exact (hfresh x (List.mem_cons_of_mem _ hx) hxd).1 hc
          · simp only [List.map_cons, List.map_nil, List.mem_singleton] at hc
            exact hkrest x hx hxd hc
    · have hd' : ¬ HasPrefix (entryName kv) envPrefix = true := hd
      simp only [hd', if_false]
      rw [List.filter_cons_of_neg hd] at hnd
      rw [ih P S hmark' (fun x hx => hfresh x (List.mem_cons_of_mem _ hx)) hnd]
      simp [ssmEntries, smEntries, List.filter_cons, hd]

/-- An entry with an unsupported value makes `fetch` panic. -/
theorem declared_bad :
    ∀ (environ : List GoString) (P S : GoMap GoString resolvedValue),
      (∃ kv ∈ environ, isDeclared kv = true ∧ HasPrefix (entryValue kv) prefixSm = false ∧
        HasPrefix (entryValue kv) prefixSsm = false) →
      declared environ P S = none := by
  intro environ
  induction environ with
  | nil => intro P S h; simp at h
  | cons kv rest ih =>
    intro P S h
    rw [declared]
    by_cases hd : HasPrefix (entryName kv) envPrefix = true
    · simp only [hd, if_true]
      by_cases hsm : HasPrefix (entryValue kv) prefixSm = true
      · rw [if_pos hsm]
        apply ih
        obtain ⟨x, hx, h1, h2, h3⟩ := h
        rcases List.mem_cons.mp hx with e | hx'
        · rw [e] at h2; rw [h2] at hsm; exact absurd hsm (by simp)
        · exact ⟨x, hx', h1, h2, h3⟩
      · rw [if_neg hsm]
        by_cases hssm : HasPrefix (entryValue kv) prefixSsm = true
        · rw [if_pos hssm]
          apply ih
          obtain ⟨x, hx, h1, h2, h3⟩ := h
          rcases List.mem_cons.mp hx with e | hx'
          · rw [e] at h3; rw [h3] at hssm; exact absurd hssm (by simp)
          · exact ⟨x, hx', h1, h2, h3⟩
        · rw [if_neg hssm]
    · simp only [hd, if_false]
      apply ih
      obtain ⟨x, hx, h1, h2, h3⟩ := h
      rcases List.mem_cons.mp hx with e | hx'
      · rw [e] at h1; exact absurd h1 hd
      · exact ⟨x, hx', h1, h2, h3⟩

/-! ## `fetch` -/

theorem getParametersLoop_ok_calls (api : Backend) :
    ∀ (chunks : List (List GoString)) (nameMap : GoMap GoString GoString)
      (calls : List (List GoString)) (nm : GoMap GoString GoString),
      (getParametersLoop api chunks nameMap calls).2 = .ok nm →
      ∀ names ∈ (getParametersLoop api chunks nameMap calls).1,
        names ∈ calls ∨ BatchOk api names := by
  intro chunks
  induction chunks with
  | nil =>
    intro nameMap calls nm _ names h
    simp only [getParametersLoop] at h
    exact Or.inl h
  | cons c rest ih =>
    intro nameMap calls nm hres names hn
    rw [getParametersLoop] at hres hn
    cases hget : api.GetParameters c with
    | error e => rw [hget] at hres; simp at hres
    | ok get =>
      rw [hget] at hres hn
      simp only at hres hn
      by_cases hinv : get.InvalidParameters.length > 0
      · rw [if_pos hinv] at hres; simp at hres
      · rw [if_neg hinv] at hres hn
        rcases ih _ _ nm hres names hn with h | h
        · rcases List.mem_append.mp h with h' | h'
          · exact Or.inl h'
          · right
            rw [List.mem_singleton.mp h']
            exact ⟨get, hget, List.length_eq_zero.mp (by omega)⟩
        · exact Or.inr h

theorem populateParameters_fail (ord : IterOrder) (api : Backend)
    (params : GoMap GoString resolvedValue)
    (h : ∃ names ∈ (populateParameters ord api params).calls, ¬ BatchOk api names) :
    ∃ e, (populateParameters ord api params).result = .error e := by
  obtain ⟨names, hn, hbad⟩ := h
  rw [populateParameters_calls_eq] at hn
  unfold populateParameters
  simp only
  cases hl : getParametersLoop api (chunk (keys ord (nameMap0 params)) 10) (nameMap0 params) []
    with
  | mk calls res =>
    cases res with
    | error e => exact ⟨e, rfl⟩
    | ok nm =>
      exfalso
      have := getParametersLoop_ok_calls api _ _ _ nm (by rw [hl]) names hn
      rcases this with h | h
      · simp at h
      · exact hbad h

/-- `fetch` has one `return`, and that returns `nil`. -/
theorem fetch_never_returns_error (ord : IterOrder) (api : Backend) (environ : List GoString)
    (now : Nat) (s : spyext) (err : Error) (s' : spyext) :
    fetch ord api environ now s ≠ .returned (some err) s' := by
  unfold fetch
  cases declared environ [] [] with
  | none => simp
  | some ps =>
    obtain ⟨params, secrets⟩ := ps
    simp only
    cases (populateParameters ord api params).result with
    | error e => simp
    | ok params1 =>
      simp only
      cases populateSecrets api secrets 5 <;> simp

theorem mem_ssmEntries {environ : List GoString} {e : GoString × resolvedValue} :
    e ∈ ssmEntries environ ↔ ∃ kv ∈ environ, isDeclared kv = true ∧
      HasPrefix (entryValue kv) prefixSsm = true ∧
      e = (declaredKey kv, { source := TrimPrefix (entryValue kv) prefixSsm }) := by
  simp only [ssmEntries, List.mem_map, List.mem_filter, Bool.and_eq_true]
  constructor
  · rintro ⟨kv, ⟨h1, h2, h3⟩, rfl⟩
    exact ⟨kv, h1, h2, h3, rfl⟩
  · rintro ⟨kv, h1, h2, h3, rfl⟩
    exact ⟨kv, ⟨h1, h2, h3⟩, rfl⟩

theorem mem_smEntries {environ : List GoString} {e : GoString × resolvedValue} :
    e ∈ smEntries environ ↔ ∃ kv ∈ environ, isDeclared kv = true ∧
      HasPrefix (entryValue kv) prefixSm = true ∧
      e = (declaredKey kv, { source := TrimPrefix (entryValue kv) prefixSm }) := by
  simp only [smEntries, List.mem_map, List.mem_filter, Bool.and_eq_true]
  constructor
  · rintro ⟨kv, ⟨h1, h2, h3⟩, rfl⟩
    exact ⟨kv, h1, h2, h3, rfl⟩
  · rintro ⟨kv, h1, h2, h3, rfl⟩
    exact ⟨kv, ⟨h1, h2, h3⟩, rfl⟩

/-- Two entries of an environment without a repeated declared name that
declare the same name are one entry. -/
theorem declared_unique {environ : List GoString}
    (hnames : ((environ.filter isDeclared).map entryName).Nodup)
    {kv1 kv2 : GoString} (h1 : kv1 ∈ environ) (h2 : kv2 ∈ environ)
    (d1 : isDeclared kv1 = true) (d2 : isDeclared kv2 = true)
    (h : declaredKey kv1 = declaredKey kv2) : kv1 = kv2 :=
  List.inj_on_of_nodup_map hnames (List.mem_filter.mpr ⟨h1, d1⟩) (List.mem_filter.mpr ⟨h2, d2⟩)
    (declaredKey_inj d1 d2 h)

theorem declaredKeys_nodup {environ : List GoString}
    (hnames : ((environ.filter isDeclared).map entryName).Nodup) :
    ((environ.filter isDeclared).map declaredKey).Nodup := by
  apply List.Nodup.map_on
  · intro x hx y hy hxy
    rw [List.mem_filter] at hx hy
    exact declared_unique hnames hx.1 hy.1 hx.2 hy.2 hxy
  · exact List.Nodup.of_map _ hnames

/-- The value that `populateParameters` finds for an identifier which the
store answers with `v`. -/
theorem nameMap_value (ord : IterOrder) (api : Backend) (params : GoMap GoString resolvedValue)
    (hok : ∀ names, BatchOk api names) (id v : GoString) (hid : ∃ e ∈ params, e.2.source = id)
    (hv : ParamReturned api id v) :
    GoMap.get? ((returnedParameters api (chunk (keys ord (nameMap0 params)) 10)).foldl
      (fun nm p => GoMap.set nm p.Name p.Value) (nameMap0 params)) id = some v := by
  apply (foldl_set_get? (fun p : Parameter => p.Name) (fun p => p.Value) id _ _).2 v
  · have h1 : id ∈ keys ord (nameMap0 params) := by
      rw [(keys_spec ord _ (nameMap0_keys params).1).2, (nameMap0_keys params).2]
      exact hid
    rw [← (chunk_spec (keys ord (nameMap0 params)) 10 (by norm_num)).1, List.mem_flatten] at h1
    obtain ⟨names, hn, hin⟩ := h1
    obtain ⟨get, hget, _⟩ := hok names
    obtain ⟨p, hp, hpn⟩ := (hv names get hget).1 hin
    refine ⟨p, ?_, hpn⟩
    unfold returnedParameters
    rw [List.mem_flatMap]
    exact ⟨names, hn, by rw [hget]; exact hp⟩
  · intro p hp hpn
    unfold returnedParameters at hp
    rw [List.mem_flatMap] at hp
    obtain ⟨names, _, hp'⟩ := hp
    cases hget : api.GetParameters names with
    | error e => rw [hget] at hp'; simp at hp'
    | ok get =>
      rw [hget] at hp'
      exact (hv names get hget).2 p hp' hpn

/-- The store `invalidStore` reports the parameter `/p` as invalid. -/
theorem invalidStore_not_batchOk : ¬ BatchOk invalidStore [ascii "/p"] := by
  rintro ⟨get, hget, hinv⟩
  simp only [invalidStore, Except.ok.injEq] at hget
  rw [← hget] at hinv
  exact absurd hinv (by decide)

/-! ## Matching by derivatives -/

theorem nullable_iff (r : Regex) : r.nullable = true ↔ r.Matches [] := by
  induction r with
  | never => exact ⟨fun h => by simp [Regex.nullable] at h, fun h => by cases h⟩
  | empty => exact ⟨fun _ => .empty, fun _ => rfl⟩
  | cls p => exact ⟨fun h => by simp [Regex.nullable] at h, fun h => by cases h⟩
  | seq r s ihr ihs =>
    simp only [Regex.nullable, Bool.and_eq_true]
    constructor
    · rintro ⟨h1, h2⟩
      exact Regex.Matches.seq r s [] [] (ihr.mp h1) (ihs.mp h2)
    · intro h
      generalize hw : ([] : List Byte) = w at h
      cases h with
      | seq _ _ u v hu hv =>
        obtain ⟨rfl, rfl⟩ := List.append_eq_nil.mp hw.symm
        exact ⟨ihr.mpr hu, ihs.mpr hv⟩
  | alt r s ihr ihs =>
    simp only [Regex.nullable, Bool.or_eq_true]
    constructor
    · rintro (h | h)
      · exact .altLeft r s [] (ihr.mp h)
      · exact .altRight r s [] (ihs.mp h)
    · intro h
      cases h with
      | altLeft _ _ _ h => exact Or.inl (ihr.mpr h)
      | altRight _ _ _ h => exact Or.inr (ihs.mpr h)
  | star r _ => exact ⟨fun _ => .starNil r, fun _ => rfl⟩

theorem star_cons_split (r : Regex) :
    ∀ w, (Regex.star r).Matches w → ∀ b t, w = b :: t →
      ∃ u v, t = u ++ v ∧ r.Matches (b :: u) ∧ (Regex.star r).Matches v := by
  intro w h
  generalize hr : Regex.star r = q at h
  induction h with
  | empty => cases hr
  | cls _ _ _ => cases hr
  | seq _ _ _ _ _ _ _ _ => cases hr
  | altLeft _ _ _ _ _ => cases hr
  | altRight _ _ _ _ _ => cases hr
  | starNil _ => intro b t h; cases h
  | starCons r' u v hu hv _ ih2 =>
    cases hr
    intro b t h
    cases u with
    | nil => exact ih2 rfl b t h
    | cons c u' =>
      simp only [List.cons_append, List.cons.injEq] at h
      obtain ⟨rfl, rfl⟩ := h
      exact ⟨u', v, rfl, hu, hv⟩

theorem deriv_iff (r : Regex) : ∀ (b : Byte) (w : List Byte),
    (r.deriv b).Matches w ↔ r.Matches (b :: w) := by
  induction r with
  | never => intro b w; exact ⟨fun h => (by cases h), fun h => (by cases h)⟩
  | empty => intro b w; exact ⟨fun h => (by cases h), fun h => (by cases h)⟩
  | cls p =>
    intro b w
    simp only [Regex.deriv]
    constructor
    · intro h
      by_cases hp : p b = true
      · rw [if_pos hp] at h
        cases h
        exact .cls p b hp
      · rw [if_neg hp] at h
        cases h
    · intro h
      cases h with
      | cls _ _ hp =>
        rw [if_pos hp]
        exact .empty
  | seq r s ihr ihs =>
    intro b w
    have fwd : (Regex.seq (r.deriv b) s).Matches w → (Regex.seq r s).Matches (b :: w) := by
      intro h
      cases h with
      | seq _ _ u v hu hv =>
        exact Regex.Matches.seq r s (b :: u) v ((ihr b u).mp hu) hv
    have bwd : (Regex.seq r s).Matches (b :: w) →
        (Regex.seq (r.deriv b) s).Matches w ∨ (r.nullable = true ∧ (s.deriv b).Matches w) := by
      intro h
      generalize hx : b :: w = x at h
      cases h with
      | seq _ _ u v hu hv =>
        cases u with
        | nil =>
          right
          simp only [List.nil_append] at hx
          subst hx
          exact ⟨(nullable_iff r).mpr hu, (ihs b w).mpr hv⟩
        | cons c u' =>
          left
          simp only [List.cons_append, List.cons.injEq] at hx
          obtain ⟨rfl, rfl⟩ := hx
          exact Regex.Matches.seq _ s u' v ((ihr b u').mpr hu) hv
    simp only [Regex.deriv]
    by_cases hn : r.nullable = true
    · rw [if_pos hn]
      constructor
      · intro h
        cases h with
        | altLeft _ _ _ h => exact fwd h
        | altRight _ _ _ h =>
          exact Regex.Matches.seq r s [] (b :: w) ((nullable_iff r).mp hn) ((ihs b w).mp h)
      · intro h
        rcases bwd h with h1 | ⟨_, h2⟩
        · exact .altLeft _ _ _ h1
        · exact .altRight _ _ _ h2
    · rw [if_neg hn]
      constructor
      · exact fwd
      · intro h
        rcases bwd h with h1 | ⟨h2, _⟩
        · exact h1
        · exact absurd h2 hn
  | alt r s ihr ihs =>
    intro b w
    simp only [Regex.deriv]
    constructor
    · intro h
      cases h with
      | altLeft _ _ _ h => exact .altLeft _ _ _ ((ihr b w).mp h)
      | altRight _ _ _ h => exact .altRight _ _ _ ((ihs b w).mp h)
    · intro h
      cases h with
      | altLeft _ _ _ h => exact .altLeft _ _ _ ((ihr b w).mpr h)
      | altRight _ _ _ h => exact .altRight _ _ _ ((ihs b w).mpr h)
  | star r ih =>
    intro b w
    simp only [Regex.deriv]
    constructor
    · intro h
      cases h with
      | seq _ _ u v hu hv =>
        exact Regex.Matches.starCons r (b :: u) v ((ih b u).mp hu) hv
    · intro h
      obtain ⟨u, v, rfl, hu, hv⟩ := star_cons_split r _ h b w rfl
      exact Regex.Matches.seq _ _ u v ((ih b u).mpr hu) hv

theorem fullMatch_iff (r : Regex) (w : List Byte) : r.fullMatch w = true ↔ r.Matches w := by
  induction w generalizing r with
  | nil => exact nullable_iff r
  | cons b w ih =>
    simp only [Regex.fullMatch]
    rw [ih, deriv_iff]

theorem prefixMatch_iff (r : Regex) (w : List Byte) :
    r.prefixMatch w = true ↔ ∃ u v, w = u ++ v ∧ r.Matches u := by
  induction w generalizing r with
  | nil =>
    simp only [Regex.prefixMatch]
    rw [nullable_iff]
    constructor
    · intro h; exact ⟨[], [], rfl, h⟩
    · rintro ⟨u, v, h, hm⟩
      obtain ⟨rfl, _⟩ := List.append_eq_nil.mp h.symm
      exact hm
  | cons b w ih =>
    simp only [Regex.prefixMatch, Bool.or_eq_true]
    rw [nullable_iff, ih]
    constructor
    · rintro (h | ⟨u, v, rfl, hm⟩)
      · exact ⟨[], b :: w, rfl, h⟩
      · exact ⟨b :: u, v, rfl, (deriv_iff r b u).mp hm⟩
    · rintro ⟨u, v, h, hm⟩
      cases u with
      | nil => exact Or.inl hm
      | cons c u' =>
        simp only [List.cons_append, List.cons.injEq] at h
        obtain ⟨rfl, rfl⟩ := h
        exact Or.inr ⟨u', v, rfl, (deriv_iff r b u').mpr hm⟩

theorem matchString_iff (r : Regex) (w : GoString) :
    r.MatchString w = true ↔ ∃ pre mid suf, w = pre ++ mid ++ suf ∧ r.Matches mid := by
  induction w with
  | nil =>
    simp only [Regex.MatchString]
    rw [prefixMatch_iff]
    constructor
    · rintro ⟨u, v, h, hm⟩
      exact ⟨[], u, v, by simpa using h, hm⟩
    · rintro ⟨pre, mid, suf, h, hm⟩
      have h1 := List.append_eq_nil.mp h.symm
      have h2 := List.append_eq_nil.mp h1.1
      exact ⟨mid, suf, by rw [h2.2, h1.2]; rfl, hm⟩
  | cons b w ih =>
    simp only [Regex.MatchString, Bool.or_eq_true]
    rw [prefixMatch_iff, ih]
    constructor
    · rintro (⟨u, v, h, hm⟩ | ⟨pre, mid, suf, h, hm⟩)
      · exact ⟨[], u, v, by simpa using h, hm⟩
      · exact ⟨b :: pre, mid, suf, by rw [h]; rfl, hm⟩
    · rintro ⟨pre, mid, suf, h, hm⟩
      cases pre with
      | nil => exact Or.inl ⟨mid, suf, by simpa using h, hm⟩
      | cons c pre' =>
        simp only [List.cons_append, List.cons.injEq] at h
        exact Or.inr ⟨pre', mid, suf, h.2, hm⟩

/-! ## The pattern of `serveProxy` -/

theorem matches_lit (s w : GoString) : (Regex.lit s).Matches w ↔ w = s := by
  induction s generalizing w with
  | nil =>
    simp only [Regex.lit]
    exact ⟨fun h => by cases h; rfl, fun h => by rw [h]; exact .empty⟩
  | cons b s ih =>
    simp only [Regex.lit]
    constructor
    · intro h
      cases h with
      | seq _ _ u v hu hv =>
        cases hu with
        | cls _ c hc =>
          rw [(ih v).mp hv]
          simp only [beq_iff_eq] at hc
          rw [hc]
          rfl
    · intro h
      rw [h]
      exact Regex.Matches.seq _ _ [b] s (.cls _ b (by simp)) ((ih s).mpr rfl)

theorem matches_star_cls (p : Byte → Bool) (w : List Byte) :
    (Regex.star (.cls p)).Matches w ↔ ∀ b ∈ w, p b = true := by
  constructor
  · intro h
    generalize hr : Regex.star (.cls p) = q at h
    induction h with
    | empty => cases hr
    | cls _ _ _ => cases hr
    | seq _ _ _ _ _ _ _ _ => cases hr
    | altLeft _ _ _ _ _ => cases hr
    | altRight _ _ _ _ _ => cases hr
    | starNil _ => intro b hb; simp at hb
    | starCons r' u v hu _ _ ih2 =>
      cases hr
      intro b hb
      rcases List.mem_append.mp hb with h1 | h1
      · cases hu with
        | cls _ c hc =>
          rw [List.mem_singleton.mp h1]
          exact hc
      · exact ih2 rfl b h1
  · intro h
    induction w with
    | nil => exact .starNil _
    | cons b w ih =>
      exact Regex.Matches.starCons _ [b] w (.cls p b (h b (List.mem_cons_self _ _)))
        (ih (fun c hc => h c (List.mem_cons_of_mem _ hc)))

theorem matches_plus_cls (p : Byte → Bool) (w : List Byte) :
    (Regex.plus (.cls p)).Matches w ↔ w ≠ [] ∧ ∀ b ∈ w, p b = true := by
  unfold Regex.plus
  constructor
  · intro h
    cases h with
    | seq _ _ u v hu hv =>
      cases hu with
      | cls _ c hc =>
        refine ⟨by simp, ?_⟩
        intro b hb
        rcases List.mem_append.mp hb with h1 | h1
        · rw [List.mem_singleton.mp h1]; exact hc
        · exact (matches_star_cls p v).mp hv b h1
  · rintro ⟨hne, h⟩
    cases w with
    | nil => exact absurd rfl hne
    | cons b w =>
      exact Regex.Matches.seq _ _ [b] w (.cls p b (h b (List.mem_cons_self _ _)))
        ((matches_star_cls p w).mpr (fun c hc => h c (List.mem_cons_of_mem _ hc)))

/-- The strings that the pattern of `serveProxy` matches in full are the
completion paths. -/
theorem matches_re (w : GoString) : re.Matches w ↔ CompletionPath w := by
  unfold re CompletionPath
  constructor
  · intro h
    cases h with
    | seq _ _ u1 v1 h1 h2 =>
      cases h2 with
      | seq _ _ u2 v2 h3 h4 =>
        cases h4 with
        | seq _ _ u3 v3 h5 h6 =>
          rw [matches_lit] at h1 h5
          rw [matches_plus_cls] at h3
          refine ⟨u2, v3, by rw [h1, h5]; simp, h3.1, ?_, ?_⟩
          · intro hc
            have := h3.2 slash hc
            simp at this
          · cases h6 with
            | altLeft _ _ _ h7 => exact Or.inl ((matches_lit _ _).mp h7)
            | altRight _ _ _ h7 => exact Or.inr ((matches_lit _ _).mp h7)
  · rintro ⟨id, term, rfl, hid, hsl, hterm⟩
    have e : ascii "/2018-06-01/runtime/invocation/" ++ id ++ ascii "/" ++ term =
        ascii "/2018-06-01/runtime/invocation/" ++ (id ++ (ascii "/" ++ term)) := by simp
    rw [e]
    refine Regex.Matches.seq _ _ _ _ ((matches_lit _ _).mpr rfl)
      (Regex.Matches.seq _ _ _ _ ((matches_plus_cls _ _).mpr ⟨hid, ?_⟩)
        (Regex.Matches.seq _ _ _ _ ((matches_lit _ _).mpr rfl) ?_))
    · intro b hb
      simp only [bne_iff_ne, ne_eq]
      intro hc
      rw [hc] at hb
      exact hsl hb
    · rcases hterm with h | h
      · exact .altLeft _ _ _ ((matches_lit _ _).mpr h)
      · exact .altRight _ _ _ ((matches_lit _ _).mpr h)

/-! ## Reading back what `appendString` wrote -/

theorem byte_ofNat_val (b : Byte) : (Fin.ofNat b.val : Byte) = b := by
  apply Fin.ext
  simp [Fin.ofNat, Nat.mod_eq_of_lt b.isLt]

theorem byte_ofNat_val_eq (n : Nat) (h : n < 256) : (Fin.ofNat n : Byte).val = n := by
  simp [Fin.ofNat, Nat.mod_eq_of_lt h]

/-- A byte that needs no escape is read as it is. -/
theorem unquote_raw (b : Byte) (h1 : b.val ≠ 0x22) (h2 : b.val ≠ 0x5C) (h3 : 0x20 ≤ b.val)
    (f : Nat) (tail : List Byte) :
    unquoteLoop (f + 1) (b :: tail) = prepend [b] (unquoteLoop f tail) := by
  have h3' : ¬ b.val < 0x20 := by omega
  rw [unquoteLoop.eq_def]
  simp only [h1, h2, h3', if_false]

/-- A two-character escape is read as the byte it stands for. -/
theorem unquote_simple (c x : Byte) (hc : simpleEscape c = some x) (f : Nat)
    (tail : List Byte) :
    unquoteLoop (f + 1) (0x5C :: c :: tail) = prepend [x] (unquoteLoop f tail) := by
  have h1 : ¬ ((0x5C : Byte).val = 0x22) := by decide
  have h2 : (0x5C : Byte).val = 0x5C := by decide
  have h3 : ¬ c.val = 0x75 := by
    intro h
    unfold simpleEscape at hc
    simp [h] at hc
  rw [unquoteLoop.eq_def]
  simp only [h1, h2, h3, if_false, if_true, hc]
  try norm_num

/-- An escape `\\uXXXX` of a character that is no surrogate is read as the
UTF-8 encoding of the character. -/
theorem unquote_u (input rest2 : List Byte) (cu : Nat) (hp : parseHex4 input = some (cu, rest2))
    (hcu : ¬ (0xD800 ≤ cu ∧ cu < 0xDC00)) (f : Nat) :
    unquoteLoop (f + 1) (0x5C :: 0x75 :: input) =
      prepend (encodeRune cu) (unquoteLoop f rest2) := by
  have h1 : ¬ ((0x5C : Byte).val = 0x22) := by decide
  have h2 : (0x5C : Byte).val = 0x5C := by decide
  have h3 : (0x75 : Byte).val = 0x75 := by decide
  rw [unquoteLoop.eq_def]
  simp only [h1, h2, h3, if_false, if_true, hp, hcu]
  try norm_num

theorem hexVal_hexDigit (n : Nat) (h : n < 16) : hexVal (hexDigit n) = some n := by
  interval_cases n <;> decide

theorem parseHex4_digits (a b c d : Nat) (ha : a < 16) (hb : b < 16) (hc : c < 16)
    (hd : d < 16) (tail : List Byte) :
    parseHex4 (hexDigit a :: hexDigit b :: hexDigit c :: hexDigit d :: tail) =
      some (((a * 16 + b) * 16 + c) * 16 + d, tail) := by
  simp only [parseHex4, hexVal_hexDigit _ ha, hexVal_hexDigit _ hb, hexVal_hexDigit _ hc,
    hexVal_hexDigit _ hd]

/-- The reader turns what `appendString` writes for an ASCII byte back into
that byte. -/
theorem unquote_escapeByte (b : Byte) (hb : b.val < 0x80) (f : Nat) (tail : List Byte) :
    unquoteLoop (f + 1) (escapeByte b ++ tail) = prepend [b] (unquoteLoop f tail) := by
  unfold escapeByte
  by_cases hs : htmlSafe b = true
  · rw [if_pos hs]
    simp only [htmlSafe, Bool.and_eq_true, decide_eq_true_eq, bne_iff_ne, ne_eq] at hs
    exact unquote_raw b (by omega) (by omega) (by omega) f tail
  · rw [if_neg hs]
    by_cases h1 : b.val = 0x5C ∨ b.val = 0x22
    · rw [if_pos h1]
      have : simpleEscape b = some b := by
        unfold simpleEscape
        rcases h1 with h | h
        · have e : b = 0x5C := Fin.ext h
          subst e; decide
        · have e : b = 0x22 := Fin.ext h
          subst e; decide
      exact unquote_simple b b this f tail
    · rw [if_neg h1]
      by_cases h2 : b.val = 0x08
      · rw [if_pos h2]
        have e : b = 0x08 := Fin.ext h2
        subst e
        exact unquote_simple 0x62 0x08 (by decide) f tail
      · rw [if_neg h2]
        by_cases h3 : b.val = 0x0C
        · rw [if_pos h3]
          have e : b = 0x0C := Fin.ext h3
          subst e
          exact unquote_simple 0x66 0x0C (by decide) f tail
        · rw [if_neg h3]
          by_cases h4 : b.val = 0x0A
          · rw [if_pos h4]
            have e : b = 0x0A := Fin.ext h4
            subst e
            exact unquote_simple 0x6E 0x0A (by decide) f tail
          · rw [if_neg h4]
            by_cases h5 : b.val = 0x0D
            · rw [if_pos h5]
              have e : b = 0x0D := Fin.ext h5
              subst e
              exact unquote_simple 0x72 0x0D (by decide) f tail
            · rw [if_neg h5]
              by_cases h6 : b.val = 0x09
              · rw [if_pos h6]
                have e : b = 0x09 := Fin.ext h6
                subst e
                exact unquote_simple 0x74 0x09 (by decide) f tail
              · rw [if_neg h6]
                have e0 : (0x30 : Byte) = hexDigit 0 := by decide
                have hp := parseHex4_digits 0 0 (b.val / 16) (b.val % 16) (by norm_num)
                  (by norm_num) (by omega) (by omega) tail
                have hv : ((0 * 16 + 0) * 16 + b.val / 16) * 16 + b.val % 16 = b.val := by
                  omega
                rw [hv] at hp
                simp only [List.cons_append, List.nil_append]
                rw [e0, unquote_u _ tail b.val hp (by omega) f]
                have he : encodeRune b.val = [b] := by
                  unfold encodeRune
                  rw [if_pos hb, byte_ofNat_val]
                rw [he]

/-! ## `DecodeRune` on a byte that is not ASCII -/

theorem decodeRune_bad (b : Byte) (rest : List Byte) (hb : 0x80 ≤ b.val)
    (hbad : b.val < 0xC2 ∨ 0xF4 < b.val) : DecodeRune (b :: rest) = (RuneError, 1) := by
  have hb' : ¬ b.val < 0x80 := by omega
  simp only [DecodeRune, hb', if_false, hbad, if_true]

theorem decodeRune_short (b : Byte) (rest : List Byte) (hb : 0xC2 ≤ b.val) (hb4 : b.val ≤ 0xF4)
    (hlen : rest.length + 1 < (if b.val < 0xE0 then 2 else if b.val < 0xF0 then 3 else 4)) :
    DecodeRune (b :: rest) = (RuneError, 1) := by
  have hb' : ¬ b.val < 0x80 := by omega
  have hbad : ¬ (b.val < 0xC2 ∨ 0xF4 < b.val) := by omega
  simp only [DecodeRune, hb', if_false, hbad, hlen, if_true]

theorem decodeRune_two (b s1 : Byte) (t : List Byte) (hb : 0xC2 ≤ b.val) (h2 : b.val < 0xE0) :
    DecodeRune (b :: s1 :: t) =
      if s1.val < 0x80 ∨ 0xBF < s1.val then (RuneError, 1)
      else (b.val % 32 * 64 + s1.val % 64, 2) := by
  have hb' : ¬ b.val < 0x80 := by omega
  have hbad : ¬ (b.val < 0xC2 ∨ 0xF4 < b.val) := by omega
  have e1 : ¬ b.val = 0xE0 := by omega
  have e2 : ¬ b.val = 0xF0 := by omega
  have e3 : ¬ b.val = 0xED := by omega
  have e4 : ¬ b.val = 0xF4 := by omega
  have hl : ¬ (t.length + 1 + 1 < 2) := by omega
  simp only [DecodeRune, hb', hbad, h2, e1, e2, e3, e4, if_false, if_true, List.length_cons,
    hl, le_refl]

theorem decodeRune_three (b s1 s2 : Byte) (t : List Byte) (hb : 0xE0 ≤ b.val)
    (h3 : b.val < 0xF0) :
    DecodeRune (b :: s1 :: s2 :: t) =
      if s1.val < (if b.val = 0xE0 then 0xA0 else 0x80) ∨
          (if b.val = 0xED then 0x9F else 0xBF) < s1.val then (RuneError, 1)
      else if s2.val < 0x80 ∨ 0xBF < s2.val then (RuneError, 1)
      else (b.val % 16 * 4096 + s1.val % 64 * 64 + s2.val % 64, 3) := by
  have hb' : ¬ b.val < 0x80 := by omega
  have hbad : ¬ (b.val < 0xC2 ∨ 0xF4 < b.val) := by omega
  have h2 : ¬ b.val < 0xE0 := by omega
  have e2 : ¬ b.val = 0xF0 := by omega
  have e4 : ¬ b.val = 0xF4 := by omega
  have hl : ¬ (t.length + 1 + 1 + 1 < 3) := by omega
  have h32 : ¬ (3 ≤ 2) := by omega
  simp only [DecodeRune, hb', hbad, h2, h3, e2, e4, if_false, if_true, List.length_cons,
    hl, h32, le_refl]

theorem decodeRune_four (b s1 s2 s3 : Byte) (t : List Byte) (hb : 0xF0 ≤ b.val)
    (h4 : b.val ≤ 0xF4) :
    DecodeRune (b :: s1 :: s2 :: s3 :: t) =
      if s1.val < (if b.val = 0xF0 then 0x90 else 0x80) ∨
          (if b.val = 0xF4 then 0x8F else 0xBF) < s1.val then (RuneError, 1)
      else if s2.val < 0x80 ∨ 0xBF < s2.val then (RuneError, 1)
      else if s3.val < 0x80 ∨ 0xBF < s3.val then (RuneError, 1)
      else (b.val % 8 * 262144 + s1.val % 64 * 4096 + s2.val % 64 * 64 + s3.val % 64, 4) := by
  have hb' : ¬ b.val < 0x80 := by omega
  have hbad : ¬ (b.val < 0xC2 ∨ 0xF4 < b.val) := by omega
  have h2 : ¬ b.val < 0xE0 := by omega
  have h3 : ¬ b.val < 0xF0 := by omega
  have e1 : ¬ b.val = 0xE0 := by omega
  have e3 : ¬ b.val = 0xED := by omega
  have hl : ¬ (t.length + 1 + 1 + 1 + 1 < 4) := by omega
  have h42 : ¬ (4 ≤ 2) := by omega
  have h43 : ¬ (4 ≤ 3) := by omega
  simp only [DecodeRune, hb', hbad, h2, h3, e1, e3, if_false, if_true, List.length_cons,
    hl, h42, h43]

/-- A character that is not ASCII and decodes without error takes two to
four bytes, none of them ASCII; and the characters U+2028 and U+2029 are
decoded from their UTF-8 encoding only. -/
theorem decodeRune_valid (b : Byte) (rest : List Byte) (hb : 0x80 ≤ b.val)
    (hv : ¬ ((DecodeRune (b :: rest)).1 = RuneError ∧ (DecodeRune (b :: rest)).2 = 1)) :
    2 ≤ (DecodeRune (b :: rest)).2 ∧ (DecodeRune (b :: rest)).2 ≤ rest.length + 1 ∧
    (∀ x ∈ (b :: rest).take (DecodeRune (b :: rest)).2, 0x80 ≤ x.val) ∧
    ((DecodeRune (b :: rest)).1 = 0x2028 ∨ (DecodeRune (b :: rest)).1 = 0x2029 →
      (b :: rest).take (DecodeRune (b :: rest)).2 = encodeRune (DecodeRune (b :: rest)).1) := by
  by_cases hbad : b.val < 0xC2 ∨ 0xF4 < b.val
  · rw [decodeRune_bad b rest hb hbad] at hv
    exact absurd ⟨rfl, rfl⟩ hv
  · have hlo : 0xC2 ≤ b.val := by omega
    have hhi : b.val ≤ 0xF4 := by omega
    by_cases h2 : b.val < 0xE0
    · rcases rest with _ | ⟨s1, t⟩
      · rw [decodeRune_short b [] hlo hhi (by simp [h2])] at hv
        exact absurd ⟨rfl, rfl⟩ hv
      · rw [decodeRune_two b s1 t hlo h2] at hv ⊢
        by_cases hs1 : s1.val < 0x80 ∨ 0xBF < s1.val
        · rw [if_pos hs1] at hv
          exact absurd ⟨rfl, rfl⟩ hv
        · rw [if_neg hs1]
          refine ⟨le_refl _, by simp, ?_, ?_⟩
          · intro x hx
            simp only [List.take_succ_cons, List.take_zero, List.mem_cons, List.mem_nil_iff,
              or_false] at hx
            rcases hx with rfl | rfl <;> omega
          · intro hc
            exfalso
            simp only at hc
            omega
    · by_cases h3 : b.val < 0xF0
      · rcases rest with _ | ⟨s1, _ | ⟨s2, t⟩⟩
        · rw [decodeRune_short b [] hlo hhi (by simp [h2, h3])] at hv
          exact absurd ⟨rfl, rfl⟩ hv
        · rw [decodeRune_short b [s1] hlo hhi (by simp [h2, h3])] at hv
          exact absurd ⟨rfl, rfl⟩ hv
        · rw [decodeRune_three b s1 s2 t (by omega) h3] at hv ⊢
          by_cases hs1 : s1.val < (if b.val = 0xE0 then 0xA0 else 0x80) ∨
              (if b.val = 0xED then 0x9F else 0xBF) < s1.val
          · rw [if_pos hs1] at hv
            exact absurd ⟨rfl, rfl⟩ hv
          · rw [if_neg hs1] at hv ⊢
            by_cases hs2 : s2.val < 0x80 ∨ 0xBF < s2.val
            · rw [if_pos hs2] at hv
              exact absurd ⟨rfl, rfl⟩ hv
            · rw [if_neg hs2]
              have hs1lo : 0x80 ≤ s1.val := by split_ifs at hs1 <;> omega
              have hs1hi : s1.val ≤ 0xBF := by split_ifs at hs1 <;> omega
              refine ⟨by norm_num, by simp, ?_, ?_⟩
              · intro x hx
                simp only [List.take_succ_cons, List.take_zero, List.mem_cons,
                  List.mem_nil_iff, or_false] at hx
                rcases hx with rfl | rfl | rfl <;> omega
              · intro hc
                simp only at hc
                have hb2 : b = 0xE2 := Fin.ext (by
                  show b.val = 0xE2
                  omega)
                have hs80 : s1 = 0x80 := Fin.ext (by
                  show s1.val = 0x80
                  omega)
                rcases hc with hc | hc
                · have hsA8 : s2 = 0xA8 := Fin.ext (by
                    show s2.val = 0xA8
                    omega)
                  subst hb2 hs80 hsA8
                  rfl
                · have hsA9 : s2 = 0xA9 := Fin.ext (by
                    show s2.val = 0xA9
                    omega)
                  subst hb2 hs80 hsA9
                  rfl
      · rcases rest with _ | ⟨s1, _ | ⟨s2, _ | ⟨s3, t⟩⟩⟩
        · rw [decodeRune_short b [] hlo hhi (by simp [h2, h3])] at hv
          exact absurd ⟨rfl, rfl⟩ hv
        · rw [decodeRune_short b [s1] hlo hhi (by simp [h2, h3])] at hv
          exact absurd ⟨rfl, rfl⟩ hv
        · rw [decodeRune_short b [s1, s2] hlo hhi (by simp [h2, h3])] at hv
          exact absurd ⟨rfl, rfl⟩ hv
        · rw [decodeRune_four b s1 s2 s3 t (by omega) hhi] at hv ⊢
          by_cases hs1 : s1.val < (if b.val = 0xF0 then 0x90 else 0x80) ∨
              (if b.val = 0xF4 then 0x8F else 0xBF) < s1.val
          · rw [if_pos hs1] at hv
            exact absurd ⟨rfl, rfl⟩ hv
          · rw [if_neg hs1] at hv ⊢
            by_cases hs2 : s2.val < 0x80 ∨ 0xBF < s2.val
            · rw [if_pos hs2] at hv
              exact absurd ⟨rfl, rfl⟩ hv
            · rw [if_neg hs2] at hv ⊢
              by_cases hs3 : s3.val < 0x80 ∨ 0xBF < s3.val
              · rw [if_pos hs3] at hv
                exact absurd ⟨rfl, rfl⟩ hv
              · rw [if_neg hs3]
                have hs1lo : 0x80 ≤ s1.val := by split_ifs at hs1 <;> omega
                have hs1hi : s1.val ≤ 0xBF := by split_ifs at hs1 <;> omega
                have hbig : b.val = 0xF0 → 0x90 ≤ s1.val := by
                  intro h; rw [if_pos h] at hs1; omega
                refine ⟨by norm_num, by simp, ?_, ?_⟩
                · intro x hx
                  simp only [List.take_succ_cons, List.take_zero, List.mem_cons,
                    List.mem_nil_iff, or_false] at hx
                  rcases hx with rfl | rfl | rfl | rfl <;> omega
                · intro hc
                  exfalso
                  simp only at hc
                  by_cases hf0 : b.val = 0xF0
                  · have := hbig hf0
                    omega
                  · omega

theorem prepend_prepend (a b : GoString) (res : Option (GoString × List Byte)) :
    prepend a (prepend b res) = prepend (a ++ b) res := by
  cases res <;> simp [prepend]

/-- Bytes that are not ASCII are read as they are. -/
theorem unquote_copy : ∀ (bs : List Byte), (∀ x ∈ bs, 0x80 ≤ x.val) →
    ∀ (f : Nat) (tail : List Byte),
      unquoteLoop (f + bs.length) (bs ++ tail) = prepend bs (unquoteLoop f tail) := by
  intro bs
  induction bs with
  | nil => intro _ f tail; cases h : unquoteLoop f tail <;> simp [prepend, h]
  | cons b bs ih =>
    intro hbs f tail
    have hb := hbs b (List.mem_cons_self _ _)
    have e : f + (b :: bs).length = (f + bs.length) + 1 := by simp; omega
    rw [e, List.cons_append, unquote_raw b (by omega) (by omega) (by omega),
      ih (fun x hx => hbs x (List.mem_cons_of_mem _ hx)), prepend_prepend]
    rfl

theorem escapeByte_length (b : Byte) : 1 ≤ (escapeByte b).length := by
  unfold escapeByte
  split_ifs <;> simp

/-- What the reader makes of a string written by `appendString`, and how
long that is. -/
theorem unquote_appendString :
    ∀ (n : Nat) (s : GoString), s.length ≤ n → validUTF8Loop n s = true →
      s.length ≤ (appendStringLoop n s).length ∧
      ∀ (f : Nat) (tail : List Byte), s.length ≤ f →
        unquoteLoop (f + 1) (appendStringLoop n s ++ 0x22 :: tail) = some (s, tail) := by
  have hquote : ∀ (f : Nat) (tail : List Byte),
      unquoteLoop (f + 1) (0x22 :: tail) = some ([], tail) := by
    intro f tail
    have h1 : (0x22 : Byte).val = 0x22 := by decide
    rw [unquoteLoop.eq_def]
    simp only [h1, if_true]
  intro n
  induction n with
  | zero =>
    intro s hs _
    have : s = [] := List.length_eq_zero.mp (by omega)
    subst this
    exact ⟨by simp, fun f tail _ => by simpa [appendStringLoop] using hquote f tail⟩
  | succ n ih =>
    intro s hs hv
    cases s with
    | nil => exact ⟨by simp, fun f tail _ => by simpa [appendStringLoop] using hquote f tail⟩
    | cons b rest =>
      have hrest : rest.length ≤ n := by simpa using hs
      by_cases hb : b.val < 0x80
      · -- an ASCII byte
        have hd : DecodeRune (b :: rest) = (b.val, 1) := by simp [DecodeRune, hb]
        have hv' : validUTF8Loop n rest = true := by
          have hne : ¬ ((DecodeRune (b :: rest)).1 = RuneError ∧
              (DecodeRune (b :: rest)).2 = 1) := by
            rw [hd]; unfold RuneError; simp only; omega
          rw [validUTF8Loop, if_neg hne, hd] at hv
          exact hv
        obtain ⟨ih1, ih2⟩ := ih rest hrest hv'
        have hunf : appendStringLoop (n + 1) (b :: rest) =
            escapeByte b ++ appendStringLoop n rest := by
          rw [appendStringLoop, if_pos hb]
        rw [hunf]
        refine ⟨?_, ?_⟩
        · have := escapeByte_length b
          simp only [List.length_append, List.length_cons]
          omega
        · intro f tail hf
          obtain ⟨f', rfl⟩ : ∃ f', f = f' + 1 := ⟨f - 1, by simp at hf; omega⟩
          rw [List.append_assoc, unquote_escapeByte b hb, ih2 f' tail (by simp at hf; omega)]
          rfl
      · -- a longer character
        have hb' : 0x80 ≤ b.val := by omega
        have hvalid : ¬ ((DecodeRune (b :: rest)).1 = RuneError ∧
            (DecodeRune (b :: rest)).2 = 1) := by
          intro hc
          rw [validUTF8Loop, if_pos hc] at hv
          exact absurd hv (by simp)
        have hv' : validUTF8Loop n ((b :: rest).drop (DecodeRune (b :: rest)).2) = true := by
          rw [validUTF8Loop, if_neg hvalid] at hv
          exact hv
        obtain ⟨hsz2, hszle, hbytes, h2028⟩ := decodeRune_valid b rest hb' hvalid
        have hdroplen : ((b :: rest).drop (DecodeRune (b :: rest)).2).length + 
            (DecodeRune (b :: rest)).2 = rest.length + 1 := by
          simp only [List.length_drop, List.length_cons]
          omega
        obtain ⟨ih1, ih2⟩ := ih _ (by omega) hv'
        have htd : (b :: rest).take (DecodeRune (b :: rest)).2 ++
            (b :: rest).drop (DecodeRune (b :: rest)).2 = b :: rest := List.take_append_drop _ _
        have htakelen : ((b :: rest).take (DecodeRune (b :: rest)).2).length =
            (DecodeRune (b :: rest)).2 := by
          rw [List.length_take, List.length_cons]
          omega
        by_cases hsep : (DecodeRune (b :: rest)).1 = 0x2028 ∨ (DecodeRune (b :: rest)).1 = 0x2029
        · have hunf : appendStringLoop (n + 1) (b :: rest) =
              ascii "\\u202" ++ [hexDigit ((DecodeRune (b :: rest)).1 % 16)] ++
                appendStringLoop n ((b :: rest).drop (DecodeRune (b :: rest)).2) := by
            rw [appendStringLoop, if_neg hb]
            simp only [hvalid, if_false, hsep, if_true]
          have hsz3 : (DecodeRune (b :: rest)).2 ≤ 3 := by
            have := h2028 hsep
            have hl := congrArg List.length this
            rw [htakelen] at hl
            rw [hl]
            rcases hsep with h | h <;> rw [h] <;> decide
          rw [hunf]
          refine ⟨?_, ?_⟩
          · simp only [List.length_append, List.length_cons, List.length_nil]
            have : (ascii "\\u202").length = 5 := by decide
            simp only [List.length_cons] at hdroplen
            omega
          · intro f tail hf
            obtain ⟨f', rfl⟩ : ∃ f', f = f' + 1 := ⟨f - 1, by simp at hf; omega⟩
            have hstep : unquoteLoop (f' + 1 + 1)
                (ascii "\\u202" ++ [hexDigit ((DecodeRune (b :: rest)).1 % 16)] ++
                  appendStringLoop n ((b :: rest).drop (DecodeRune (b :: rest)).2) ++
                  0x22 :: tail) =
                prepend (encodeRune (DecodeRune (b :: rest)).1)
                  (unquoteLoop (f' + 1)
                    (appendStringLoop n ((b :: rest).drop (DecodeRune (b :: rest)).2) ++
                      0x22 :: tail)) := by
              have e1 : ascii "\\u202" = [0x5C, 0x75, hexDigit 2, hexDigit 0, hexDigit 2] := by
                decide
              rw [e1]
              simp only [List.cons_append, List.nil_append, List.append_assoc]
              have hp := parseHex4_digits 2 0 2 ((DecodeRune (b :: rest)).1 % 16)
                (by norm_num) (by norm_num) (by norm_num) (by omega)
                (appendStringLoop n ((b :: rest).drop (DecodeRune (b :: rest)).2) ++
                  0x22 :: tail)
              have hval : ((2 * 16 + 0) * 16 + 2) * 16 + (DecodeRune (b :: rest)).1 % 16 =
                  (DecodeRune (b :: rest)).1 := by
                rcases hsep with h | h <;> rw [h]
              rw [hval] at hp
              exact unquote_u _ _ _ hp (by rcases hsep with h | h <;> rw [h] <;> omega) (f' + 1)
            rw [hstep, ih2 f' tail (by simp only [List.length_cons] at hf hdroplen; omega)]
            simp only [prepend, Option.map_some']
            rw [← h2028 hsep, htd]
        · have hunf : appendStringLoop (n + 1) (b :: rest) =
              (b :: rest).take (DecodeRune (b :: rest)).2 ++
                appendStringLoop n ((b :: rest).drop (DecodeRune (b :: rest)).2) := by
            rw [appendStringLoop, if_neg hb]
            simp only [hvalid, if_false, hsep]
          rw [hunf]
          refine ⟨?_, ?_⟩
          · simp only [List.length_append, htakelen]
            simp only [List.length_cons] at hdroplen ⊢
            omega
          · intro f tail hf
            have hf' : f + 1 = (f + 1 - (DecodeRune (b :: rest)).2) +
                ((b :: rest).take (DecodeRune (b :: rest)).2).length := by
              rw [htakelen]
              simp only [List.length_cons] at hf
              omega
            rw [hf', List.append_assoc, unquote_copy _ hbytes]
            obtain ⟨f', hf''⟩ : ∃ f', f + 1 - (DecodeRune (b :: rest)).2 = f' + 1 :=
              ⟨f - (DecodeRune (b :: rest)).2, by
                simp only [List.length_cons] at hf; omega⟩
            rw [hf'', ih2 f' tail (by simp only [List.length_cons] at hf hdroplen; omega)]
            simp only [prepend, Option.map_some']
            rw [htd]

/-! ## Reading back what `Marshal` wrote -/

theorem parseString_appendString (s : GoString) (hs : validUTF8 s = true) (tail : List Byte) :
    parseString (appendString s ++ tail) = some (s, tail) := by
  obtain ⟨hlen, hun⟩ := unquote_appendString s.length s (le_refl _) hs
  have e : appendString s ++ tail =
      0x22 :: (appendStringLoop s.length s ++ 0x22 :: tail) := by
    have q : ascii "\"" = [0x22] := by decide
    simp [appendString, q]
  have h22 : (0x22 : Byte).val = 0x22 := by decide
  rw [e, parseString]
  simp only [h22, if_true]
  have hl : (appendStringLoop s.length s ++ 0x22 :: tail).length =
      ((appendStringLoop s.length s).length + tail.length) + 1 := by
    simp only [List.length_append, List.length_cons]; omega
  rw [hl]
  exact hun _ tail (by omega)

theorem appendString_length (s : GoString) : 2 ≤ (appendString s).length := by
  have q : (ascii "\"").length = 1 := by decide
  simp only [appendString, List.length_append, q]
  omega

theorem marshalEntries_length : ∀ es : GoMap GoString GoString,
    es.length ≤ (marshalEntries es).length
  | [] => by simp [marshalEntries]
  | [e] => by
    have := appendString_length e.1
    simp only [marshalEntries, List.length_append, List.length_cons, List.length_nil]
    omega
  | e :: e' :: rest => by
    have := appendString_length e.1
    have ih := marshalEntries_length (e' :: rest)
    simp only [marshalEntries, List.length_append, List.length_cons] at ih ⊢
    omega

theorem parseEntries_marshalEntries :
    ∀ (es : GoMap GoString GoString), es ≠ [] →
      (∀ e ∈ es, validUTF8 e.1 = true ∧ validUTF8 e.2 = true) →
      ∀ (fuel : Nat) (tail : List Byte), es.length ≤ fuel →
        parseEntries fuel (marshalEntries es ++ 0x7D :: tail) = some (es, tail) := by
  have hcolon : ascii ":" = [0x3A] := by decide
  have hcomma : ascii "," = [0x2C] := by decide
  have h3A : ¬ ((0x3A : Byte).val ≠ 0x3A) := by decide
  have h7D : (0x7D : Byte).val = 0x7D := by decide
  have h2C : (0x2C : Byte).val = 0x2C := by decide
  have h2C' : ¬ ((0x2C : Byte).val = 0x7D) := by decide
  intro es
  induction es with
  | nil => intro h; exact absurd rfl h
  | cons e rest ih =>
    intro _ hv fuel tail hf
    obtain ⟨hk, hval⟩ := hv e (List.mem_cons_self _ _)
    obtain ⟨f, rfl⟩ : ∃ f, fuel = f + 1 := ⟨fuel - 1, by simp at hf; omega⟩
    cases rest with
    | nil =>
      have e1 : marshalEntries [e] ++ 0x7D :: tail =
          appendString e.1 ++ (0x3A :: (appendString e.2 ++ 0x7D :: tail)) := by
        simp [marshalEntries, hcolon]
      rw [e1, parseEntries, parseString_appendString e.1 hk]
      simp only [h3A, if_false]
      rw [parseString_appendString e.2 hval]
      simp only [h7D, if_true]
    | cons e' rest' =>
      have e1 : marshalEntries (e :: e' :: rest') ++ 0x7D :: tail =
          appendString e.1 ++ (0x3A :: (appendString e.2 ++
            0x2C :: (marshalEntries (e' :: rest') ++ 0x7D :: tail))) := by
        simp [marshalEntries, hcolon, hcomma]
      rw [e1, parseEntries, parseString_appendString e.1 hk]
      simp only [h3A, if_false]
      rw [parseString_appendString e.2 hval]
      simp only [h2C, h2C', if_false, if_true]
      rw [ih (by simp) (fun x hx => hv x (List.mem_cons_of_mem _ hx)) f tail
        (by simp at hf ⊢; omega)]
      rfl

theorem parseMap_marshalMap (m : GoMap GoString GoString)
    (hv : ∀ e ∈ m, validUTF8 e.1 = true ∧ validUTF8 e.2 = true) (tail : List Byte) :
    parseMap (marshalMap (some m) ++ tail) = some (some (sortedEntries m), tail) := by
  have hperm : (sortedEntries m).Perm m := List.perm_insertionSort _ m
  have hv' : ∀ e ∈ sortedEntries m, validUTF8 e.1 = true ∧ validUTF8 e.2 = true :=
    fun e he => hv e (hperm.mem_iff.mp he)
  have hopen : ascii "\x7b" = [0x7B] := by decide
  have hclose : ascii "\x7d" = [0x7D] := by decide
  cases hs : sortedEntries m with
  | nil =>
    have hin : marshalMap (some m) ++ tail = 0x7B :: 0x7D :: tail := by
      simp [marshalMap, hs, marshalEntries, hopen, hclose]
    have hnull : ascii "null" = [0x6E, 0x75, 0x6C, 0x6C] := by decide
    have hempty : ascii "\x7b\x7d" = [0x7B, 0x7D] := by decide
    have n1 : (ascii "null").isPrefixOf (0x7B :: 0x7D :: tail) = false := by
      rw [hnull]; rfl
    have n2 : (ascii "\x7b\x7d").isPrefixOf (0x7B :: 0x7D :: tail) = true := by
      rw [hempty]; simp [List.isPrefixOf]
    rw [hin, parseMap]
    simp [n1, n2]
  | cons e rest =>
    have hq : ∃ t, appendString e.1 = 0x22 :: t := ⟨_, rfl⟩
    obtain ⟨t, ht⟩ := hq
    have hme : ∃ u, marshalEntries (e :: rest) = 0x22 :: u := by
      cases rest with
      | nil => exact ⟨t ++ (ascii ":" ++ appendString e.2), by simp [marshalEntries, ht]⟩
      | cons e' r' =>
        exact ⟨t ++ (ascii ":" ++ (appendString e.2 ++ (ascii "," ++
          marshalEntries (e' :: r')))), by simp [marshalEntries, ht]⟩
    obtain ⟨u, hu⟩ := hme
    have hin : marshalMap (some m) ++ tail =
        0x7B :: (marshalEntries (e :: rest) ++ 0x7D :: tail) := by
      simp [marshalMap, hs, hopen, hclose]
    have hpar := parseEntries_marshalEntries (e :: rest) (by simp)
      (by rw [← hs]; exact hv') (marshalEntries (e :: rest) ++ 0x7D :: tail).length tail
      (by
        have := marshalEntries_length (e :: rest)
        simp only [List.length_append]
        omega)
    rw [hin, parseMap]
    have n1 : (ascii "null").isPrefixOf
        (0x7B :: (marshalEntries (e :: rest) ++ 0x7D :: tail)) = false := by
      rfl
    have n2 : (ascii "\x7b\x7d").isPrefixOf
        (0x7B :: (marshalEntries (e :: rest) ++ 0x7D :: tail)) = false := by
      rw [hu]
      rfl
    have h7B : (0x7B : Byte).val = 0x7B := by decide
    simp only [n1, n2, h7B, if_true, hpar, Option.map_some']
    rfl

/-- Reading the document that `Marshal` writes for a mapping with valid
UTF-8 names and values gives the entries of the mapping, sorted by name. -/
theorem parse_marshalClientContext (m : GoMap GoString GoString)
    (hv : ∀ e ∈ m, validUTF8 e.1 = true ∧ validUTF8 e.2 = true) :
    parseClientContext (marshalClientContext (some m)) = some (some (sortedEntries m)) := by
  have hpre : ∃ t, ascii "\x7b\"env\":" ++ t = marshalClientContext (some m) ∧
      t = marshalMap (some m) ++ ascii "\x7d" := ⟨_, rfl, rfl⟩
  obtain ⟨t, ht, ht2⟩ := hpre
  have hp : (ascii "\x7b\"env\":").isPrefixOf (marshalClientContext (some m)) = true := by
    rw [List.isPrefixOf_iff_prefix]
    exact ⟨t, ht⟩
  have hd : (marshalClientContext (some m)).drop 7 = marshalMap (some m) ++ ascii "\x7d" := by
    rw [← ht, ht2]
    have : (ascii "\x7b\"env\":").length = 7 := by decide
    rw [← this, List.drop_left]
  unfold parseClientContext
  rw [if_pos hp, hd, parseMap_marshalMap m hv]
  simp

/-- Regions none of whose windows holds the pattern are read through and
left as they were. -/
theorem patchRegions_no_match {K : Kernel} (hK : K.FullReads) {s r : List Byte} {mem : Mem} :
    ∀ (maps : List Map), (∀ mm ∈ maps, mm.rw → mm.NoWrap) →
      (∀ mm ∈ maps, mm.rw → ∀ a, mm.inWindow a s.length → ¬ occursAt mem a s) →
      ∀ log : List Access,
        ∃ fuel0 log1, (∀ ev ∈ log1, ev ∈ log ∨ ∃ off len, ev = Access.read off len) ∧
          ∀ fuel, fuel0 ≤ fuel →
            patchRegions K s r fuel maps ⟨mem, log⟩ = (.ok, ⟨mem, log1⟩) := by
  intro maps
  induction maps with
  | nil =>
    intro _ _ log
    exact ⟨0, log, fun ev h => Or.inl h, fun fuel _ => rfl⟩
  | cons mm rest ih =>
    intro hnw hno log
    have hnw' : ∀ m ∈ rest, m.rw → m.NoWrap := fun m hm => hnw m (List.mem_cons_of_mem _ hm)
    have hno' : ∀ m ∈ rest, m.rw → ∀ a, m.inWindow a s.length → ¬ occursAt mem a s :=
      fun m hm => hno m (List.mem_cons_of_mem _ hm)
    by_cases hrw : mm.rw
    · obtain ⟨f0, log1, hl1, hf1⟩ := @scanLoop_no_match mem K hK s r mm
        (hnw mm (List.mem_cons_self _ _) hrw).2 (hno mm (List.mem_cons_self _ _) hrw)
        (mm.End - mm.Start) 0 (by simp) log
      obtain ⟨f1, log2, hl2, hf2⟩ := ih hnw' hno' log1
      refine ⟨max f0 f1, log2, ?_, ?_⟩
      · intro ev hev
        rcases hl2 ev hev with h | h
        · exact hl1 ev h
        · exact Or.inr h
      · intro fuel hfu
        have hrw' : ¬ (mm.Permissions &&& readwrite) ≠ readwrite := fun hc => hc hrw
        have h := hf1 fuel (le_trans (le_max_left _ _) hfu)
        simp only [Nat.zero_mul, Nat.add_zero] at h
        rw [patchRegions, if_neg hrw', h]
        exact hf2 fuel (le_trans (le_max_right _ _) hfu)
    · obtain ⟨f1, log2, hl2, hf2⟩ := ih hnw' hno' log
      refine ⟨f1, log2, hl2, ?_⟩
      intro fuel hfu
      have hrw' : (mm.Permissions &&& readwrite) ≠ readwrite := hrw
      rw [patchRegions, if_pos hrw']
      exact hf2 fuel hfu

/-! ## Properties kept by every run, whatever its end -/

/-- A property of the target that every read inside the region keeps, and
that every write over an occurrence inside a window of the region keeps, is
kept by the scan of the region, however it ends. -/
theorem scanLoop_invariant {K : Kernel} {s r : List Byte} {mm : Map}
    (hE : mm.End + bufSize ≤ u64) (P : Target → Prop)
    (hread : ∀ (t : Target) (off len : Nat), P t → mm.Start ≤ off → off + len ≤ mm.End →
      P ⟨t.mem, t.log ++ [.read off len]⟩)
    (hwlog : ∀ (t : Target) (off : Nat), P t → mm.inWindow off s.length →
      occursAt t.mem off s → P ⟨t.mem, t.log ++ [.write off r.length]⟩)
    (hwmem : ∀ (t : Target) (off m : Nat), P t → mm.inWindow off s.length →
      occursAt t.mem off s → P ⟨writeBytes t.mem off (r.take m), t.log⟩) :
    ∀ (fuel o : Nat) (t : Target), (mm.End ≤ o ∨ ∃ k, o = mm.Start + k * bufSize) → P t →
      P (scanLoop K s r mm.End fuel o t).2 := by
  intro fuel
  induction fuel with
  | zero => intro o t _ hp; simpa [scanLoop] using hp
  | succ fuel ih =>
    intro o t ho hp
    by_cases hlt : o < mm.End
    · obtain ⟨k, hk⟩ : ∃ k, o = mm.Start + k * bufSize := by
        rcases ho with h | h
        · omega
        · exact h
      have hE' := hE
      rw [bufSize_eq, u64_eq] at hE'
      have hwl : windowLen mm.End o = min bufSize (mm.End - o) := by
        rw [windowLen_nowrap (by rw [bufSize_eq, u64_eq]; omega)]
        split <;> omega
      have hnle : min bufSize (mm.End - o) ≤ bufSize := Nat.min_le_left _ _
      have hnle2 : min bufSize (mm.End - o) ≤ mm.End - o := Nat.min_le_right _ _
      have hstart : mm.Start ≤ o := by rw [hk]; exact Nat.le_add_right _ _
      have hp1 : P ⟨t.mem, t.log ++ [.read o (min bufSize (mm.End - o))]⟩ :=
        hread t o _ hp hstart (by omega)
      rw [scanLoop]
      simp only [hlt, if_true, hwl]
      cases hr : ReadAt K (min bufSize (mm.End - o)) o with
      | panic => exact hp1
      | err => exact hp1
      | done n =>
        simp only
        by_cases hn : n = min bufSize (mm.End - o)
        · simp only [hn, ne_eq, not_true_eq_false, if_false]
          cases hb : bytesIndex (readBytes t.mem o (min bufSize (mm.End - o))) s with
          | none =>
            simp only
            have e : add64 o (min bufSize (mm.End - o)) = o + min bufSize (mm.End - o) := by
              rw [add64_eq]
              apply Nat.mod_eq_of_lt
              rw [bufSize_eq] at hnle
              omega
            rw [e]
            apply ih _ _ _ hp1
            by_cases hfull : bufSize ≤ mm.End - o
            · right
              refine ⟨k + 1, ?_⟩
              rw [Nat.min_eq_left hfull, hk, Nat.add_mul, Nat.one_mul, Nat.add_assoc]
            · left
              rw [Nat.min_eq_right (by omega)]
              omega
          | some idx =>
            simp only
            obtain ⟨hi1, hi2, _⟩ := bytesIndex_some hb
            have e : add64 o idx = o + idx := by
              rw [add64_eq]
              apply Nat.mod_eq_of_lt
              rw [bufSize_eq] at hnle
              omega
            rw [e]
            have hwin : mm.inWindow (o + idx) s.length := by
              refine ⟨k, by omega, ?_⟩
              have e2 : mm.Start + (k + 1) * bufSize = o + bufSize := by
                rw [hk, Nat.add_mul, Nat.one_mul, Nat.add_assoc]
              rw [e2]
              apply Nat.le_min.mpr
              constructor <;> omega
            have hp2 := hwlog _ (o + idx) hp1 hwin hi2
            cases hw : WriteAt K r (o + idx) with
            | panic => exact hp2
            | err => exact hp2
            | done m =>
              simp only
              exact ih _ _ (Or.inr ⟨k, hk⟩) (hwmem _ (o + idx) m hp2 hwin hi2)
        · simp only [ne_eq, hn, not_false_eq_true, if_true]
          exact hp1
    · rw [scanLoop_ge (by omega)]
      exact hp

/-- A property of the target that the reads and the writes of every
read-write region keep is kept by the loop over the regions, however it
ends. -/
theorem patchRegions_invariant {K : Kernel} {s r : List Byte} {fuel : Nat}
    (P : Target → Prop) :
    ∀ (maps : List Map), (∀ mm ∈ maps, mm.rw → mm.NoWrap) →
      (∀ mm ∈ maps, mm.rw → ∀ (t : Target) (off len : Nat), P t → mm.Start ≤ off →
        off + len ≤ mm.End → P ⟨t.mem, t.log ++ [.read off len]⟩) →
      (∀ mm ∈ maps, mm.rw → ∀ (t : Target) (off : Nat), P t → mm.inWindow off s.length →
        occursAt t.mem off s → P ⟨t.mem, t.log ++ [.write off r.length]⟩) →
      (∀ mm ∈ maps, mm.rw → ∀ (t : Target) (off m : Nat), P t → mm.inWindow off s.length →
        occursAt t.mem off s → P ⟨writeBytes t.mem off (r.take m), t.log⟩) →
      ∀ t : Target, P t → P (patchRegions K s r fuel maps t).2 := by
  intro maps
  induction maps with
  | nil => intro _ _ _ _ t hp; simpa [patchRegions] using hp
  | cons mm rest ih =>
    intro hnw hread hwlog hwmem t hp
    have ih' := ih (fun m hm => hnw m (List.mem_cons_of_mem _ hm))
      (fun m hm => hread m (List.mem_cons_of_mem _ hm))
      (fun m hm => hwlog m (List.mem_cons_of_mem _ hm))
      (fun m hm => hwmem m (List.mem_cons_of_mem _ hm))
    rw [patchRegions]
    by_cases hrw : mm.rw
    · have hrw' : ¬ (mm.Permissions &&& readwrite) ≠ readwrite := fun hc => hc hrw
      rw [if_neg hrw']
      have hin := List.mem_cons_self mm rest
      have hsc := @scanLoop_invariant K s r mm (hnw mm hin hrw).2 P (hread mm hin hrw)
        (hwlog mm hin hrw) (hwmem mm hin hrw) fuel mm.Start t (Or.inr ⟨0, by simp⟩) hp
      cases hres : scanLoop K s r mm.End fuel mm.Start t with
      | mk out t1 =>
        rw [hres] at hsc
        by_cases hout : out = .ok
        · subst hout
          exact ih' t1 hsc
        · cases out <;> first | exact absurd rfl hout | exact hsc
    · have hrw' : (mm.Permissions &&& readwrite) ≠ readwrite := hrw
      rw [if_pos hrw']
      exact ih' t hp

/-- The bytes of a region none of whose windows holds the pattern stay as
they are, and no write reaches it, when no other read-write region of the
list overlaps it. -/
theorem patchRegions_clean_region {K : Kernel} {s r : List Byte} {fuel : Nat}
    (hlen : r.length = s.length) (maps : List Map) (t : Target) (mm : Map)
    (hnw : ∀ m ∈ maps, m.rw → m.NoWrap)
    (hdis : ∀ m ∈ maps, m.rw → m = mm ∨ m.End ≤ mm.Start ∨ mm.End ≤ m.Start)
    (hno : ∀ a, mm.inWindow a s.length → ¬ occursAt t.mem a s) :
    (∀ a, mm.Start ≤ a → a < mm.End → (patchRegions K s r fuel maps t).2.mem a = t.mem a) ∧
    ∀ ev ∈ (patchRegions K s r fuel maps t).2.log,
      ev ∈ t.log ∨ (∃ off len, ev = Access.read off len) ∨
        ∃ off len, ev = Access.write off len ∧ (off + len ≤ mm.Start ∨ mm.End ≤ off) := by
  have hclean : ∀ (u : Target) (off : Nat),
      (∀ a, mm.Start ≤ a → a < mm.End → u.mem a = t.mem a) →
      mm.inWindow off s.length → occursAt u.mem off s → False := by
    intro u off hu hwin hocc
    refine hno off hwin ((occursAt_congr ?_).mp hocc)
    intro i hi
    obtain ⟨k, h1, h2⟩ := hwin
    have h3 := le_trans h2 (Nat.min_le_right _ _)
    exact hu _ (by have := Nat.le_add_right mm.Start (k * bufSize); omega) (by omega)
  have key := @patchRegions_invariant K s r fuel
    (fun u => (∀ a, mm.Start ≤ a → a < mm.End → u.mem a = t.mem a) ∧
      ∀ ev ∈ u.log, ev ∈ t.log ∨ (∃ off len, ev = Access.read off len) ∨
        ∃ off len, ev = Access.write off len ∧ (off + len ≤ mm.Start ∨ mm.End ≤ off))
    maps hnw ?_ ?_ ?_ t ⟨fun _ _ _ => rfl, fun ev h => Or.inl h⟩
  · exact key
  · intro m _ _ u off len hu _ _
    refine ⟨hu.1, ?_⟩
    intro ev hev
    rcases List.mem_append.mp hev with h | h
    · exact hu.2 ev h
    · exact Or.inr (Or.inl ⟨off, len, List.mem_singleton.mp h⟩)
  · intro m hm hrw u off hu hwin hocc
    refine ⟨hu.1, ?_⟩
    intro ev hev
    rcases List.mem_append.mp hev with h | h
    · exact hu.2 ev h
    · refine Or.inr (Or.inr ⟨off, r.length, List.mem_singleton.mp h, ?_⟩)
      rcases hdis m hm hrw with e | hd
      · subst e
        exact absurd hocc (fun hc => hclean u off hu.1 hwin hc)
      · obtain ⟨k, h1, h2⟩ := hwin
        have h3 := le_trans h2 (Nat.min_le_right _ _)
        have h4 := Nat.le_add_right m.Start (k * bufSize)
        rw [hlen]
        omega
  · intro m hm hrw u off n hu hwin hocc
    refine ⟨?_, hu.2⟩
    intro a ha1 ha2
    rcases hdis m hm hrw with e | hd
    · subst e
      exact absurd hocc (fun hc => hclean u off hu.1 hwin hc)
    · rw [← hu.1 a ha1 ha2]
      apply writeBytes_outside
      obtain ⟨k, h1, h2⟩ := hwin
      have h3 := le_trans h2 (Nat.min_le_right _ _)
      have h4 := Nat.le_add_right m.Start (k * bufSize)
      have h5 : (r.take n).length ≤ s.length := by
        rw [List.length_take, ← hlen]
        exact Nat.min_le_right _ _
      omega

/-! ## The claims about `patchRapid` -/

/-- C1 (as amended): when `patchRapid` returns no error and every write
transfers in full, an occurrence of `search` in the initial memory that lies
inside one scan window of a read-write region and that no other initial
occurrence overlaps has been overwritten, the final memory holds `replace`
there, provided that writing `replace` over `search` completes no new
occurrence of `search` (`NoFreshMatch`, which holds for the addresses
`127.0.0.1:9001` and `127.0.0.1:8088` of `main`). -/
theorem patchRapid_replaces_isolated (K : Kernel) (fuel : Nat) (maps : List Map) (t : Target)
    (search replace : List Byte) (mm : Map) (a : Nat)
    (hs : search ≠ []) (hlen : replace.length = search.length)
    (hwf : ∀ m ∈ maps, m.WF) (hK : K.FullWrites) (hnb : NoFreshMatch search replace)
    (hok : (patchRapid K fuel (some maps) t search replace).1 = .ok)
    (hmm : mm ∈ maps) (hrw : mm.rw) (hwin : mm.inWindow a search.length)
    (hocc : occursAt t.mem a search)
    (hiso : ∀ q, occursAt t.mem q search →
      q = a ∨ q + search.length ≤ a ∨ a + search.length ≤ q) :
    occursAt (patchRapid K fuel (some maps) t search replace).2.mem a replace := by
  have hp := patchRapid_ok_patch hwf hok
  have h1 := patch_cleanAt hs hlen hK hnb hp mm hmm hrw a hwin
  rcases patch_isolated hlen hK hnb hp a hiso hocc with h2 | h2
  · exact absurd h2 h1
  · exact h2

/-- C1 fails as stated: with `search = [1, 1]` and memory `1 1 1` the
occurrence at address `1` overlaps the one at `0` and is destroyed, not
replaced; with `search = [1, 2]`, `replace = [2, 1]` and memory `1 1 2` the
replacement written at `1` forms a new occurrence at `0`, and overwriting
that one damages it. -/
theorem patchRapid_replaces_counterexample :
    ((patchRapid Kernel.ideal 4 (some [{ Start := 0, End := 3, Permissions := 3 }])
        ⟨memOfList [1, 1, 1], []⟩ [1, 1] [2, 2]).1 = .ok ∧
      occursAt (memOfList [1, 1, 1]) 1 [1, 1] ∧
      (1 : Nat) + 2 ≤ min (0 + 1 * bufSize) 3 ∧
      ¬ occursAt (patchRapid Kernel.ideal 4 (some [{ Start := 0, End := 3, Permissions := 3 }])
        ⟨memOfList [1, 1, 1], []⟩ [1, 1] [2, 2]).2.mem 1 [2, 2]) ∧
    ((patchRapid Kernel.ideal 4 (some [{ Start := 0, End := 3, Permissions := 3 }])
        ⟨memOfList [1, 1, 2], []⟩ [1, 2] [2, 1]).1 = .ok ∧
      occursAt (memOfList [1, 1, 2]) 1 [1, 2] ∧
      (∀ q, occursAt (memOfList [1, 1, 2]) q [1, 2] → q = 1) ∧
      ¬ occursAt (patchRapid Kernel.ideal 4 (some [{ Start := 0, End := 3, Permissions := 3 }])
        ⟨memOfList [1, 1, 2], []⟩ [1, 2] [2, 1]).2.mem 1 [2, 1]) := by
  refine ⟨by decide, by decide, by decide, ?_, by decide⟩
  intro q hq
  by_cases h3 : 3 ≤ q
  · exfalso
    have := congrArg (fun l => l.head?) hq
    simp [readBytes, List.range_succ_eq_map, memOfList, List.getD_eq_getElem?_getD,
      List.getElem?_eq_none (show [(1 : Byte), 1, 2].length ≤ q from h3)] at this
  · have hq3 : q < 3 := by omega
    interval_cases q
    · exact absurd hq (by decide)
    · rfl
    · exact absurd hq (by decide)

/-- C9: for a list of regions as `/proc/<pid>/maps` holds them, no two
read-write regions sharing an address, when `patchRapid` returns no error no
scan window of a read-write region holds an occurrence of `search` in the
final memory; occurrences that a replacement created are gone as well. -/
theorem patchRapid_leaves_no_occurrence (K : Kernel) (fuel : Nat) (maps : List Map)
    (t : Target) (search replace : List Byte) (mm : Map) (a : Nat)
    (hs : search ≠ []) (hlen : replace.length = search.length)
    (hwf : ∀ m ∈ maps, m.WF) (hd : DisjointRW maps)
    (hok : (patchRapid K fuel (some maps) t search replace).1 = .ok)
    (hmm : mm ∈ maps) (hrw : mm.rw) (hwin : mm.inWindow a search.length) :
    ¬ occursAt (patchRapid K fuel (some maps) t search replace).2.mem a search :=
  patch_clean hs hlen (patchRapid_ok_patch hwf hok) hd mm hmm hrw a hwin

/-- Why the regions are taken not to overlap: with the regions `[0, 3)` and
`[2, 6)`, which no list of mappings of a process holds, memory `0 1 1 2 0 0`,
`search = [1, 2]` and `replace = [2, 1]`, the write made while scanning the
second region leaves `1 2` at address `1`, inside the window of the first
region, which is not scanned again. -/
theorem patchRapid_overlapping_regions :
    (patchRapid Kernel.ideal 4
        (some [{ Start := 0, End := 3, Permissions := 3 }, { Start := 2, End := 6, Permissions := 3 }])
        ⟨memOfList [0, 1, 1, 2, 0, 0], []⟩ [1, 2] [2, 1]).1 = .ok ∧
      (0 + 0 * bufSize ≤ 1 ∧ 1 + 2 ≤ min (0 + (0 + 1) * bufSize) 3) ∧
      occursAt (patchRapid Kernel.ideal 4
        (some [{ Start := 0, End := 3, Permissions := 3 }, { Start := 2, End := 6, Permissions := 3 }])
        ⟨memOfList [0, 1, 1, 2, 0, 0], []⟩ [1, 2] [2, 1]).2.mem 1 [1, 2] := by
  decide

/-- C10: with a kernel whose transfers succeed in full, regions for which
`End + 2^20` does not exceed `2^64`, and a non-empty `search` different from
a `replace` of the same length, `patchRapid` terminates: every sufficiently
large amount of fuel lets it return `nil`. The hypothesis `search ≠ replace`
is needed: with `replace = search` and an occurrence inside a scan window of
a read-write region the loop never leaves, whatever the fuel. -/
theorem patchRapid_terminates :
    (∀ (K : Kernel) (maps : List Map) (t : Target) (search replace : List Byte),
      K.Full → (∀ mm ∈ maps, mm.NoWrap) → search ≠ [] →
      replace.length = search.length → search ≠ replace →
      ∃ fuel0, ∀ fuel, fuel0 ≤ fuel →
        (patchRapid K fuel (some maps) t search replace).1 = .ok) ∧
    (∀ (K : Kernel) (maps : List Map) (t : Target) (search : List Byte) (mm : Map) (a : Nat),
      K.Full → (∀ m ∈ maps, m.NoWrap) → search ≠ [] →
      mm ∈ maps → mm.rw → mm.inWindow a search.length → occursAt t.mem a search →
      ∀ fuel, (patchRapid K fuel (some maps) t search search).1 = .outOfFuel) := by
  constructor
  · intro K maps t s r hK hnw hs hlen hne
    obtain ⟨f0, t1, h⟩ :=
      patchRegions_terminates hK hs hlen hne maps (fun m hm _ => hnw m hm) t
    refine ⟨f0, fun fuel hf => ?_⟩
    simp only [patchRapid, h fuel hf]
  · intro K maps t s mm a hK hnw hs hmm hrw hwin hocc fuel
    rcases patchRegions_full_outcome hK hs fuel maps t with h | h
    · exfalso
      have hp := @patchRapid_ok_patch K fuel maps t s s
        (fun m hm => noWrap_wf (hnw m hm)) h
      exact patch_same_not_ok hs hp mm hmm hrw a hwin hocc
    · exact h

/-- Why `End + 2^20` is taken not to exceed `2^64`: for a read-write region
`[2^64 - 16, 2^64 - 8)`, which no list of mappings of a process holds, the
sum `offset + buflen` wraps, the window is not cut at `End`, and the first
system call is a read of `2^20` bytes from `2^64 - 16`. -/
theorem patchRapid_reads_past_end (K : Kernel) (fuel : Nat) (t : Target)
    (search replace : List Byte) :
    Access.read topRegion.Start bufSize ∈
        (patchRapid K (fuel + 1) (some [topRegion]) t search replace).2.log ∧
      topRegion.rw ∧
      ¬ (Access.read topRegion.Start bufSize).within topRegion.Start topRegion.End := by
  refine ⟨?_, by decide, by decide⟩
  have hwl : windowLen topRegion.End topRegion.Start = bufSize := by decide
  have h1 := (@scanLoop_log K search replace topRegion.End
    (fuel + 1) topRegion.Start t).2 (by decide) (by omega)
  rw [hwl] at h1
  have hrw : ¬ (topRegion.Permissions &&& readwrite) ≠ readwrite := by decide
  have hlog : (patchRapid K (fuel + 1) (some [topRegion]) t search replace).2.log =
      (scanLoop K search replace topRegion.End (fuel + 1) topRegion.Start t).2.log := by
    simp only [patchRapid]
    rw [patchRegions, if_neg hrw]
    cases scanLoop K search replace topRegion.End (fuel + 1) topRegion.Start t with
    | mk out t1 => cases out <;> rfl
  rw [hlog]
  exact h1.subset (by simp)

/-- For the read-write region `[2^64 - 16, 2^64 - 8)`, where
`offset + buflen` wraps, `patchRapid` never returns `nil`, whatever the
kernel, the fuel, the memory and the patterns are, and so also when no
window holds the pattern. -/
theorem patchRapid_top_region_never_ok (K : Kernel) (fuel : Nat) (t : Target)
    (search replace : List Byte) :
    (patchRapid K fuel (some [topRegion]) t search replace).1 ≠ .ok := by
  have hrw : ¬ (topRegion.Permissions &&& readwrite) ≠ readwrite := by decide
  simp only [patchRapid]
  rw [patchRegions, if_neg hrw]
  cases hsc : scanLoop K search replace topRegion.End fuel topRegion.Start t with
  | mk out t1 =>
    intro hc
    have hne := @scanLoop_wrapped_ne_ok K search replace
      topRegion.End (by decide) topRegion.Start (by decide) (by decide)
      fuel topRegion.Start t t1 (by decide) rfl
    cases out <;> simp only [patchRegions, reduceCtorEq] at hc
    exact hne hsc

/-- C3 (as amended): take a list of regions as `/proc/<pid>/maps` holds them,
`End + 2^20` not exceeding `2^64` for the read-write ones, and in it a
read-write region that no other read-write region overlaps and none of whose
scan windows holds `search` in full. Whatever the kernel answers and however
the run ends, `patchRapid` makes no write to that region and leaves its
bytes unchanged. It returns `nil` when every read and every write succeeds
in full and `search` differs from `replace`, and also when every read
succeeds in full and no window of any read-write region holds `search`. -/
theorem patchRapid_clean_region (K : Kernel) (maps : List Map) (t : Target)
    (search replace : List Byte) (mm : Map)
    (hlen : replace.length = search.length)
    (hnw : ∀ m ∈ maps, m.rw → m.NoWrap)
    (hdis : ∀ m ∈ maps, m.rw → m = mm ∨ m.End ≤ mm.Start ∨ mm.End ≤ m.Start)
    (hno : ∀ a, mm.inWindow a search.length → ¬ occursAt t.mem a search) :
    (∀ fuel,
      (∀ a, mm.Start ≤ a → a < mm.End →
        (patchRapid K fuel (some maps) t search replace).2.mem a = t.mem a) ∧
      ∀ ev ∈ (patchRapid K fuel (some maps) t search replace).2.log,
        ev ∈ t.log ∨ (∃ off len, ev = Access.read off len) ∨
          ∃ off len, ev = Access.write off len ∧ (off + len ≤ mm.Start ∨ mm.End ≤ off)) ∧
    (K.Full → search ≠ [] → search ≠ replace →
      ∃ fuel0, ∀ fuel, fuel0 ≤ fuel →
        (patchRapid K fuel (some maps) t search replace).1 = .ok) ∧
    (K.FullReads →
      (∀ m ∈ maps, m.rw → ∀ a, m.inWindow a search.length → ¬ occursAt t.mem a search) →
      ∃ fuel0, ∀ fuel, fuel0 ≤ fuel →
        (patchRapid K fuel (some maps) t search replace).1 = .ok) := by
  refine ⟨?_, ?_, ?_⟩
  · intro fuel
    simp only [patchRapid]
    exact patchRegions_clean_region hlen maps t mm hnw hdis hno
  · intro hK hs hne
    obtain ⟨f0, t1, h⟩ := patchRegions_terminates hK hs hlen hne maps hnw t
    refine ⟨f0, fun fuel hf => ?_⟩
    simp only [patchRapid, h fuel hf]
  · intro hK hall
    obtain ⟨f0, log1, _, hf⟩ :=
      @patchRegions_no_match K hK search replace t.mem maps hnw hall t.log
    refine ⟨f0, fun fuel hfu => ?_⟩
    have h := hf fuel hfu
    simp only [patchRapid]
    rw [h]

/-- C3 fails as stated. No window of the region `[0, 4)` of a memory of
zeros holds `search = [1]`, and with a kernel whose reads fail `patchRapid`
returns the error of the read. With the regions `[0, 4)` and `[4, 8)` and
memory `0 0 0 0 0 1 2 0` no window of `[0, 4)` holds `search = [1, 2]`; with
a kernel whose writes fail `patchRapid` returns the error of the write made
in `[4, 8)`, and with `replace = search` it never returns. -/
theorem patchRapid_clean_region_counterexample :
    (smallRegion.rw ∧
      (∀ a, smallRegion.inWindow a [(1 : Byte)].length → ¬ occursAt (memOfList []) a [1]) ∧
      (patchRapid Kernel.noRead 8 (some [smallRegion]) ⟨memOfList [], []⟩ [1] [2]).1 =
        .errReading) ∧
    ((∀ a, smallRegion.inWindow a [(1 : Byte), 2].length →
        ¬ occursAt (memOfList [0, 0, 0, 0, 0, 1, 2, 0]) a [1, 2]) ∧
      (patchRapid Kernel.noWrite 8 (some [smallRegion, secondRegion])
        ⟨memOfList [0, 0, 0, 0, 0, 1, 2, 0], []⟩ [1, 2] [3, 4]).1 = .errWrite ∧
      ∀ fuel, (patchRapid Kernel.ideal fuel (some [smallRegion, secondRegion])
        ⟨memOfList [0, 0, 0, 0, 0, 1, 2, 0], []⟩ [1, 2] [1, 2]).1 = .outOfFuel) := by
  refine ⟨⟨by decide, ?_, by decide⟩, ?_, by decide, ?_⟩
  · intro a _ h
    simp [occursAt, readBytes, memOfList] at h
  · rintro a ⟨k, _, hk2⟩ h
    have h4 : a + 2 ≤ 4 := le_trans hk2 (Nat.min_le_right _ _)
    have ha : a < 3 := by omega
    interval_cases a <;> exact absurd h (by decide)
  · intro fuel
    have hwf : ∀ m ∈ [smallRegion, secondRegion], m.WF := by decide
    rcases @patchRegions_full_outcome Kernel.ideal Kernel.ideal_full [1, 2] [1, 2] (by decide)
      fuel [smallRegion, secondRegion] ⟨memOfList [0, 0, 0, 0, 0, 1, 2, 0], []⟩ with h | h
    · exfalso
      have hp := @patchRapid_ok_patch Kernel.ideal fuel [smallRegion, secondRegion]
        ⟨memOfList [0, 0, 0, 0, 0, 1, 2, 0], []⟩ [1, 2] [1, 2] hwf h
      exact patch_same_not_ok (by decide) hp secondRegion (by simp) (by decide) 5
        ⟨0, by decide⟩ (by decide)
    · exact h

/-! ### Instances of the theorems above at concrete inputs -/

theorem patchRapid_replaces_isolated_witness :
    occursAt (patchRapid Kernel.ideal 4 (some [addrRegion]) ⟨addrMem, []⟩
      runtimeAddr proxyAddr).2.mem 1 proxyAddr :=
  patchRapid_replaces_isolated Kernel.ideal 4 [addrRegion] ⟨addrMem, []⟩
    runtimeAddr proxyAddr addrRegion 1 (by decide) (by decide) (by decide)
    Kernel.ideal_fullWrites (by decide) (by decide) (List.mem_singleton.mpr rfl) (by decide)
    ⟨0, by decide⟩ (by decide)
    (by
      intro q hq
      by_cases h15 : 15 ≤ q
      · exfalso
        have := congrArg (fun l => l.head?) hq
        have hl : (0 :: runtimeAddr).length ≤ q := by
          have : (0 :: runtimeAddr).length = 15 := by decide
          omega
        have hr : runtimeAddr = 49 :: runtimeAddr.tail := by decide
        rw [hr] at this
        simp [readBytes, List.range_succ_eq_map, addrMem, memOfList,
          List.getD_eq_getElem?_getD, List.getElem?_eq_none hl] at this
      · have hq15 : q < 15 := by omega
        have hlen : runtimeAddr.length = 14 := by decide
        rw [hlen]
        interval_cases q
        all_goals first
          | exact Or.inl rfl
          | exact absurd hq (by decide))

theorem patchRapid_leaves_no_occurrence_witness :
    ¬ occursAt (patchRapid Kernel.ideal 4 (some [smallRegion])
      ⟨memOfList [0, 1, 2, 0], []⟩ [1, 2] [3, 4]).2.mem 1 [1, 2] :=
  patchRapid_leaves_no_occurrence Kernel.ideal 4 [smallRegion] ⟨memOfList [0, 1, 2, 0], []⟩
    [1, 2] [3, 4] smallRegion 1 (by decide) (by decide) (by decide)
    (List.pairwise_singleton _ _) (by decide) (List.mem_singleton.mpr rfl) (by decide)
    ⟨0, by decide⟩

theorem patchRapid_terminates_witness :
    (∃ fuel0, ∀ fuel, fuel0 ≤ fuel →
      (patchRapid Kernel.ideal fuel (some [smallRegion])
        ⟨memOfList [0, 1, 2, 0], []⟩ [1, 2] [3, 4]).1 = .ok) ∧
    (∀ fuel, (patchRapid Kernel.ideal fuel (some [smallRegion])
        ⟨memOfList [0, 1, 2, 0], []⟩ [1, 2] [1, 2]).1 = .outOfFuel) :=
  ⟨patchRapid_terminates.1 Kernel.ideal [smallRegion] ⟨memOfList [0, 1, 2, 0], []⟩ [1, 2] [3, 4]
      Kernel.ideal_full (by decide) (by decide) (by decide) (by decide),
    patchRapid_terminates.2 Kernel.ideal [smallRegion] ⟨memOfList [0, 1, 2, 0], []⟩ [1, 2]
      smallRegion 1 Kernel.ideal_full (by decide) (by decide) (List.mem_singleton.mpr rfl)
      (by decide) ⟨0, by decide⟩ (by decide)⟩

theorem patchRapid_clean_region_witness :
    (∀ fuel,
      (∀ a, twoWindows.Start ≤ a → a < twoWindows.End →
        (patchRapid Kernel.ideal fuel (some [twoWindows, nextRegion]) ⟨straddling, []⟩
          [1, 2] [3, 4]).2.mem a = straddling a) ∧
      ∀ ev ∈ (patchRapid Kernel.ideal fuel (some [twoWindows, nextRegion]) ⟨straddling, []⟩
          [1, 2] [3, 4]).2.log,
        ev ∈ ([] : List Access) ∨ (∃ off len, ev = Access.read off len) ∨
          ∃ off len, ev = Access.write off len ∧
            (off + len ≤ twoWindows.Start ∨ twoWindows.End ≤ off)) ∧
    ∃ fuel0, ∀ fuel, fuel0 ≤ fuel →
      (patchRapid Kernel.ideal fuel (some [twoWindows, nextRegion]) ⟨straddling, []⟩
        [1, 2] [3, 4]).1 = .ok := by
  have h := patchRapid_clean_region Kernel.ideal [twoWindows, nextRegion] ⟨straddling, []⟩
    [1, 2] [3, 4] twoWindows rfl
    (by
      intro m hm _
      rcases List.mem_cons.mp hm with e | hm'
      · rw [e]
        unfold Map.NoWrap
        rw [u64_eq, bufSize_eq]
        simp [twoWindows]
      · rw [List.mem_singleton.mp hm']
        unfold Map.NoWrap
        rw [u64_eq, bufSize_eq]
        simp [nextRegion])
    (by
      intro m hm _
      rcases List.mem_cons.mp hm with e | hm'
      · exact Or.inl e
      · rw [List.mem_singleton.mp hm']
        exact Or.inr (Or.inr (by decide)))
    (by
      rintro a ⟨k, hk1, hk2⟩ hocc
      have h0 : straddling a = 1 := by
        have := congrArg (fun l => l.head?) hocc
        simpa [readBytes, List.range_succ_eq_map] using this
      have ha : a = 1048575 ∨ a = 2097156 := by
        unfold straddling at h0
        by_contra hne
        rw [if_neg hne] at h0
        split at h0 <;> exact absurd h0 (by decide)
      rw [bufSize_eq] at hk1 hk2
      simp only [twoWindows, List.length_cons, List.length_nil] at hk1 hk2
      have h4 := le_trans hk2 (Nat.min_le_right _ _)
      have h5 := le_trans hk2 (Nat.min_le_left _ _)
      rcases ha with ha | ha
      · subst ha
        have hk0 : k = 0 := by omega
        subst hk0
        omega
      · subst ha
        omega)
  exact ⟨h.1, h.2.1 Kernel.ideal_full (by decide) (by decide)⟩

/-! ## The claims about `fetch` and its helpers -/

/-- C8: `chunk(slice, 10)` cuts `slice` into consecutive pieces, all of
length 10 except a possibly shorter, non-empty last one; and when every batch
call that `populateParameters` makes succeeds with no invalid parameter, the
name lists of its calls hold between 1 and 10 names each, hold no name twice
within or across calls, hold together exactly the source identifiers of the
declared parameters, and are `ceil(d / 10)` in number for `d` distinct
identifiers. -/
theorem populateParameters_batches :
    (∀ slice : List GoString,
      (chunk slice 10).flatten = slice ∧
      (∀ c ∈ chunk slice 10, c ≠ [] ∧ c.length ≤ 10) ∧
      (∀ c ∈ (chunk slice 10).dropLast, c.length = 10)) ∧
    (∀ (ord : IterOrder) (api : Backend) (params : GoMap GoString resolvedValue),
      (∀ names ∈ (populateParameters ord api params).calls, BatchOk api names) →
      (∀ c ∈ (populateParameters ord api params).calls, 1 ≤ c.length ∧ c.length ≤ 10) ∧
      (populateParameters ord api params).calls.flatten.Nodup ∧
      (∀ x, x ∈ (populateParameters ord api params).calls.flatten ↔
        ∃ e ∈ params, e.2.source = x) ∧
      (populateParameters ord api params).calls.length =
        ((params.map fun e => e.2.source).dedup.length + 9) / 10) := by
  constructor
  · intro slice
    obtain ⟨h1, h2, h3, _⟩ := chunk_spec slice 10 (by norm_num)
    refine ⟨h1, fun c hc => ⟨?_, (h2 c hc).2⟩, h3⟩
    intro hnil
    have := (h2 c hc).1
    rw [hnil] at this
    simp at this
  · intro ord api params hok
    have hall : ∀ names ∈ chunk (keys ord (nameMap0 params)) 10, BatchOk api names := by
      apply getParametersLoop_all api _ (nameMap0 params) []
      rw [← populateParameters_calls_eq]
      exact hok
    have hcalls : (populateParameters ord api params).calls =
        chunk (keys ord (nameMap0 params)) 10 := by
      rw [populateParameters_ok ord api params hall]
    obtain ⟨h1, h2, _, h4⟩ := chunk_spec (keys ord (nameMap0 params)) 10 (by norm_num)
    obtain ⟨hk1, hk2⟩ := keys_spec ord (nameMap0 params) (nameMap0_keys params).1
    have hmem : ∀ x, x ∈ keys ord (nameMap0 params) ↔ ∃ e ∈ params, e.2.source = x :=
      fun x => (hk2 x).trans ((nameMap0_keys params).2 x)
    rw [hcalls, h1]
    refine ⟨fun c hc => ⟨(h2 c hc).1, (h2 c hc).2⟩, hk1, hmem, ?_⟩
    rw [h4]
    have hperm : (keys ord (nameMap0 params)).Perm (params.map fun e => e.2.source).dedup := by
      rw [List.perm_ext_iff_of_nodup hk1 (List.nodup_dedup _)]
      intro x
      rw [hmem, List.mem_dedup, List.mem_map]
    rw [hperm.length_eq]

theorem populateParameters_batches_witness :
    (populateParameters IterOrder.id exampleStore
      [(ascii "A", ⟨ascii "/a", []⟩), (ascii "B", ⟨ascii "/b", []⟩)]).calls.length =
      (([(ascii "A", (⟨ascii "/a", []⟩ : resolvedValue)), (ascii "B", ⟨ascii "/b", []⟩)].map
        fun e => e.2.source).dedup.length + 9) / 10 :=
  (populateParameters_batches.2 IterOrder.id exampleStore
    [(ascii "A", ⟨ascii "/a", []⟩), (ascii "B", ⟨ascii "/b", []⟩)]
    (fun _ _ => ⟨_, rfl, rfl⟩)).2.2.2

/-- C4 (as amended): when a resolution cycle fails, that is, a batch call
made to the parameter store errors or reports an invalid parameter, or the
call for a declared secret errors, `fetch` does not return to its caller: it
panics, and `env` and `lastFetched` are what they were before the call, so
that no mapping with only some of the declared names is ever stored. -/
theorem fetch_failure_panics (ord : IterOrder) (api : Backend) (environ : List GoString)
    (now : Nat) (s : spyext) (params secrets : GoMap GoString resolvedValue)
    (hd : declared environ [] [] = some (params, secrets))
    (hfail : (∃ names ∈ (populateParameters ord api params).calls, ¬ BatchOk api names) ∨
      (∃ e ∈ secrets, ∃ err, api.GetSecretValue e.2.source = .error err)) :
    fetch ord api environ now s = .panicked s := by
  unfold fetch
  rw [hd]
  simp only
  cases hp : (populateParameters ord api params).result with
  | error e => rfl
  | ok params1 =>
    simp only
    rcases hfail with h | h
    · obtain ⟨e, he⟩ := populateParameters_fail ord api params h
      rw [he] at hp
      simp at hp
    · obtain ⟨e, he⟩ := populateSecrets_fail api secrets h
      rw [he]

/-- C4 fails as stated: with one declared parameter that the store reports
as invalid, `fetch` does not return an error to its caller, it panics. -/
theorem fetch_failure_counterexample :
    ¬ BatchOk invalidStore [ascii "/p"] ∧
    fetch IterOrder.id invalidStore [ascii "SECRETSCTX_A={aws-ssm}/p"] 1 ⟨none, 0⟩ =
      .panicked ⟨none, 0⟩ ∧
    ∀ err s', fetch IterOrder.id invalidStore [ascii "SECRETSCTX_A={aws-ssm}/p"] 1 ⟨none, 0⟩ ≠
      .returned (some err) s' :=
  ⟨invalidStore_not_batchOk, by decide,
    fun err s' => fetch_never_returns_error _ _ _ _ _ err s'⟩

theorem fetch_failure_panics_witness :
    fetch IterOrder.id invalidStore [ascii "SECRETSCTX_A={aws-ssm}/p"] 1 ⟨none, 0⟩ =
      .panicked ⟨none, 0⟩ :=
  fetch_failure_panics IterOrder.id invalidStore [ascii "SECRETSCTX_A={aws-ssm}/p"] 1 ⟨none, 0⟩
    [(ascii "A", { source := ascii "/p" })] [] (by decide)
    (Or.inl ⟨[ascii "/p"], by decide, invalidStore_not_batchOk⟩)

/-- C5 (as amended): for an environment as `os.Environ()` returns it, no
name twice, in which every entry whose name starts with `SECRETSCTX_` has a
value that starts with one of the two markers, when every call of the
parameter store succeeds with no invalid parameter and every call of the
secret store succeeds with a string or a binary value, `fetch` returns
`nil`, stores the time, and stores an `env` whose keys are exactly the
declared names. In it a name declared with `{aws-sm}` has the text of its
secret, and a name declared with `{aws-ssm}` has the value `v` whenever the
parameter store answers every batch that holds its identifier with an entry
named by that identifier, and gives `v` in every entry of that name
(`ParamReturned`). -/
theorem fetch_resolves (ord : IterOrder) (api : Backend) (environ : List GoString)
    (now : Nat) (s : spyext)
    (hnames : ((environ.filter isDeclared).map entryName).Nodup)
    (hmark : ∀ kv ∈ environ, isDeclared kv = true →
      HasPrefix (entryValue kv) prefixSm = true ∨ HasPrefix (entryValue kv) prefixSsm = true)
    (hssm : ∀ names, BatchOk api names) (hsm : ∀ id, SecretOk api id) :
    ∃ env, fetch ord api environ now s = .returned none ⟨some env, now⟩ ∧
      (∀ k, (GoMap.get? env k).isSome ↔
        ∃ kv ∈ environ, isDeclared kv = true ∧ k = declaredKey kv) ∧
      (∀ kv ∈ environ, isDeclared kv = true → HasPrefix (entryValue kv) prefixSsm = true →
        ∀ v, ParamReturned api (TrimPrefix (entryValue kv) prefixSsm) v →
          GoMap.get? env (declaredKey kv) = some v) ∧
      (∀ kv ∈ environ, isDeclared kv = true → HasPrefix (entryValue kv) prefixSm = true →
        GoMap.get? env (declaredKey kv) =
          some (secretValue api (TrimPrefix (entryValue kv) prefixSm))) := by
  have hdecl := declared_spec environ [] [] hmark (by simp) (declaredKeys_nodup hnames)
  simp only [List.nil_append] at hdecl
  have hpar := populateParameters_ok ord api (ssmEntries environ) (fun names _ => hssm names)
  have hsec := populateSecrets_ok api (smEntries environ) (fun e _ => hsm _)
  refine ⟨mergeEnv (filledParams ord api (ssmEntries environ))
    (filledSecrets api (smEntries environ)), ?_, ?_, ?_, ?_⟩
  · unfold fetch
    rw [hdecl]
    simp only [hpar, hsec]
  · -- the keys
    intro k
    rw [GoMap.get?_isSome]
    have h2 := foldl_set_keys (fun e : GoString × resolvedValue => e.1) (fun e => e.2.value)
    obtain ⟨n1, m1⟩ := h2 (filledParams ord api (ssmEntries environ)) [] (by simp)
    unfold mergeEnv
    rw [(h2 _ _ n1).2, m1]
    simp only [List.map_nil, List.not_mem_nil, false_or]
    constructor
    · rintro (⟨e, he, rfl⟩ | ⟨e, he, rfl⟩)
      · obtain ⟨e0, he0, rfl⟩ := List.mem_map.mp he
        obtain ⟨kv, hkv, hd, _, rfl⟩ := mem_ssmEntries.mp he0
        exact ⟨kv, hkv, hd, rfl⟩
      · obtain ⟨e0, he0, rfl⟩ := List.mem_map.mp he
        obtain ⟨kv, hkv, hd, _, rfl⟩ := mem_smEntries.mp he0
        exact ⟨kv, hkv, hd, rfl⟩
    · rintro ⟨kv, hkv, hd, rfl⟩
      rcases hmark kv hkv hd with h | h
      · right
        exact ⟨_, List.mem_map.mpr ⟨_, mem_smEntries.mpr ⟨kv, hkv, hd, h, rfl⟩, rfl⟩, rfl⟩
      · left
        exact ⟨_, List.mem_map.mpr ⟨_, mem_ssmEntries.mpr ⟨kv, hkv, hd, h, rfl⟩, rfl⟩, rfl⟩
  · -- a parameter
    intro kv hkv hd hs v hv
    have hnot : ∀ e ∈ filledSecrets api (smEntries environ), e.1 ≠ declaredKey kv := by
      intro e he hc
      obtain ⟨e0, he0, rfl⟩ := List.mem_map.mp he
      obtain ⟨kv', hkv', hd', hs', rfl⟩ := mem_smEntries.mp he0
      have := declared_unique hnames hkv' hkv hd' hd hc
      rw [this] at hs'
      exact markers_exclusive _ hs' hs
    unfold mergeEnv
    rw [(foldl_set_get? (fun e : GoString × resolvedValue => e.1) (fun e => e.2.value)
      (declaredKey kv) _ _).1 hnot]
    apply (foldl_set_get? (fun e : GoString × resolvedValue => e.1) (fun e => e.2.value)
      (declaredKey kv) _ _).2 v
    · exact ⟨_, List.mem_map.mpr ⟨_, mem_ssmEntries.mpr ⟨kv, hkv, hd, hs, rfl⟩, rfl⟩, rfl⟩
    · intro e he hc
      obtain ⟨e0, he0, rfl⟩ := List.mem_map.mp he
      obtain ⟨kv', hkv', hd', hs', rfl⟩ := mem_ssmEntries.mp he0
      have := declared_unique hnames hkv' hkv hd' hd hc
      subst this
      simp only
      rw [nameMap_value ord api (ssmEntries environ) hssm _ v
        ⟨_, mem_ssmEntries.mpr ⟨kv', hkv', hd', hs', rfl⟩, rfl⟩ hv]
      rfl
  · -- a secret
    intro kv hkv hd hs
    unfold mergeEnv
    apply (foldl_set_get? (fun e : GoString × resolvedValue => e.1) (fun e => e.2.value)
      (declaredKey kv) _ _).2
    · exact ⟨_, List.mem_map.mpr ⟨_, mem_smEntries.mpr ⟨kv, hkv, hd, hs, rfl⟩, rfl⟩, rfl⟩
    · intro e he hc
      obtain ⟨e0, he0, rfl⟩ := List.mem_map.mp he
      obtain ⟨kv', hkv', hd', hs', rfl⟩ := mem_smEntries.mp he0
      have := declared_unique hnames hkv' hkv hd' hd hc
      subst this
      rfl

/-- C5 fails as stated: in the environment `SECRETSCTX_X=plain` the name `X`
is declared and no call of a store fails, but the value carries neither
marker and `fetch` panics, `env` staying the nil map; when the parameter
store answers the identifier `/p:1` with an entry under the plain name `/p`,
no name being reported invalid, the name declared for `/p:1` gets the empty
string and not the value `v` of that entry; and when the call for a secret
succeeds with neither a string nor a binary value `fetch` never returns. -/
theorem fetch_resolves_counterexample :
    ((∀ names, BatchOk exampleStore names) ∧ (∀ id, SecretOk exampleStore id) ∧
      isDeclared (ascii "SECRETSCTX_X=plain") = true ∧
      declaredKey (ascii "SECRETSCTX_X=plain") = ascii "X" ∧
      fetch IterOrder.id exampleStore [ascii "SECRETSCTX_X=plain"] 1 ⟨none, 0⟩ =
        .panicked ⟨none, 0⟩) ∧
    ((∀ names, BatchOk selectorStore names) ∧ (∀ id, SecretOk selectorStore id) ∧
      selectorStore.GetParameters [ascii "/p:1"] = .ok ⟨[⟨ascii "/p", ascii "v"⟩], []⟩ ∧
      fetch IterOrder.id selectorStore [ascii "SECRETSCTX_A={aws-ssm}/p:1"] 1 ⟨none, 0⟩ =
        .returned none ⟨some [(ascii "A", [])], 1⟩) ∧
    ((∀ names, BatchOk emptySecretStore names) ∧
      (∀ id, ∃ gsv, emptySecretStore.GetSecretValue id = .ok gsv) ∧
      fetch IterOrder.id emptySecretStore [ascii "SECRETSCTX_S={aws-sm}arn"] 1 ⟨none, 0⟩ =
        .blocked ⟨none, 0⟩) :=
  ⟨⟨fun _ => ⟨_, rfl, rfl⟩, fun _ => ⟨_, rfl, Or.inl rfl⟩, by decide, by decide, by decide⟩,
    ⟨fun _ => ⟨_, rfl, rfl⟩, fun _ => ⟨_, rfl, Or.inl rfl⟩, rfl, by decide⟩,
    ⟨fun _ => ⟨_, rfl, rfl⟩, fun _ => ⟨_, rfl⟩, by decide⟩⟩

theorem fetch_resolves_witness :
    ∃ env, fetch IterOrder.id exampleStore
        [ascii "SECRETSCTX_DB_PASS={aws-sm}arn:example:secret:db-pass"] 7 ⟨none, 0⟩ =
        .returned none ⟨some env, 7⟩ ∧
      GoMap.get? env (ascii "DB_PASS") = some (ascii "hunter2") := by
  obtain ⟨env, h1, _, _, h4⟩ := fetch_resolves IterOrder.id exampleStore
    [ascii "SECRETSCTX_DB_PASS={aws-sm}arn:example:secret:db-pass"] 7 ⟨none, 0⟩
    (by decide) (by decide) (fun _ => ⟨_, rfl, rfl⟩) (fun _ => ⟨_, rfl, Or.inl rfl⟩)
  refine ⟨env, h1, ?_⟩
  have h := h4 (ascii "SECRETSCTX_DB_PASS={aws-sm}arn:example:secret:db-pass")
    (List.mem_singleton.mpr rfl) (by decide) (by decide)
  have e : declaredKey (ascii "SECRETSCTX_DB_PASS={aws-sm}arn:example:secret:db-pass") =
      ascii "DB_PASS" := by decide
  rw [e] at h
  exact h

/-! ## The completion signal -/

/-- C6 (as amended): the response hook sends one value on `funcDone` exactly
when the request path contains, anywhere within it, a piece of the shape
`/2018-06-01/runtime/invocation/<id>/error` or
`/2018-06-01/runtime/invocation/<id>/response` with a non-empty `<id>`
without `/`, and sends none exactly when the path contains no such piece; it
sends one for the path `/2018-06-01/runtime/invocation/abc123/response`. -/
theorem modifyResponse_signals (s : spyext) (p : GoString) :
    ((ModifyResponse s p).signals = 1 ↔
      ∃ pre mid suf, p = pre ++ mid ++ suf ∧ CompletionPath mid) ∧
    ((ModifyResponse s p).signals = 0 ↔
      ¬ ∃ pre mid suf, p = pre ++ mid ++ suf ∧ CompletionPath mid) ∧
    (ModifyResponse s (ascii "/2018-06-01/runtime/invocation/abc123/response")).signals = 1 := by
  have hsig : ∀ q : GoString,
      (ModifyResponse s q).signals = if re.MatchString q then 1 else 0 := by
    intro q
    unfold ModifyResponse
    by_cases hq : q ≠ ascii "/2018-06-01/runtime/invocation/next"
    · simp only [if_pos hq]
    · simp only [if_neg hq]
  have hiff : ∀ q : GoString, re.MatchString q = true ↔
      ∃ pre mid suf, q = pre ++ mid ++ suf ∧ CompletionPath mid := by
    intro q
    rw [matchString_iff]
    constructor
    · rintro ⟨pre, mid, suf, h, hm⟩
      exact ⟨pre, mid, suf, h, (matches_re mid).mp hm⟩
    · rintro ⟨pre, mid, suf, h, hm⟩
      exact ⟨pre, mid, suf, h, (matches_re mid).mpr hm⟩
  refine ⟨?_, ?_, ?_⟩
  · rw [hsig, ← hiff]
    cases re.MatchString p <;> simp
  · rw [hsig, ← hiff]
    cases re.MatchString p <;> simp
  · rw [hsig, if_pos]
    rw [hiff]
    refine ⟨[], ascii "/2018-06-01/runtime/invocation/abc123/response", [], by simp,
      ascii "abc123", ascii "response", by decide, by decide, by decide, Or.inr rfl⟩

/-- C6 fails as stated: the path
`/2018-06-01/runtime/invocation/abc123/response/extra` does not have the
shape `/2018-06-01/runtime/invocation/<id>/(error|response)`, and the hook
sends a value on `funcDone` for it. -/
theorem modifyResponse_signals_counterexample :
    ¬ CompletionPath (ascii "/2018-06-01/runtime/invocation/abc123/response/extra") ∧
    (ModifyResponse ⟨none, 0⟩
      (ascii "/2018-06-01/runtime/invocation/abc123/response/extra")).signals = 1 := by
  constructor
  · rw [← matches_re, ← fullMatch_iff]
    decide
  · decide

/-! ## The client-context header -/

/-- C7 (as amended): when `env` is a mapping (not nil) whose names and values
are all valid UTF-8, the hook sets, for a response to the path
`/2018-06-01/runtime/invocation/next`, the header to the text `{"env":{`,
the entries of the mapping sorted by name, `}}`, and reading that text back
gives the entries of the mapping, each once. -/
theorem modifyResponse_header_roundtrip (s : spyext) (m : GoMap GoString GoString)
    (hs : s.env = some m)
    (hv : ∀ e ∈ m, validUTF8 e.1 = true ∧ validUTF8 e.2 = true) :
    ∃ doc m',
      (ModifyResponse s (ascii "/2018-06-01/runtime/invocation/next")).header = some doc ∧
      doc = ascii "\x7b\"env\":\x7b" ++ marshalEntries (sortedEntries m) ++ ascii "\x7d\x7d" ∧
      parseClientContext doc = some (some m') ∧ m'.Perm m := by
  refine ⟨marshalClientContext (some m), sortedEntries m, ?_, ?_,
    parse_marshalClientContext m hv, List.perm_insertionSort _ m⟩
  · unfold ModifyResponse
    rw [if_neg (by simp), hs]
  · have h1 : ascii "\x7b\"env\":\x7b" = ascii "\x7b\"env\":" ++ ascii "\x7b" := by decide
    have h2 : ascii "\x7d\x7d" = ascii "\x7d" ++ ascii "\x7d" := by decide
    simp only [marshalClientContext, marshalMap, h1, h2, List.append_assoc]

theorem modifyResponse_header_roundtrip_witness :
    ∃ doc m',
      (ModifyResponse ⟨some [(ascii "FOO", ascii "bar")], 0⟩
        (ascii "/2018-06-01/runtime/invocation/next")).header = some doc ∧
      doc = ascii "\x7b\"env\":\x7b" ++
        marshalEntries (sortedEntries [(ascii "FOO", ascii "bar")]) ++ ascii "\x7d\x7d" ∧
      parseClientContext doc = some (some m') ∧ m'.Perm [(ascii "FOO", ascii "bar")] :=
  modifyResponse_header_roundtrip ⟨some [(ascii "FOO", ascii "bar")], 0⟩
    [(ascii "FOO", ascii "bar")] rfl (by decide)

/-- C7 fails as stated: a value that is not valid UTF-8 (a binary secret
converted to text, here the one byte `0xff`) is written as `\ufffd`, so that
the header for `K ↦ 0xff` reads back as `K ↦ U+FFFD`, another mapping; and
for the nil mapping the header is `{"env":null}`, which has no object under
`env`. -/
theorem modifyResponse_header_counterexample :
    (ModifyResponse ⟨some [(ascii "K", [0xff])], 0⟩
      (ascii "/2018-06-01/runtime/invocation/next")).header =
        some (ascii "\x7b\"env\":\x7b\"K\":\"\\ufffd\"\x7d\x7d") ∧
    parseClientContext (ascii "\x7b\"env\":\x7b\"K\":\"\\ufffd\"\x7d\x7d") =
      some (some [(ascii "K", [0xef, 0xbf, 0xbd])]) ∧
    ¬ List.Perm [(ascii "K", ([0xef, 0xbf, 0xbd] : GoString))] [(ascii "K", [0xff])] ∧
    (ModifyResponse ⟨none, 0⟩ (ascii "/2018-06-01/runtime/invocation/next")).header =
      some (ascii "\x7b\"env\":null\x7d") ∧
    parseClientContext (ascii "\x7b\"env\":null\x7d") = some none := by
  refine ⟨by decide, by decide, ?_, by decide, by decide⟩
  rw [List.perm_singleton]
  decide

/-- The header for the mapping `FOO ↦ bar` is exactly `{"env":{"FOO":"bar"}}`. -/
theorem modifyResponse_header_example :
    (ModifyResponse ⟨some [(ascii "FOO", ascii "bar")], 0⟩
      (ascii "/2018-06-01/runtime/invocation/next")).header =
        some (ascii "\x7b\"env\":\x7b\"FOO\":\"bar\"\x7d\x7d") := by
  decide

end Secretsctx
